import Mathlib

/-!
# Single-digit calculator: parser, evaluator, dependency engine

A shallow embedding of the calculator's C++ sources.

* `std::string` is a list of characters (`Str`), one character for one `char`: the code
  points below 256 stand for the byte values, and the character classes are those of the "C"
  locale. `std::stack` is a list whose head is the top.
* `float` is IEEE-754 binary32 with round-to-nearest-even (`F32`), the arithmetic of
  `float` operands on the usual targets (no excess precision).
* Anything the C++ abstract machine leaves undefined (reading the top of an empty stack,
  dereferencing a null child) is the outcome `Res.undefined`; a loop that can never leave
  is `Res.diverges`; the only unbounded recursion (the cascade of `storeExpressionValue`)
  is indexed by a recursion budget and answers `Res.outOfFuel` when the budget is used up.
-/

set_option autoImplicit false

/-- A `std::string`. -/
abbrev Str := List Char

/-- Outcome of running a piece of the program. -/
inductive Res (α : Type) where
  /-- The code returned normally. -/
  | ok (a : α)
  /-- The code ran into behaviour the language leaves undefined. -/
  | undefined
  /-- The code entered a loop whose condition can never become false. -/
  | diverges
  /-- The recursion budget of the model was used up. -/
  | outOfFuel
deriving DecidableEq, Repr

namespace Res

/-- Sequencing: the first outcome that is not `ok` ends the run. -/
def bind {α β : Type} (r : Res α) (f : α → Res β) : Res β :=
  match r with
  | ok a => f a
  | undefined => undefined
  | diverges => diverges
  | outOfFuel => outOfFuel

end Res

/-! ## Character classes of `<cctype>` in the "C" locale -/

/-- The function `std::isdigit`. -/
def isdigit (c : Char) : Bool := decide ('0'.toNat ≤ c.toNat) && decide (c.toNat ≤ '9'.toNat)

/-- The function `std::isalpha`. -/
def isalpha (c : Char) : Bool :=
  (decide ('a'.toNat ≤ c.toNat) && decide (c.toNat ≤ 'z'.toNat))
    || (decide ('A'.toNat ≤ c.toNat) && decide (c.toNat ≤ 'Z'.toNat))

/-- The function `std::isspace`: space, `\t`, `\n`, `\v`, `\f`, `\r`. -/
def isspace (c : Char) : Bool := c.toNat == 32 || (decide (9 ≤ c.toNat) && decide (c.toNat ≤ 13))

namespace Utils.Constants

/-- Valid white space character. -/
def cWhiteSpace : Char := ' '
/-- Valid left parenthesis character. -/
def cLeftParenthesis : Char := '('
/-- Valid right parenthesis character. -/
def cRightParenthesis : Char := ')'
/-- Valid addition binary operator character. -/
def cAddOp : Char := '+'
/-- Valid subtraction binary operator character. -/
def cSubOp : Char := '-'
/-- Valid multiplication binary operator character. -/
def cMultOp : Char := '*'
/-- Valid division binary operator character. -/
def cDivOp : Char := '/'
/-- Valid assignment operator character. -/
def cAssignOp : Char := '='

end Utils.Constants

/-! ## IEEE-754 binary32 -/

/-- A binary32 value: `finite neg m e` is `(-1)^neg * m * 2^e`. -/
inductive F32 where
  | finite (neg : Bool) (m : Nat) (e : Int)
  | inf (neg : Bool)
  | nan
deriving DecidableEq, Repr

namespace F32

/-- Signed zero. -/
def zero (neg : Bool) : F32 := finite neg 0 0

/-- Position of the leading one bit of `n` (zero for `n < 2`), by halving at most `fuel`
times. -/
def log2Aux : Nat → Nat → Nat
  | 0, _ => 0
  | fuel + 1, n => if 2 ≤ n then log2Aux fuel (n / 2) + 1 else 0

/-- Floor of the binary logarithm. -/
def log2 (n : Nat) : Nat := log2Aux n n

/-- Round `(-1)^neg * m * 2^e` to the nearest binary32 value, ties to even: 24 significant
bits, least exponent `-149` (subnormals), overflow to infinity above `(2^24 - 1) * 2^104`. -/
def round (neg : Bool) (m : Nat) (e : Int) : F32 :=
  if m = 0 then zero neg
  else
    let et : Int := max (e + (log2 m : Int) - 23) (-149)
    let q : Nat :=
      if et ≤ e then m * 2 ^ (e - et).toNat
      else
        let k := (et - e).toNat
        let q0 := m / 2 ^ k
        let rem := m % 2 ^ k
        let half := 2 ^ (k - 1)
        if half < rem ∨ (rem = half ∧ q0 % 2 = 1) then q0 + 1 else q0
    let q1 : Nat := if q = 2 ^ 24 then 2 ^ 23 else q
    let e1 : Int := if q = 2 ^ 24 then et + 1 else et
    if q1 = 0 then zero neg
    else if 104 < e1 then inf neg
    else finite neg q1 e1

/-- Conversion `static_cast<float>(int)`. -/
def ofInt (n : Int) : F32 := round (decide (n < 0)) n.natAbs 0

/-- Sign flip. -/
def neg : F32 → F32
  | finite s m e => finite (!s) m e
  | inf s => inf (!s)
  | nan => nan

/-- Binary32 addition. -/
def add : F32 → F32 → F32
  | nan, _ => nan
  | _, nan => nan
  | inf s, inf t => if s = t then inf s else nan
  | inf s, finite _ _ _ => inf s
  | finite _ _ _, inf t => inf t
  | finite s1 m1 e1, finite s2 m2 e2 =>
    let e := min e1 e2
    let a : Int := (if s1 then -1 else 1) * ((m1 * 2 ^ (e1 - e).toNat : Nat) : Int)
    let b : Int := (if s2 then -1 else 1) * ((m2 * 2 ^ (e2 - e).toNat : Nat) : Int)
    let s := a + b
    if s = 0 then zero (s1 && s2) else round (decide (s < 0)) s.natAbs e

/-- Binary32 subtraction. -/
def sub (a b : F32) : F32 := add a (neg b)

/-- Binary32 multiplication. -/
def mul : F32 → F32 → F32
  | nan, _ => nan
  | _, nan => nan
  | inf s, inf t => inf (xor s t)
  | inf s, finite t m _ => if m = 0 then nan else inf (xor s t)
  | finite s m _, inf t => if m = 0 then nan else inf (xor s t)
  | finite s1 m1 e1, finite s2 m2 e2 => round (xor s1 s2) (m1 * m2) (e1 + e2)

/-- Binary32 division. The quotient is computed to at least 27 bits with the remainder folded
into a sticky last bit, then rounded once. -/
def div : F32 → F32 → F32
  | nan, _ => nan
  | _, nan => nan
  | inf _, inf _ => nan
  | inf s, finite t _ _ => inf (xor s t)
  | finite s _ _, inf t => zero (xor s t)
  | finite s1 m1 e1, finite s2 m2 e2 =>
    if m2 = 0 then (if m1 = 0 then nan else inf (xor s1 s2))
    else if m1 = 0 then zero (xor s1 s2)
    else
      let sh := log2 m2 + 27
      let n := m1 * 2 ^ sh
      let q := n / m2
      let sticky := if n % m2 = 0 then 0 else 1
      round (xor s1 s2) (2 * q + sticky) (e1 - e2 - (sh : Int) - 1)

/-- Integer part of a finite value (rounding toward zero). -/
def trunc : F32 → Option Int
  | finite s m e =>
    let a : Nat := if 0 ≤ e then m * 2 ^ e.toNat else m / 2 ^ (-e).toNat
    some (if s then -(a : Int) else (a : Int))
  | _ => none

/-- The conversion `static_cast<int32_t>(float)` is defined exactly when the integer part
exists and fits in 32 bits. -/
def fitsInt32 (f : F32) : Bool :=
  match trunc f with
  | some v => decide (-(2 : Int) ^ 31 ≤ v) && decide (v ≤ 2 ^ 31 - 1)
  | none => false

/-- What the conversion to `int32_t` yields where C++ leaves it undefined (infinities, NaN,
values outside the 32-bit range): the "integer indefinite" value of the x86-64 conversion
instruction. Where a statement below names the converted value, it is for a value whose
integer part fits in 32 bits (`fitsInt32`). -/
def int32Indefinite : Int := -(2 : Int) ^ 31

/-- The conversion `static_cast<int32_t>(float)`. -/
def toInt32 (f : F32) : Int :=
  match trunc f with
  | some v => if -(2 : Int) ^ 31 ≤ v ∧ v ≤ 2 ^ 31 - 1 then v else int32Indefinite
  | none => int32Indefinite

end F32

/-! ## `ast/Node.hpp` -/

namespace AST

/-- A `std::unique_ptr<Node>`: `nil` is the null pointer, `node c l r` points to a node
holding `c` with children `l` and `r`. -/
inductive Node where
  | nil
  | node (mNodeValue : Char) (mLeftNode mRightNode : Node)
deriving DecidableEq, Repr

/-- A node without children, `Node(c)`. -/
def Node.leaf (c : Char) : Node := .node c .nil .nil

end AST

open AST (Node)

/-! ## `evaluator/Evaluator.cpp` -/

namespace Evaluator

open Utils.Constants

/-- The alias `Dependencies` (`std::unordered_set<std::string>`): a duplicate-free list, in
the order in which the set enumerates its elements. -/
abbrev Dependencies := List Str

/-- The alias `Result` (`std::variant<int, Dependencies>`). -/
inductive Result where
  | integer (value : Int)
  | dependencies (deps : Dependencies)
deriving DecidableEq, Repr

/-- The hash `std::hash<std::string>` of libstdc++ on 64 bits (the function `_Hash_bytes`
with the seed `0xc70f6907`) on a string shorter than eight characters, as the names of
operands are: the bytes are read as one little-endian number. -/
def hashOfName (name : Str) : Nat :=
  let mul : Nat := 0xc6a4a793 * 2 ^ 32 + 0x5bd1e995
  let shiftMix := fun (v : Nat) => v ^^^ (v >>> 47)
  let data := name.foldr (fun c acc => c.toNat + 256 * acc) 0
  let start := 0xc70f6907 ^^^ (name.length * mul % 2 ^ 64)
  let mixed := if name = [] then start else (start ^^^ data) * mul % 2 ^ 64
  shiftMix (shiftMix mixed * mul % 2 ^ 64)

/-- The number of buckets of a `std::unordered_set` of libstdc++ that has grown from empty
to `size` elements by insertions (prime numbers, each at least twice the one before). -/
def bucketCount (size : Nat) : Nat :=
  if size = 0 then 1
  else if size ≤ 13 then 13
  else if size ≤ 29 then 29
  else if size ≤ 59 then 59
  else 127

/-- A node linked into the list of nodes of the hash table: at the head of the nodes of its
bucket, and at the head of the whole list when its bucket is empty. -/
def linkNode (buckets : Nat) (name : Str) (nodes : List Str) : List Str :=
  if nodes.any fun node => hashOfName node % buckets == hashOfName name % buckets then
    (nodes.takeWhile fun node => hashOfName node % buckets != hashOfName name % buckets)
      ++ name :: nodes.dropWhile fun node => hashOfName node % buckets != hashOfName name % buckets
  else name :: nodes

/-- The nodes linked again, in their order, into a table of `buckets` buckets. -/
def rehash (buckets : Nat) (nodes : List Str) : List Str :=
  nodes.foldl (fun linked node => linkNode buckets node linked) []

/-- Insertion into the set `mDependencies`. The list holds the names in the order in which
the `std::unordered_set` of libstdc++ enumerates them, the order in which
`storeExpressionDependencies` walks the set. -/
def insertDependency (name : Str) (deps : Dependencies) : Dependencies :=
  if name ∈ deps then deps
  else
    linkNode (bucketCount (deps.length + 1)) name
      (if bucketCount (deps.length + 1) = bucketCount deps.length then deps
        else rehash (bucketCount (deps.length + 1)) deps)

/-- The helper `performArithmeticOperation`. -/
def performArithmeticOperation (operation : Char) (leftOperand rightOperand : F32) : F32 :=
  if operation = cAddOp then F32.add leftOperand rightOperand
  else if operation = cSubOp then F32.sub leftOperand rightOperand
  else if operation = cMultOp then F32.mul leftOperand rightOperand
  else if operation = cDivOp then F32.div leftOperand rightOperand
  else F32.ofInt 1

/-- The method `analyseAndTraverseASTNode`, with the member `mDependencies` threaded through. -/
def analyseAndTraverseASTNode (lookup : Str → Option Int) :
    Node → Dependencies → Res (F32 × Dependencies)
  | .nil, _ => .undefined
  | .node nodeValue left right, deps =>
    if isdigit nodeValue then
      .ok (F32.ofInt ((nodeValue.toNat : Int) - ('0'.toNat : Int)), deps)
    else if isalpha nodeValue then
      match lookup [nodeValue] with
      | some v => .ok (F32.ofInt v, deps)
      | none => .ok (F32.zero false, insertDependency [nodeValue] deps)
    else
      (analyseAndTraverseASTNode lookup left deps).bind fun l =>
        (analyseAndTraverseASTNode lookup right l.2).bind fun r =>
          .ok (performArithmeticOperation nodeValue l.1 r.1, r.2)

/-- The method `Evaluator::execute` of an evaluator constructed on `astRootNode` and the
lookup map. -/
def execute (astRootNode : Node) (lookup : Str → Option Int) : Res Result :=
  match astRootNode with
  | .nil => .ok (.integer 0)
  | .node c l r =>
    (analyseAndTraverseASTNode lookup (.node c l r) []).bind fun a =>
      let expressionValue := F32.toInt32 a.1
      if a.2 ≠ [] then .ok (.dependencies a.2) else .ok (.integer expressionValue)

end Evaluator

/-! ## `utils/Methods.hpp` -/

namespace Utils.Methods

/-- The pieces of `s` between occurrences of `delimiter`; `cur` holds, reversed, the piece
being read. -/
def splitAux (delimiter : Char) : Str → Str → List Str
  | [], cur => [cur.reverse]
  | c :: cs, cur =>
    if c = delimiter then cur.reverse :: splitAux delimiter cs []
    else splitAux delimiter cs (c :: cur)

/-- The function `splitString` (`std::ranges::views::split`): an empty string has no piece,
any other string has one piece more than it has delimiters. -/
def splitString (stringToSplit : Str) (delimiter : Char) : List Str :=
  match stringToSplit with
  | [] => []
  | c :: cs => splitAux delimiter (c :: cs) []

/-- The function `removeWhiteSpacesFromString`. -/
def removeWhiteSpacesFromString (stringToTrim : Str) : Str :=
  stringToTrim.filter fun stringChar => !isspace stringChar

end Utils.Methods

/-! ## `parser/Parser.cpp` -/

/-- The data members of a `Parser`. Both stacks list their top first. -/
structure Parser where
  /-- String representation of the LHS operand. -/
  mLHSString : Str := []
  /-- String representation of the RHS expression. -/
  mRHSString : Str := []
  /-- Input string to parse. -/
  mInputString : Str
  /-- Operators of the RHS expression during parsing. -/
  mRHSOperatorStack : List Char := []
  /-- Stack of AST nodes that represent the RHS expression. -/
  mRHSValueStack : List Node := []
deriving DecidableEq, Repr

namespace Parser

open Utils.Constants

/-- The constructor `Parser(inputToParse)`. -/
def new (inputToParse : Str) : Parser := { mInputString := inputToParse }

/-- The helper `isParenthesis`. -/
def isParenthesis (character : Char) : Bool :=
  character = cLeftParenthesis || character = cRightParenthesis

/-- The helper `isOperator`. -/
def isOperator (character : Char) : Bool :=
  character = cAddOp || character = cSubOp || character = cMultOp || character = cDivOp

/-- The helper `isSingleDigitInteger`. -/
def isSingleDigitInteger (previousCharacter character : Char) : Bool :=
  !isdigit previousCharacter && isdigit character

/-- The helper `isUnaryMinus`. -/
def isUnaryMinus (previousCharacter character : Char) : Bool :=
  character = cSubOp
    && (isOperator previousCharacter || isspace previousCharacter
        || previousCharacter = cLeftParenthesis)

/-- The helper `operatorPrecedence`. -/
def operatorPrecedence (op : Char) : Nat :=
  if op = cRightParenthesis then 4
  else if op = cMultOp ∨ op = cDivOp then 3
  else if op = cAddOp ∨ op = cSubOp then 2
  else if op = cLeftParenthesis then 1
  else 0

/-- The method `getOperandOfLHS`. -/
def getOperandOfLHS (p : Parser) : Str := p.mLHSString

/-- The method `getASTOfRHS`. -/
def getASTOfRHS (p : Parser) : List Node := p.mRHSValueStack

/-- The method `parseLHS`. -/
def parseLHS (p : Parser) : Bool := p.mLHSString.length = 1

/-- The `for` loop of `validateRHS` over the characters still to read: `validatedString` is
the string built so far (never empty, it starts as the left parenthesis), the two counters
count the parentheses read (the inputs considered are shorter than `2^32` characters, so the
32-bit counters do not wrap). `none` is the early `return false`. -/
def validateLoop : Str → Str → Nat → Nat → Option (Str × Nat × Nat)
  | [], validatedString, l, r => some (validatedString, l, r)
  | character :: rest, validatedString, l, r =>
    let previousValidCharacter := validatedString.getLast?.getD cLeftParenthesis
    if isSingleDigitInteger previousValidCharacter character then
      if previousValidCharacter = cRightParenthesis then none
      else validateLoop rest (validatedString ++ [character]) l r
    else if isOperator character then
      if isUnaryMinus previousValidCharacter character then none
      else if isOperator previousValidCharacter || previousValidCharacter = cLeftParenthesis then
        none
      else validateLoop rest (validatedString ++ [character]) l r
    else if isParenthesis character then
      let l1 := if character = cLeftParenthesis then l + 1 else l
      let r1 :=
        if character = cLeftParenthesis then r
        else if character = cRightParenthesis then r + 1 else r
      if character = cLeftParenthesis && isdigit previousValidCharacter then none
      else validateLoop rest (validatedString ++ [character]) l1 r1
    else if !isalpha character then none
    else validateLoop rest (validatedString ++ [character]) l r

/-- The method `validateRHS`: on success `mRHSString` becomes the validated string wrapped in
one pair of parentheses. -/
def validateRHS (p : Parser) : Bool × Parser :=
  if p.mRHSString = [] then (false, p)
  else
    match validateLoop p.mRHSString [cLeftParenthesis] 0 0 with
    | none => (false, p)
    | some (validatedString, leftParenthesisCounter, rightParenthesisCounter) =>
      if leftParenthesisCounter ≠ rightParenthesisCounter then (false, p)
      else if isOperator (validatedString.getLast?.getD cLeftParenthesis) then (false, p)
      else (true, { p with mRHSString := validatedString ++ [cRightParenthesis] })

/-- The lambda `generateNewNode` of `createASTforRHS` on the two stacks: nothing happens
unless both stacks are non-empty; with a single node on the node stack the second `top()`
reads an empty stack. -/
def generateNewNode (ops : List Char) (values : List Node) : Res (List Char × List Node) :=
  match ops, values with
  | operation :: ops1, rightValue :: leftValue :: values1 =>
    .ok (ops1, Node.node operation leftValue rightValue :: values1)
  | _ :: _, [_] => .undefined
  | _, _ => .ok (ops, values)

/-- A loop `while (!mRHSOperatorStack.empty() && cond(top)) generateNewNode();`. Each round
is `generateNewNode` on a non-empty operator stack: with two nodes it pops the operator, with
one node it reads an empty stack, with no node it changes nothing, so the loop never ends. -/
def generateWhile (cond : Char → Bool) : List Char → List Node → Res (List Char × List Node)
  | [], values => .ok ([], values)
  | operation :: ops1, values =>
    if cond operation then
      match values with
      | rightValue :: leftValue :: values1 =>
        generateWhile cond ops1 (Node.node operation leftValue rightValue :: values1)
      | [_] => .undefined
      | [] => .diverges
    else .ok (operation :: ops1, values)

/-- The `for` loop of `createASTforRHS` over the characters still to read. -/
def createLoop : Str → List Char → List Node → Res (List Char × List Node)
  | [], ops, values => .ok (ops, values)
  | character :: rest, ops, values =>
    if isdigit character || isalpha character then
      createLoop rest ops (Node.leaf character :: values)
    else if isOperator character then
      (generateWhile
          (fun top => decide (operatorPrecedence character ≤ operatorPrecedence top))
          ops values).bind fun s =>
        createLoop rest (character :: s.1) s.2
    else if character = cLeftParenthesis then
      createLoop rest (character :: ops) values
    else if character = cRightParenthesis then
      (generateWhile (fun top => decide (top ≠ cLeftParenthesis)) ops values).bind fun s =>
        createLoop rest s.1.tail s.2
    else createLoop rest ops values

/-- The method `createASTforRHS`. -/
def createASTforRHS (p : Parser) : Res (Bool × Parser) :=
  if p.mRHSString = [] then .ok (false, p)
  else
    (createLoop p.mRHSString p.mRHSOperatorStack p.mRHSValueStack).bind fun s =>
      (generateWhile (fun _ => true) s.1 s.2).bind fun s1 =>
        .ok (true, { p with mRHSOperatorStack := s1.1, mRHSValueStack := s1.2 })

/-- The method `parseRHS`. -/
def parseRHS (p : Parser) : Res (Bool × Parser) :=
  let v := validateRHS p
  if v.1 then createASTforRHS v.2 else .ok (false, v.2)

/-- The method `Parser::execute`: the returned flag and the parser afterwards. -/
def execute (p : Parser) : Res (Bool × Parser) :=
  let p1 := { p with mInputString := Utils.Methods.removeWhiteSpacesFromString p.mInputString }
  let inputStringTokens := Utils.Methods.splitString p1.mInputString cAssignOp
  if inputStringTokens.length ≠ 2 then .ok (false, p1)
  else
    let p2 := { p1 with
      mLHSString := inputStringTokens.head?.getD [],
      mRHSString := inputStringTokens.getLast?.getD [] }
    if parseLHS p2 then parseRHS p2 else .ok (false, p2)

end Parser

/-! ## `calculator/State.cpp` -/

namespace Calculator

/-- The data members of `State`. The multimap `mOperandDependenciesMap` is the list of its
(dependency, dependant) entries in the order they were recorded (no entry is ever erased);
the order in which the container enumerates them is that of `emplaced`; an entry of
`mExpressionsWithDependenciesMap` is the node stack the parser produced (the shared pointer
itself is never null, the parser creates the stack in its constructor). -/
structure State where
  /-- LIFO stack of the operands of the registered operations, top first. -/
  mOperandOrderStack : List Str := []
  /-- Map holding the operands with their current values. -/
  mOperandValuesMap : Str → Option Int := fun _ => none
  /-- Multimap from an operand to the operands whose expression depends on it. -/
  mOperandDependenciesMap : List (Str × Str) := []
  /-- Map from an operand to the expression stored for it. -/
  mExpressionsWithDependenciesMap : Str → Option (List Node) := fun _ => none

namespace State

/-- An entry linked right after the first entry of its key, at the end when the key is
new. -/
def emplaceAfterFirst (key value : Str) : List (Str × Str) → List (Str × Str)
  | [] => [(key, value)]
  | entry :: rest =>
    if entry.1 = key then entry :: (key, value) :: rest
    else entry :: emplaceAfterFirst key value rest

/-- An entry linked right before the first entry of its key, at the end when the key is
new. -/
def emplaceBeforeFirst (key value : Str) : List (Str × Str) → List (Str × Str)
  | [] => [(key, value)]
  | entry :: rest =>
    if entry.1 = key then (key, value) :: entry :: rest
    else entry :: emplaceBeforeFirst key value rest

/-- The number of entries up to which the `std::unordered_multimap` of libstdc++ looks for
an equal key by walking the whole container (its small size threshold for keys of type
`std::string`). -/
def smallSizeThreshold : Nat := 20

/-- The call `emplace(key, value)` on the `std::unordered_multimap`, on the list of the
entries in the order the container enumerates those of one key (the place of entries of
different keys with respect to each other is never observed). The C++ standard leaves the
place of the new entry among those of its key open; libstdc++ links it right after the first
entry of the key while the container holds at most `smallSizeThreshold` entries, and right
before the first entry of the key when it holds more. Rehashing keeps the entries of one key
in their order. -/
def emplace (map : List (Str × Str)) (key value : Str) : List (Str × Str) :=
  if map.length ≤ smallSizeThreshold then emplaceAfterFirst key value map
  else emplaceBeforeFirst key value map

/-- The container after the calls of `emplace` for the entries of `recorded`, in that
order. -/
def emplaced (recorded : List (Str × Str)) : List (Str × Str) :=
  recorded.foldl (fun map entry => emplace map entry.1 entry.2) []

/-- The range `mOperandDependenciesMap.equal_range(operand)`: the dependants recorded under
`operand`, in the order in which the container enumerates the entries of that key. -/
def equalRange (st : State) (operand : Str) : List Str :=
  ((emplaced st.mOperandDependenciesMap).filter fun entry => entry.1 = operand).map Prod.snd

/-- The method `updateOperationOrder`. -/
def updateOperationOrder (st : State) (operand : Str) : State :=
  { st with mOperandOrderStack := operand :: st.mOperandOrderStack }

/-- The call `insert_or_assign` on a map. -/
def insertOrAssign {β : Type} (map : Str → Option β) (key : Str) (value : β) : Str → Option β :=
  fun k => if k = key then some value else map k

/-- The call `erase` on a map. -/
def erase {β : Type} (map : Str → Option β) (key : Str) : Str → Option β :=
  fun k => if k = key then none else map k

/-- One round of the `for` loop of `storeValueAndCheckDependencies`, for the dependant
`dependantOperand`; `recurse` is the recursive call of the lambda. -/
def cascadeStep (recurse : State → List (Str × Int) → Str → Int → Res (State × List (Str × Int)))
    (s : State × List (Str × Int)) (dependantOperand : Str) : Res (State × List (Str × Int)) :=
  match s.1.mExpressionsWithDependenciesMap dependantOperand with
  | none => .ok s
  | some [] => .undefined
  | some (top :: _) =>
    (Evaluator.execute top s.1.mOperandValuesMap).bind fun evaluatorResult =>
      match evaluatorResult with
      | .integer dependantOperandResult => recurse s.1 s.2 dependantOperand dependantOperandResult
      | .dependencies _ => .ok s

/-- The `for` loop of `storeValueAndCheckDependencies` over the dependants still to visit. -/
def cascadeLoop (recurse : State → List (Str × Int) → Str → Int → Res (State × List (Str × Int))) :
    List Str → State × List (Str × Int) → Res (State × List (Str × Int))
  | [], s => .ok s
  | dependantOperand :: rest, s =>
    (cascadeStep recurse s dependantOperand).bind fun s1 => cascadeLoop recurse rest s1

/-- The recursive lambda `storeValueAndCheckDependencies` of `storeExpressionValue`, with
the captured state and `affectedValues` threaded through. The first argument bounds the depth
of the recursion. -/
def storeValueAndCheckDependencies :
    Nat → State → List (Str × Int) → Str → Int → Res (State × List (Str × Int))
  | 0, _, _, _, _ => .outOfFuel
  | fuel + 1, st, affectedValues, newOperand, newValue =>
    let st1 := { st with
      mOperandValuesMap := insertOrAssign st.mOperandValuesMap newOperand newValue }
    cascadeLoop (storeValueAndCheckDependencies fuel) (equalRange st1 newOperand)
      (st1, affectedValues ++ [(newOperand, newValue)])

/-- The method `storeExpressionValue`: the state afterwards and the returned vector. -/
def storeExpressionValue (fuel : Nat) (st : State) (operand : Str) (value : Int) :
    Res (State × List (Str × Int)) :=
  storeValueAndCheckDependencies fuel st [] operand value

/-- The method `storeExpressionDependencies`: the returned flag and the state afterwards. -/
def storeExpressionDependencies (st : State) (operand : Str) (expressionAST : List Node)
    (dependencies : Evaluator.Dependencies) : Bool × State :=
  if (equalRange st operand).any fun dependantOperand => decide (dependantOperand ∈ dependencies)
  then (false, st)
  else
    (true, { st with
      mExpressionsWithDependenciesMap :=
        insertOrAssign st.mExpressionsWithDependenciesMap operand expressionAST,
      mOperandDependenciesMap :=
        st.mOperandDependenciesMap ++ dependencies.map fun dependency => (dependency, operand) })

/-- The method `getOperandValueMap`. -/
def getOperandValueMap (st : State) : Str → Option Int := st.mOperandValuesMap

/-- The `while` loop of `getLastFulfilledOperation` over a copy of the history. -/
def lastFulfilledIn (values : Str → Option Int) : List Str → Str × Int
  | [] => ([], 0)
  | top :: rest =>
    match values top with
    | some v => (top, v)
    | none => lastFulfilledIn values rest

/-- The method `getLastFulfilledOperation`; the empty pair is `([], 0)`. -/
def getLastFulfilledOperation (st : State) : Str × Int :=
  lastFulfilledIn st.mOperandValuesMap st.mOperandOrderStack

/-- The `for` loop of `undoLastRegisteredOperations` with `count` rounds to go. The guard of
the method leaves at least `count` entries on the history, so the first case is not reached. -/
def undoLoop : Nat → State → List Str → State × List Str
  | 0, st, deletedOperations => (st, deletedOperations)
  | count + 1, st, deletedOperations =>
    match st.mOperandOrderStack with
    | [] => (st, deletedOperations)
    | operand :: rest =>
      undoLoop count
        { st with
          mOperandValuesMap := erase st.mOperandValuesMap operand,
          mExpressionsWithDependenciesMap := erase st.mExpressionsWithDependenciesMap operand,
          mOperandOrderStack := rest }
        (deletedOperations ++ [operand])

/-- The method `undoLastRegisteredOperations`: the state afterwards and the returned vector. -/
def undoLastRegisteredOperations (st : State) (undoCount : Int) : State × List Str :=
  if undoCount ≤ 0 ∨ (st.mOperandOrderStack.length : Int) < undoCount then (st, [])
  else undoLoop undoCount.toNat st []

end State

/-! ## `calculator/Runner.cpp` -/

/-- The enum `SupportedOperation`. -/
inductive SupportedOperation where
  | RESULT
  | UNDO
  | OTHER
deriving DecidableEq, Repr

/-- The value of a string of decimal digits. -/
def digitsValue (digits : Str) : Nat :=
  digits.foldl (fun acc c => 10 * acc + (c.toNat - '0'.toNat)) 0

/-- The function `std::stoi` in base ten: leading white space and one sign are skipped, the
longest run of digits is read; `none` is a thrown exception (no digit, or a value outside
the range of `int`). -/
def stoi (s : Str) : Option Int :=
  let s1 := s.dropWhile isspace
  let negative := s1.head? = some '-'
  let s2 := if s1.head? = some '-' ∨ s1.head? = some '+' then s1.tail else s1
  let digits := s2.takeWhile isdigit
  if digits = [] then none
  else
    let v : Int := if negative then -(digitsValue digits : Int) else (digitsValue digits : Int)
    if v < -(2 : Int) ^ 31 ∨ 2 ^ 31 - 1 < v then none else some v

/-- The function `std::to_string(int)`. -/
def to_string (value : Int) : Str := (toString value).toList

/-- The function `getOperationRequest`. -/
def getOperationRequest (input : Str) : SupportedOperation × Option Int :=
  let inputStringTokens := Utils.Methods.splitString input Utils.Constants.cWhiteSpace
  if inputStringTokens.length = 1 ∧ inputStringTokens.getLast? = some "result".toList then
    (.RESULT, none)
  else if inputStringTokens.length = 2 ∧ inputStringTokens.head? = some "undo".toList then
    (.UNDO, some ((stoi (inputStringTokens.getLast?.getD [])).getD (-1)))
  else (.OTHER, none)

/-- The data member of `Runner`. -/
structure Runner where
  /-- State of the calculator. -/
  mState : State := {}

namespace Runner

/-- The method `Runner::processInstruction`: the returned vector and the runner afterwards.
`fuel` bounds the depth of the cascade of `storeExpressionValue`. -/
def processInstruction (fuel : Nat) (runner : Runner) (input : Str) : Res (List Str × Runner) :=
  let operationRequest := getOperationRequest input
  match operationRequest.1 with
  | .RESULT =>
    let lastOperation := runner.mState.getLastFulfilledOperation
    if lastOperation = ([], 0) then .ok ([], runner)
    else
      .ok (["return ".toList ++ lastOperation.1 ++ " = ".toList ++ to_string lastOperation.2],
        runner)
  | .UNDO =>
    let undone := runner.mState.undoLastRegisteredOperations (operationRequest.2.getD 0)
    .ok (undone.2.map fun undoneOperation => "delete ".toList ++ undoneOperation,
      { runner with mState := undone.1 })
  | .OTHER =>
    (Parser.execute (Parser.new input)).bind fun parsed =>
      if !parsed.1 then .ok ([], runner)
      else
        let expressionOperand := parsed.2.getOperandOfLHS
        let expressionAST := parsed.2.getASTOfRHS
        match expressionAST with
        | [] => .undefined
        | top :: _ =>
          (Evaluator.execute top runner.mState.getOperandValueMap).bind fun evaluationResult =>
            match evaluationResult with
            | .integer variantValue =>
              (runner.mState.storeExpressionValue fuel expressionOperand variantValue).bind
                fun stored =>
                  .ok (stored.2.map fun affected =>
                      affected.1 ++ " = ".toList ++ to_string affected.2,
                    { runner with
                      mState := stored.1.updateOperationOrder expressionOperand })
            | .dependencies variantValue =>
              if variantValue ≠ [] then
                let attempt :=
                  runner.mState.storeExpressionDependencies expressionOperand expressionAST
                    variantValue
                if !attempt.1 then .ok ([], runner)
                else
                  .ok ([], { runner with
                    mState := attempt.2.updateOperationOrder expressionOperand })
              else .ok ([], runner)

/-- Processing a list of instructions in order, collecting the returned vectors. -/
def processAll (fuel : Nat) : Runner → List Str → Res (List (List Str) × Runner)
  | runner, [] => .ok ([], runner)
  | runner, input :: rest =>
    (processInstruction fuel runner input).bind fun r =>
      (processAll fuel r.2 rest).bind fun rs => .ok (r.1 :: rs.1, rs.2)

end Runner

end Calculator

/-! ## Notions used to state the properties -/

namespace AST.Node

/-- The trees the evaluator can walk without meeting a null pointer: a node holding a digit
or a letter is not descended into, any other node needs both children. -/
def evaluable : Node → Bool
  | nil => false
  | node c l r => isdigit c || isalpha c || (evaluable l && evaluable r)

/-- The expression trees of the data model: a leaf holds a digit or a letter and has no
child, an internal node holds one of `+ - * /` and has two children. -/
def isExpression : Node → Bool
  | nil => false
  | node c nil nil => isdigit c || isalpha c
  | node c l r => Parser.isOperator c && isExpression l && isExpression r

/-- The variable names met by the evaluator, left to right (in an expression tree: the
letters held by its leaves). -/
def variableNames : Node → List Str
  | nil => []
  | node c l r =>
    if isdigit c then []
    else if isalpha c then [[c]]
    else variableNames l ++ variableNames r

/-- Number of nodes of a tree. -/
def size : Node → Nat
  | nil => 0
  | node _ l r => 1 + size l + size r

end AST.Node

namespace Evaluator

/-- The variables of a tree that are not keys of the lookup map. -/
def missingVariables (lookup : Str → Option Int) (t : Node) : List Str :=
  t.variableNames.filter fun v => (lookup v).isNone

/-- The binary32 value of a tree, bottom-up: a digit is its value, a variable is its mapped
value converted to `float` (zero when it has none), any other node applies its operator to
the values of its children with one binary32 rounding. -/
def floatValue (lookup : Str → Option Int) : Node → F32
  | .nil => F32.zero false
  | .node c l r =>
    if isdigit c then F32.ofInt ((c.toNat : Int) - ('0'.toNat : Int))
    else if isalpha c then
      match lookup [c] with
      | some v => F32.ofInt v
      | none => F32.zero false
    else performArithmeticOperation c (floatValue lookup l) (floatValue lookup r)

/-- The value of an expression tree in exact rational arithmetic: digits as `0..9`,
variables as their mapped value, internal nodes as `+ - * /` without rounding. -/
def exactValue (lookup : Str → Option Int) : Node → ℚ
  | .nil => 0
  | .node c l r =>
    if isdigit c then ((c.toNat : Int) - ('0'.toNat : Int) : Int)
    else if isalpha c then (((lookup [c]).getD 0 : Int) : ℚ)
    else if c = Utils.Constants.cAddOp then exactValue lookup l + exactValue lookup r
    else if c = Utils.Constants.cSubOp then exactValue lookup l - exactValue lookup r
    else if c = Utils.Constants.cMultOp then exactValue lookup l * exactValue lookup r
    else if c = Utils.Constants.cDivOp then exactValue lookup l / exactValue lookup r
    else 1

/-- Truncation of a rational toward zero. -/
def truncTowardZero (q : ℚ) : Int := if 0 ≤ q then ⌊q⌋ else -⌊-q⌋

/-- No division of the tree has a divisor whose exact value is zero. -/
def noZeroDivisor (lookup : Str → Option Int) : Node → Prop
  | .nil => True
  | .node c l r =>
    if isdigit c || isalpha c then True
    else noZeroDivisor lookup l ∧ noZeroDivisor lookup r ∧
      (c = Utils.Constants.cDivOp → exactValue lookup r ≠ 0)

end Evaluator


/-- An operand character of an expression: a digit or a letter. -/
def isOperand (c : Char) : Bool := isdigit c || isalpha c

namespace Calculator.State

/-- The value map after the stores of `l`, taken in order. -/
def applyStores (values : Str → Option Int) (l : List (Str × Int)) : Str → Option Int :=
  l.foldl (fun m p => insertOrAssign m p.1 p.2) values

/-- The value paired with the last occurrence of `k` in `l`. -/
def lastValue (l : List (Str × Int)) (k : Str) : Option Int :=
  (l.reverse.find? fun p => decide (p.1 = k)).map Prod.snd

/-- The history, the dependency edges and the pending expressions of two states agree. -/
def SameBookkeeping (st st1 : State) : Prop :=
  st1.mOperandOrderStack = st.mOperandOrderStack
    ∧ st1.mOperandDependenciesMap = st.mOperandDependenciesMap
    ∧ st1.mExpressionsWithDependenciesMap = st.mExpressionsWithDependenciesMap

/-- What a run of stores from `(st, acc)` to `(st1, acc1)` does: only the value map changes,
by the stores appended to the list, and every appended store is of an operand with a pending
expression. -/
def CascadePost (st : State) (acc : List (Str × Int)) (st1 : State) (acc1 : List (Str × Int)) :
    Prop :=
  SameBookkeeping st st1
    ∧ ∃ l, acc1 = acc ++ l
      ∧ st1.mOperandValuesMap = applyStores st.mOperandValuesMap l
      ∧ ∀ p ∈ l, (st.mExpressionsWithDependenciesMap p.1).isSome = true

end Calculator.State

namespace Calculator.State

/-- The function `rank` decreases along every recorded edge that leads to an operand with a
pending expression: the cascade cannot come back to an operand it is storing. -/
def RankedBy (st : State) (rank : Str → Nat) : Prop :=
  ∀ e ∈ st.mOperandDependenciesMap,
    (st.mExpressionsWithDependenciesMap e.2).isSome = true → rank e.2 < rank e.1

/-- Every stored node stack has on top a tree the evaluator can walk. -/
def PendingEvaluable (st : State) : Prop :=
  ∀ k stack, st.mExpressionsWithDependenciesMap k = some stack →
    ∃ top rest, stack = top :: rest ∧ top.evaluable = true

end Calculator.State

/-! ## Concrete runs used below -/

namespace Calculator

/-- The three definitions named in the comment of `storeExpressionDependencies`. -/
def cyclicInstructions : List Str := ["a=c".toList, "b=a".toList, "c=b".toList]

/-- The state of the calculator after `cyclicInstructions`. -/
def cyclicState : State :=
  { mOperandOrderStack := [['c'], ['b'], ['a']],
    mOperandValuesMap := fun _ => none,
    mOperandDependenciesMap := [(['c'], ['a']), (['a'], ['b']), (['b'], ['c'])],
    mExpressionsWithDependenciesMap :=
      State.insertOrAssign
        (State.insertOrAssign
          (State.insertOrAssign (fun _ => none) ['a'] [Node.leaf 'c'])
          ['b'] [Node.leaf 'a'])
        ['c'] [Node.leaf 'b'] }

/-- The successor of an operand on the cycle of `cyclicState`. -/
def cyclicNext (k : Str) : Str :=
  if k = ['a'] then ['b'] else if k = ['b'] then ['c'] else ['a']

/-- Three definitions that each add one to the next. -/
def chainInstructions : List Str := ["b=a+1".toList, "c=b+1".toList, "a=c+1".toList]

/-- The state of the calculator after `chainInstructions`. -/
def chainState : State :=
  { mOperandOrderStack := [['a'], ['c'], ['b']],
    mOperandValuesMap := fun _ => none,
    mOperandDependenciesMap := [(['a'], ['b']), (['b'], ['c']), (['c'], ['a'])],
    mExpressionsWithDependenciesMap :=
      State.insertOrAssign
        (State.insertOrAssign
          (State.insertOrAssign (fun _ => none) ['b']
            [Node.node '+' (Node.leaf 'a') (Node.leaf '1')])
          ['c'] [Node.node '+' (Node.leaf 'b') (Node.leaf '1')])
        ['a'] [Node.node '+' (Node.leaf 'c') (Node.leaf '1')] }

end Calculator

namespace Calculator

/-- The state of the calculator after the line `f=g*7`. -/
def forwardState : State :=
  { mOperandOrderStack := [['f']],
    mOperandDependenciesMap := [(['g'], ['f'])],
    mExpressionsWithDependenciesMap :=
      State.insertOrAssign (fun _ => none) ['f'] [Node.node '*' (Node.leaf 'g') (Node.leaf '7')] }

/-- The state `forwardState` after `storeExpressionValue("g", 6)`. -/
def forwardStateResolved : State :=
  { forwardState with
    mOperandValuesMap :=
      State.insertOrAssign (State.insertOrAssign (fun _ => none) ['g'] 6) ['f'] 42 }

/-- Lines after which `y = w+x` is pending with `x` known and `w` undone. -/
def undoneInstructions : List Str :=
  ["w=1".toList, "y=w+x".toList, "w=2".toList, "undo 1".toList, "x=3".toList]

end Calculator

namespace Calculator

/-- The lines of the integration test up to the undo of `f` and `e`. -/
def undoInstructions : List Str :=
  ["a=2+3".toList, "b=e-2".toList, "c=1+2".toList, "d=e/3".toList, "e=a+c".toList,
    "f=3+4".toList, "undo 2".toList]

/-- The state of the calculator after `undoInstructions`. -/
def undoState : State :=
  { mOperandOrderStack := [['d'], ['c'], ['b'], ['a']],
    mOperandValuesMap :=
      State.erase
        (State.erase
          (State.insertOrAssign
            (State.insertOrAssign
              (State.insertOrAssign
                (State.insertOrAssign
                  (State.insertOrAssign
                    (State.insertOrAssign (fun _ => none) ['a'] 5)
                    ['c'] 3)
                  ['e'] 8)
                ['b'] 6)
              ['d'] 2)
            ['f'] 7)
          ['f'])
        ['e'],
    mOperandDependenciesMap := [(['e'], ['b']), (['e'], ['d'])],
    mExpressionsWithDependenciesMap :=
      State.erase
        (State.erase
          (State.insertOrAssign
            (State.insertOrAssign (fun _ => none) ['b']
              [Node.node '-' (Node.leaf 'e') (Node.leaf '2')])
            ['d'] [Node.node '/' (Node.leaf 'e') (Node.leaf '3')])
          ['f'])
        ['e'] }

end Calculator

namespace Evaluator

/-- The tree the parser builds for `9*9*9*9*9*9*9*9`. -/
def ninesTree : Node :=
  .node '*' (.node '*' (.node '*' (.node '*' (.node '*' (.node '*' (.node '*'
    (.leaf '9') (.leaf '9')) (.leaf '9')) (.leaf '9')) (.leaf '9')) (.leaf '9')) (.leaf '9'))
    (.leaf '9')

/-- The tree of `4+5+7/2` built in the unit test of the evaluator. -/
def testTree : Node :=
  .node '+' (.node '+' (.leaf '4') (.leaf '5')) (.node '/' (.leaf '7') (.leaf '2'))

/-- The tree of `4+a+7/b` built in the unit test of the evaluator. -/
def testTreeWithVariables : Node :=
  .node '+' (.node '+' (.leaf '4') (.leaf 'a')) (.node '/' (.leaf '7') (.leaf 'b'))

/-- The lookup map `{a: 5, b: 2}` of the unit test of the evaluator. -/
def testLookup : Str → Option Int :=
  fun k => if k = ['a'] then some 5 else if k = ['b'] then some 2 else none

end Evaluator

namespace F32

/-- The rational number a finite binary32 value stands for (zero for infinities and NaN). -/
def toRat : F32 → ℚ
  | finite s m e => (if s then -1 else 1) * ((m : ℚ) * (2 : ℚ) ^ e)
  | _ => 0

/-- Neither an infinity nor NaN. -/
def isFinite : F32 → Bool
  | finite _ _ _ => true
  | _ => false

/-- The rational `q` is a binary32 number: its magnitude is `m * 2^e` with `m < 2^24` and
`-149 ≤ e ≤ 104`. -/
def Representable (q : ℚ) : Prop :=
  ∃ (m : Nat) (e : Int), m < 2 ^ 24 ∧ -149 ≤ e ∧ e ≤ 104 ∧ |q| = (m : ℚ) * (2 : ℚ) ^ e

end F32

namespace Evaluator

/-- The exact value of every node of the tree is a binary32 number. -/
def exactlyRepresentable (lookup : Str → Option Int) : Node → Prop
  | .nil => True
  | .node c l r =>
    F32.Representable (exactValue lookup (.node c l r))
      ∧ exactlyRepresentable lookup l ∧ exactlyRepresentable lookup r

end Evaluator

/-! ## Further runs used below -/

namespace Calculator

/-- The state of the calculator after the line `a=a+1` on a fresh calculator: `a` is pending
on itself. -/
def selfState : State :=
  { mOperandOrderStack := [['a']],
    mOperandDependenciesMap := [(['a'], ['a'])],
    mExpressionsWithDependenciesMap :=
      State.insertOrAssign (fun _ => none) ['a']
        [Node.node '+' (Node.leaf 'a') (Node.leaf '1')] }

/-- The state of the calculator after the lines `e=2+2` and `f=g*7`. -/
def resultState : State :=
  { mOperandOrderStack := [['f'], ['e']],
    mOperandValuesMap := State.insertOrAssign (fun _ => none) ['e'] 4,
    mOperandDependenciesMap := [(['g'], ['f'])],
    mExpressionsWithDependenciesMap :=
      State.insertOrAssign (fun _ => none) ['f'] [Node.node '*' (Node.leaf 'g') (Node.leaf '7')] }

/-- The state of the calculator after the line `b=a`. -/
def backEdgeState : State :=
  { mOperandOrderStack := [['b']],
    mOperandDependenciesMap := [(['a'], ['b'])],
    mExpressionsWithDependenciesMap :=
      State.insertOrAssign (fun _ => none) ['b'] [Node.leaf 'a'] }

end Calculator

namespace Calculator

/-- The lines of the integration test up to `f=3+4`. -/
def assignedInstructions : List Str :=
  ["a=2+3".toList, "b=e-2".toList, "c=1+2".toList, "d=e/3".toList, "e=a+c".toList,
    "f=3+4".toList]

/-- The state of the calculator after `assignedInstructions`. -/
def assignedState : State :=
  { mOperandOrderStack := [['f'], ['e'], ['d'], ['c'], ['b'], ['a']],
    mOperandValuesMap :=
      State.insertOrAssign
        (State.insertOrAssign
          (State.insertOrAssign
            (State.insertOrAssign
              (State.insertOrAssign
                (State.insertOrAssign (fun _ => none) ['a'] 5)
                ['c'] 3)
              ['e'] 8)
            ['b'] 6)
          ['d'] 2)
        ['f'] 7,
    mOperandDependenciesMap := [(['e'], ['b']), (['e'], ['d'])],
    mExpressionsWithDependenciesMap :=
      State.insertOrAssign
        (State.insertOrAssign (fun _ => none) ['b']
          [Node.node '-' (Node.leaf 'e') (Node.leaf '2')])
        ['d'] [Node.node '/' (Node.leaf 'e') (Node.leaf '3')] }

end Calculator

namespace Calculator.State

/-- The operand `b` has a pending expression in `st0` that evaluates to an integer under
every value map that knows at least the operands `values` knows. -/
def LiveAt (st0 : State) (values : Str → Option Int) (b : Str) : Prop :=
  ∃ top rest, st0.mExpressionsWithDependenciesMap b = some (top :: rest)
    ∧ ∀ lookup : Str → Option Int,
        (∀ u, (values u).isSome = true → (lookup u).isSome = true) →
        ∃ v, Evaluator.execute top lookup = .ok (.integer v)

/-- A recorded edge from `a` to a dependant `b` that the cascade follows once `values` is
known: `b` is recorded under `a` and its pending expression evaluates to an integer. -/
def LiveEdge (st0 : State) (values : Str → Option Int) (a b : Str) : Prop :=
  (a, b) ∈ st0.mOperandDependenciesMap ∧ LiveAt st0 values b

end Calculator.State

namespace Calculator.Runner

/-- The runners reachable from a fresh calculator: the fresh runner, and the runner after
every call of `processInstruction` that returns. -/
inductive Reachable : Runner → Prop
  | fresh : Reachable {}
  | step (fuel : Nat) (runner : Runner) (input : Str) (out : List Str) (runner1 : Runner) :
      Reachable runner → processInstruction fuel runner input = .ok (out, runner1) →
      Reachable runner1

end Calculator.Runner

/-! ## Notions for the parser and the evaluator -/

namespace Evaluator

/-- The value of a tree when every node is computed in `int`, each division truncated toward
zero where it occurs: the reading of an expression that the evaluator does not follow. -/
def nodewiseIntegerValue (lookup : Str → Option Int) : Node → Int
  | .nil => 0
  | .node c l r =>
    if isdigit c then (c.toNat : Int) - ('0'.toNat : Int)
    else if isalpha c then (lookup [c]).getD 0
    else if c = Utils.Constants.cAddOp then
      nodewiseIntegerValue lookup l + nodewiseIntegerValue lookup r
    else if c = Utils.Constants.cSubOp then
      nodewiseIntegerValue lookup l - nodewiseIntegerValue lookup r
    else if c = Utils.Constants.cMultOp then
      nodewiseIntegerValue lookup l * nodewiseIntegerValue lookup r
    else if c = Utils.Constants.cDivOp then
      Int.tdiv (nodewiseIntegerValue lookup l) (nodewiseIntegerValue lookup r)
    else 1

end Evaluator

namespace AST.Node

/-- The characters held by the leaves (the nodes without a child) of a tree, from left to
right. -/
def leafChars : Node → List Char
  | nil => []
  | node c nil nil => [c]
  | node _ l r => leafChars l ++ leafChars r

/-- Number of leaves (nodes without a child) of a tree. -/
def leafCount : Node → Nat
  | nil => 0
  | node _ nil nil => 1
  | node _ l r => leafCount l + leafCount r

/-- Number of internal nodes (nodes with a child) of a tree. -/
def internalCount : Node → Nat
  | nil => 0
  | node _ nil nil => 0
  | node _ l r => 1 + internalCount l + internalCount r

end AST.Node

namespace Parser

/-- The well-formed infix expressions `E ::= operand | E op E | ( E )`, an operand being one
digit or letter and `op` one of `+ - * /`. -/
inductive WellFormed : Str → Prop
  | operand (c : Char) : isOperand c = true → WellFormed [c]
  | binary (e1 e2 : Str) (op : Char) :
      WellFormed e1 → isOperator op = true → WellFormed e2 → WellFormed (e1 ++ op :: e2)
  | paren (e : Str) : WellFormed e → WellFormed ('(' :: e ++ [')'])

/-- Reading an infix expression from left to right: `afterOperand` tells whether the last
character read closed an operand (an operand or a right parenthesis), `depth` counts the
parentheses still open. An operand or `(` must not follow an operand, an operator or `)` must
follow one, and `)` needs an open parenthesis; `none` when a character is out of place. -/
def scanInfix : Str → Bool → Nat → Option (Bool × Nat)
  | [], afterOperand, depth => some (afterOperand, depth)
  | c :: rest, afterOperand, depth =>
    if isOperand c then
      if afterOperand then none else scanInfix rest true depth
    else if isOperator c then
      if afterOperand then scanInfix rest false depth else none
    else if c = '(' then
      if afterOperand then none else scanInfix rest false (depth + 1)
    else if c = ')' then
      if afterOperand then
        match depth with
        | 0 => none
        | d + 1 => scanInfix rest true d
      else none
    else none

/-- The leaf characters of the trees of a node stack, from its bottom to its top. -/
def stackLeaves : List Node → List Char
  | [] => []
  | t :: rest => stackLeaves rest ++ t.leafChars

/-- The number of internal nodes of the trees of a node stack. -/
def stackInternal : List Node → Nat
  | [] => 0
  | t :: rest => stackInternal rest + t.internalCount

/-- The stacks of `createASTforRHS` while an infix expression is read: `ops` are the
operators above the left parenthesis that wraps the expression, `depth` of them left
parentheses and the others arithmetic operators; the node stack holds one expression tree for
each arithmetic operator stacked, and one more after an operand. -/
def StackInv (afterOperand : Bool) (depth : Nat) (ops : List Char) (values : List Node) : Prop :=
  ops.count '(' = depth
    ∧ (∀ c ∈ ops, c = '(' ∨ isOperator c = true)
    ∧ values.length = (ops.filter isOperator).length + (if afterOperand then 1 else 0)
    ∧ ∀ t ∈ values, t.isExpression = true

/-- The last validated character while an infix expression is read: an operand or a right
parenthesis after an operand, an operator or a left parenthesis otherwise. -/
def PrevOK (afterOperand : Bool) (prev : Char) : Prop :=
  if afterOperand then isOperand prev = true ∨ prev = ')'
  else isOperator prev = true ∨ prev = '('

end Parser

/-! ## Notions for the cascade and the reachable runners -/

namespace Calculator

/-- The state of the calculator after the lines `b=e-2`, `c=b+1`, `d=e/3`: under `e` the
dependants `b` then `d` are recorded, under `b` the dependant `c`. -/
def depthFirstState : State :=
  { mOperandOrderStack := [['d'], ['c'], ['b']],
    mOperandDependenciesMap := [(['e'], ['b']), (['b'], ['c']), (['e'], ['d'])],
    mExpressionsWithDependenciesMap :=
      State.insertOrAssign
        (State.insertOrAssign
          (State.insertOrAssign (fun _ => none) ['b']
            [Node.node '-' (Node.leaf 'e') (Node.leaf '2')])
          ['c'] [Node.node '+' (Node.leaf 'b') (Node.leaf '1')])
        ['d'] [Node.node '/' (Node.leaf 'e') (Node.leaf '3')] }

/-- The state of the calculator after the lines `y=a+b`, `b=2`: `y` is pending, recorded
under `b` and under `a` (the order in which the set of its two missing variables was
walked), and `b` is known. -/
def sumState : State :=
  { mOperandOrderStack := [['b'], ['y']],
    mOperandValuesMap := State.insertOrAssign (fun _ => none) ['b'] 2,
    mOperandDependenciesMap := [(['b'], ['y']), (['a'], ['y'])],
    mExpressionsWithDependenciesMap :=
      State.insertOrAssign (fun _ => none) ['y']
        [Node.node '+' (Node.leaf 'a') (Node.leaf 'b')] }

/-- Three lines that record twenty-one edges, none of them under `e` or `b`, followed by the
lines `b=e-2`, `c=b+1`, `d=e/3`: the edges from `e` to `b` and from `e` to `d` are recorded,
in this order, in a container of more than twenty entries. -/
def crowdedInstructions : List Str :=
  ["p=s+t+u+v+w+y+z".toList, "q=s+t+u+v+w+y+z".toList, "r=s+t+u+v+w+y+z".toList,
    "b=e-2".toList, "c=b+1".toList, "d=e/3".toList]

namespace State

/-- Every operand that has a value or a pending expression occurs in the history. -/
def Recorded (st : State) : Prop :=
  ∀ k, (st.mOperandValuesMap k).isSome = true
      ∨ (st.mExpressionsWithDependenciesMap k).isSome = true →
    k ∈ st.mOperandOrderStack

end State

end Calculator
/-! ## The evaluator -/

namespace Evaluator

theorem execute_node (lookup : Str → Option Int) (c : Char) (l r : Node) :
    execute (.node c l r) lookup
      = (analyseAndTraverseASTNode lookup (.node c l r) []).bind fun a =>
          if a.2 ≠ [] then .ok (.dependencies a.2) else .ok (.integer (F32.toInt32 a.1)) := rfl

theorem linkNode_perm (buckets : Nat) (name : Str) (nodes : List Str) :
    (linkNode buckets name nodes).Perm (name :: nodes) := by
  unfold linkNode
  split
  · have h := @List.perm_middle _ name
      (nodes.takeWhile fun node => hashOfName node % buckets != hashOfName name % buckets)
      (nodes.dropWhile fun node => hashOfName node % buckets != hashOfName name % buckets)
    rw [List.takeWhile_append_dropWhile] at h
    exact h
  · exact List.Perm.refl _

theorem rehashFrom_perm (buckets : Nat) (nodes linked : List Str) :
    (nodes.foldl (fun linked node => linkNode buckets node linked) linked).Perm
      (linked ++ nodes) := by
  induction nodes generalizing linked with
  | nil => simp
  | cons node rest ih =>
    simp only [List.foldl_cons]
    refine (ih _).trans ?_
    refine (List.Perm.append_right rest (linkNode_perm buckets node linked)).trans ?_
    simpa using (@List.perm_middle _ node linked rest).symm

theorem rehash_perm (buckets : Nat) (nodes : List Str) : (rehash buckets nodes).Perm nodes := by
  simpa [rehash] using rehashFrom_perm buckets nodes []

theorem insertDependency_perm (name : Str) (deps : Dependencies) (h : name ∉ deps) :
    (insertDependency name deps).Perm (name :: deps) := by
  unfold insertDependency
  rw [if_neg h]
  refine (linkNode_perm _ _ _).trans (List.Perm.cons name ?_)
  split
  · exact List.Perm.refl _
  · exact rehash_perm _ _

theorem insertDependency_mem (name v : Str) (deps : Dependencies) :
    v ∈ insertDependency name deps ↔ v ∈ deps ∨ v = name := by
  by_cases h : name ∈ deps
  · rw [show insertDependency name deps = deps by unfold insertDependency; rw [if_pos h]]
    constructor
    · intro h1; exact Or.inl h1
    · rintro (h1 | h1)
      · exact h1
      · rw [h1]; exact h
  · rw [(insertDependency_perm name deps h).mem_iff, List.mem_cons]
    exact Or.comm

theorem insertDependency_nodup (name : Str) (deps : Dependencies) (h : deps.Nodup) :
    (insertDependency name deps).Nodup := by
  by_cases hn : name ∈ deps
  · rw [show insertDependency name deps = deps by unfold insertDependency; rw [if_pos hn]]
    exact h
  · rw [(insertDependency_perm name deps hn).nodup_iff]
    exact List.nodup_cons.mpr ⟨hn, h⟩

theorem insertDependency_ne_nil (name : Str) (deps : Dependencies) :
    insertDependency name deps ≠ [] := by
  intro hd
  have h := (insertDependency_mem name name deps).mpr (Or.inr rfl)
  rw [hd] at h
  simp at h

/-- On an evaluable tree the traversal returns the binary32 value of the tree and adds
exactly the missing variables to the set it was given. -/
theorem analyse_spec (lookup : Str → Option Int) (t : Node) (ht : t.evaluable = true)
    (deps : Dependencies) :
    ∃ deps1, analyseAndTraverseASTNode lookup t deps = .ok (floatValue lookup t, deps1)
      ∧ (∀ v, v ∈ deps1 ↔ v ∈ deps ∨ v ∈ missingVariables lookup t)
      ∧ (deps.Nodup → deps1.Nodup)
      ∧ (missingVariables lookup t = [] → deps1 = deps) := by
  induction t generalizing deps with
  | nil => simp [Node.evaluable] at ht
  | node c l r ihl ihr =>
    by_cases hd : isdigit c = true
    · refine ⟨deps, ?_, ?_, ?_, ?_⟩
      · simp [analyseAndTraverseASTNode, floatValue, hd]
      · simp [missingVariables, Node.variableNames, hd]
      · exact id
      · intro _; rfl
    · by_cases ha : isalpha c = true
      · cases hl : lookup [c] with
        | some v =>
          refine ⟨deps, ?_, ?_, ?_, ?_⟩
          · simp [analyseAndTraverseASTNode, floatValue, hd, ha, hl]
          · simp [missingVariables, Node.variableNames, hd, ha, hl]
          · exact id
          · intro _; rfl
        | none =>
          refine ⟨insertDependency [c] deps, ?_, ?_, ?_, ?_⟩
          · simp [analyseAndTraverseASTNode, floatValue, hd, ha, hl]
          · intro v
            simp [missingVariables, Node.variableNames, hd, ha, hl, insertDependency_mem]
          · exact insertDependency_nodup _ _
          · intro h
            simp [missingVariables, Node.variableNames, hd, ha, hl] at h
      · have hlr : l.evaluable = true ∧ r.evaluable = true := by
          simpa [Node.evaluable, hd, ha] using ht
        obtain ⟨d1, e1, m1, n1, z1⟩ := ihl hlr.1 deps
        obtain ⟨d2, e2, m2, n2, z2⟩ := ihr hlr.2 d1
        have hmiss : missingVariables lookup (.node c l r)
            = missingVariables lookup l ++ missingVariables lookup r := by
          simp [missingVariables, Node.variableNames, hd, ha]
        refine ⟨d2, ?_, ?_, ?_, ?_⟩
        · simp [analyseAndTraverseASTNode, floatValue, hd, ha, e1, e2, Res.bind]
        · intro v
          rw [m2, m1, hmiss, List.mem_append]
          tauto
        · exact fun h => n2 (n1 h)
        · intro h
          rw [hmiss] at h
          have h' := List.append_eq_nil.mp h
          rw [z2 h'.2, z1 h'.1]

/-- What `execute` returns on an evaluable tree. -/
theorem execute_spec (lookup : Str → Option Int) (t : Node) (ht : t.evaluable = true) :
    (missingVariables lookup t = [] →
        execute t lookup = .ok (.integer (F32.toInt32 (floatValue lookup t))))
    ∧ (missingVariables lookup t ≠ [] →
        ∃ ds, execute t lookup = .ok (.dependencies ds) ∧ ds ≠ [] ∧ ds.Nodup
          ∧ ∀ v, v ∈ ds ↔ v ∈ missingVariables lookup t) := by
  obtain ⟨d, e, m, n, z⟩ := analyse_spec lookup t ht []
  cases t with
  | nil => simp [Node.evaluable] at ht
  | node c l r =>
    constructor
    · intro h
      have hd : d = [] := z h
      subst hd
      simp [execute_node, e, Res.bind]
    · intro h
      have hd : d ≠ [] := by
        intro hd
        subst hd
        apply h
        apply List.eq_nil_iff_forall_not_mem.mpr
        intro v hv
        have := (m v).mpr (Or.inr hv)
        simp at this
      refine ⟨d, ?_, hd, n List.nodup_nil, ?_⟩
      · simp [execute_node, e, Res.bind, hd]
      · intro v
        rw [m v]
        simp

theorem evaluable_of_isExpression (t : Node) (h : t.isExpression = true) :
    t.evaluable = true := by
  induction t with
  | nil => simp [Node.isExpression] at h
  | node c l r ihl ihr =>
    cases l with
    | nil =>
      cases r with
      | nil => simp [Node.isExpression] at h; simp [Node.evaluable, h]
      | node c2 l2 r2 => simp [Node.isExpression] at h
    | node c1 l1 r1 =>
      simp only [Node.isExpression, Bool.and_eq_true] at h
      have h1 := ihl h.1.2
      have h2 := ihr h.2
      simp only [Node.evaluable, Bool.or_eq_true, Bool.and_eq_true] at h1 ⊢
      exact Or.inr ⟨h1, h2⟩

/-- The method `execute` never yields an empty dependency set. -/
theorem execute_ne_empty_dependencies (lookup : Str → Option Int) (t : Node) :
    execute t lookup ≠ .ok (.dependencies []) := by
  cases t with
  | nil => simp [execute]
  | node c l r =>
    rw [execute_node]
    cases h : analyseAndTraverseASTNode lookup (.node c l r) [] with
    | ok a =>
      by_cases h2 : a.2 = []
      · simp [Res.bind, h2]
      · simp [Res.bind, h2]
    | undefined => simp [Res.bind]
    | diverges => simp [Res.bind]
    | outOfFuel => simp [Res.bind]

end Evaluator

/-! ## The parser -/

namespace Parser

open Utils.Constants Utils.Methods

theorem operand_ne (c d : Char) (hc : isOperand c = true) (hd : isOperand d = false) : c ≠ d := by
  intro h
  subst h
  rw [hc] at hd
  exact Bool.noConfusion hd

theorem operand_not_operator (c : Char) (hc : isOperand c = true) : isOperator c = false := by
  have h1 := operand_ne c '+' hc (by decide)
  have h2 := operand_ne c '-' hc (by decide)
  have h3 := operand_ne c '*' hc (by decide)
  have h4 := operand_ne c '/' hc (by decide)
  simp [isOperator, cAddOp, cSubOp, cMultOp, cDivOp, h1, h2, h3, h4]

theorem operand_not_parenthesis (c : Char) (hc : isOperand c = true) :
    isParenthesis c = false := by
  have h1 := operand_ne c '(' hc (by decide)
  have h2 := operand_ne c ')' hc (by decide)
  simp [isParenthesis, cLeftParenthesis, cRightParenthesis, h1, h2]

theorem operand_not_space (c : Char) (hc : isOperand c = true) : isspace c = false := by
  simp only [isOperand, isdigit, isalpha, Bool.or_eq_true, Bool.and_eq_true,
    decide_eq_true_eq] at hc
  simp only [isspace, Bool.or_eq_false_iff, beq_eq_false_iff_ne, Bool.and_eq_false_iff,
    decide_eq_false_iff_not]
  have h0 : '0'.toNat = 48 := by decide
  have h9 : '9'.toNat = 57 := by decide
  have ha : 'a'.toNat = 97 := by decide
  have hz : 'z'.toNat = 122 := by decide
  have hA : 'A'.toNat = 65 := by decide
  have hZ : 'Z'.toNat = 90 := by decide
  rw [h0, h9, ha, hz, hA, hZ] at hc
  omega

theorem isOperator_cases (c : Char) (hc : isOperator c = true) :
    c = '+' ∨ c = '-' ∨ c = '*' ∨ c = '/' := by
  simpa [isOperator, cAddOp, cSubOp, cMultOp, cDivOp, or_assoc] using hc

/-! ### Steps of the validation loop -/

theorem validateLoop_nil (validated : Str) (l r : Nat) :
    validateLoop [] validated l r = some (validated, l, r) := by
  simp [validateLoop]

theorem validateLoop_operand (c prev : Char) (rest init : Str) (l r : Nat)
    (hc : isOperand c = true) (h1 : isdigit prev = false) (h2 : prev ≠ ')') :
    validateLoop (c :: rest) (init ++ [prev]) l r
      = validateLoop rest (init ++ [prev] ++ [c]) l r := by
  have ho := operand_not_operator c hc
  have hp := operand_not_parenthesis c hc
  by_cases hd : isdigit c = true
  · simp [validateLoop, isSingleDigitInteger, h1, hd, h2, cRightParenthesis]
  · have ha : isalpha c = true := by
      simp only [isOperand, Bool.or_eq_true] at hc
      tauto
    simp [validateLoop, isSingleDigitInteger, hd, ho, hp, ha]

theorem validateLoop_operator (c prev : Char) (rest init : Str) (l r : Nat)
    (hc : isOperator c = true) (h1 : isOperator prev = false) (h2 : prev ≠ '(')
    (h3 : isspace prev = false) :
    validateLoop (c :: rest) (init ++ [prev]) l r
      = validateLoop rest (init ++ [prev] ++ [c]) l r := by
  have hd : isdigit c = false := by
    rcases isOperator_cases c hc with h | h | h | h <;> subst h <;> decide
  simp [validateLoop, isSingleDigitInteger, hd, hc, isUnaryMinus, h1, h2, h3, cLeftParenthesis]

theorem validateLoop_left (prev : Char) (rest init : Str) (l r : Nat)
    (h1 : isdigit prev = false) :
    validateLoop ('(' :: rest) (init ++ [prev]) l r
      = validateLoop rest (init ++ [prev] ++ ['(']) (l + 1) r := by
  have e1 : isdigit '(' = false := by decide
  have e2 : isOperator '(' = false := by decide
  have e3 : isParenthesis '(' = true := by decide
  simp [validateLoop, isSingleDigitInteger, e1, e2, e3, h1, cLeftParenthesis]

theorem validateLoop_right (prev : Char) (rest init : Str) (l r : Nat) :
    validateLoop (')' :: rest) (init ++ [prev]) l r
      = validateLoop rest (init ++ [prev] ++ [')']) l (r + 1) := by
  have e1 : isdigit ')' = false := by decide
  have e2 : isOperator ')' = false := by decide
  have e3 : isParenthesis ')' = true := by decide
  simp [validateLoop, isSingleDigitInteger, e1, e2, e3, cLeftParenthesis, cRightParenthesis]

/-! ### Steps of the tree construction -/

theorem createLoop_nil (ops : List Char) (values : List Node) :
    createLoop [] ops values = .ok (ops, values) := by
  simp [createLoop]

theorem createLoop_operand (c : Char) (rest : Str) (ops : List Char) (values : List Node)
    (hc : isOperand c = true) :
    createLoop (c :: rest) ops values = createLoop rest ops (Node.leaf c :: values) := by
  simp only [isOperand] at hc
  simp [createLoop, hc]

theorem createLoop_operator (c : Char) (rest : Str) (ops : List Char) (values : List Node)
    (hc : isOperator c = true) :
    createLoop (c :: rest) ops values
      = (generateWhile (fun top => decide (operatorPrecedence c ≤ operatorPrecedence top))
          ops values).bind fun s => createLoop rest (c :: s.1) s.2 := by
  have hd : (isdigit c || isalpha c) = false := by
    rcases isOperator_cases c hc with h | h | h | h <;> subst h <;> decide
  simp [createLoop, hd, hc]

theorem createLoop_left (rest : Str) (ops : List Char) (values : List Node) :
    createLoop ('(' :: rest) ops values = createLoop rest ('(' :: ops) values := by
  have e1 : (isdigit '(' || isalpha '(') = false := by decide
  have e2 : isOperator '(' = false := by decide
  simp [createLoop, e1, e2, cLeftParenthesis]

theorem createLoop_right (rest : Str) (ops : List Char) (values : List Node) :
    createLoop (')' :: rest) ops values
      = (generateWhile (fun top => decide (top ≠ cLeftParenthesis)) ops values).bind fun s =>
          createLoop rest s.1.tail s.2 := by
  have e1 : (isdigit ')' || isalpha ')') = false := by decide
  have e2 : isOperator ')' = false := by decide
  simp [createLoop, e1, e2, cLeftParenthesis, cRightParenthesis]

theorem generateWhile_nil (cond : Char → Bool) (values : List Node) :
    generateWhile cond [] values = .ok ([], values) := by
  simp [generateWhile]

theorem generateWhile_stop (cond : Char → Bool) (op : Char) (ops : List Char)
    (values : List Node) (h : cond op = false) :
    generateWhile cond (op :: ops) values = .ok (op :: ops, values) := by
  simp [generateWhile, h]

theorem generateWhile_reduce (cond : Char → Bool) (op : Char) (ops : List Char)
    (rightValue leftValue : Node) (values : List Node) (h : cond op = true) :
    generateWhile cond (op :: ops) (rightValue :: leftValue :: values)
      = generateWhile cond ops (Node.node op leftValue rightValue :: values) := by
  simp [generateWhile, h]

theorem bind_ok {α β : Type} (a : α) (f : α → Res β) : (Res.ok a).bind f = f a := rfl


/-! ### From the input line to the two loops -/

theorem splitAux_not_mem (d : Char) (l cur : Str) (h : d ∉ l) :
    splitAux d l cur = [cur.reverse ++ l] := by
  induction l generalizing cur with
  | nil => simp [splitAux]
  | cons c cs ih =>
    have hc : c ≠ d := fun e => h (by simp [e])
    have hcs : d ∉ cs := fun e => h (List.mem_cons_of_mem _ e)
    simp [splitAux, hc, ih _ hcs]

theorem splitString_assign (v : Char) (rhs : Str) (hv : v ≠ '=') (hr : '=' ∉ rhs) :
    splitString (v :: '=' :: rhs) cAssignOp = [[v], rhs] := by
  simp [splitString, splitAux, cAssignOp, hv, splitAux_not_mem _ _ _ hr]

/-- A line whose stripped form is `v=rhs`, with `rhs` passing the validation loop and the
construction loop leaving an empty operator stack, is parsed successfully. -/
theorem execute_ok (s rhs validated : Str) (v : Char) (n : Nat) (values : List Node)
    (hs : removeWhiteSpacesFromString s = v :: '=' :: rhs) (hv : v ≠ '=') (hr : '=' ∉ rhs)
    (hne : rhs ≠ [])
    (hval : validateLoop rhs ([] ++ ['(']) 0 0 = some (validated, n, n))
    (hlast : isOperator (validated.getLast?.getD '(') = false)
    (hcreate : createLoop (validated ++ [')']) [] [] = .ok ([], values)) :
    execute (new s) = .ok (true,
      { mLHSString := [v], mRHSString := validated ++ [')'], mInputString := v :: '=' :: rhs,
        mRHSOperatorStack := [], mRHSValueStack := values }) := by
  simp only [List.nil_append] at hval
  simp [execute, new, hs, splitString_assign v rhs hv hr, parseLHS, parseRHS, validateRHS, hne,
    hval, hlast, createASTforRHS, hcreate, Res.bind, generateWhile, cLeftParenthesis,
    cRightParenthesis]


/-- What is used of an operand character. -/
theorem operand_facts (c : Char) (hc : isOperand c = true) :
    c ≠ '=' ∧ isOperator c = false ∧ c ≠ '(' ∧ isspace c = false :=
  ⟨operand_ne c '=' hc (by decide), operand_not_operator c hc, operand_ne c '(' hc (by decide),
    operand_not_space c hc⟩

/-- C3. Operator precedence: on `v=x p y q z` with `p` additive and `q` multiplicative the
parser succeeds with the tree `p(x, q(y, z))`, and on `v=x q y p z` with the tree
`p(q(x, y), z)`; white space in the line is immaterial. -/
theorem operator_precedence (s : Str) (v x y z p q : Char)
    (hv : isalpha v = true) (hx : isOperand x = true) (hy : isOperand y = true)
    (hz : isOperand z = true) (hp : p = '+' ∨ p = '-') (hq : q = '*' ∨ q = '/') :
    (removeWhiteSpacesFromString s = [v, '=', x, p, y, q, z] →
      ∃ ps, execute (new s) = .ok (true, ps) ∧ ps.getOperandOfLHS = [v]
        ∧ ps.getASTOfRHS = [.node p (.leaf x) (.node q (.leaf y) (.leaf z))])
    ∧ (removeWhiteSpacesFromString s = [v, '=', x, q, y, p, z] →
      ∃ ps, execute (new s) = .ok (true, ps) ∧ ps.getOperandOfLHS = [v]
        ∧ ps.getASTOfRHS = [.node p (.node q (.leaf x) (.leaf y)) (.leaf z)]) := by
  have ev := operand_ne v '=' (by simp [isOperand, hv]) (by decide)
  obtain ⟨ex, ox, px, sx⟩ := operand_facts x hx
  obtain ⟨ey, oy, py, sy⟩ := operand_facts y hy
  obtain ⟨ez, oz, pz, sz⟩ := operand_facts z hz
  constructor
  · intro hs
    refine ⟨_, execute_ok s _ (['(', x, p, y, q, z]) v 0 _ hs ev ?_ (by simp) ?_ ?_ ?_, rfl, rfl⟩
    · rcases hp with rfl | rfl <;> rcases hq with rfl | rfl <;>
        simp [ex.symm, ey.symm, ez.symm]
    · rcases hp with rfl | rfl <;> rcases hq with rfl | rfl <;>
        simp (disch := first | decide | assumption) only [validateLoop_operand,
          validateLoop_operator, validateLoop_left, validateLoop_right, validateLoop_nil] <;>
        rfl
    · simpa using oz
    · rcases hp with rfl | rfl <;> rcases hq with rfl | rfl <;>
        simp (disch := first | decide | assumption) only [createLoop_nil, createLoop_operand,
          createLoop_operator, createLoop_left, createLoop_right, generateWhile_nil,
          generateWhile_stop, generateWhile_reduce, bind_ok, List.tail_cons, List.cons_append,
          List.nil_append]
  · intro hs
    refine ⟨_, execute_ok s _ (['(', x, q, y, p, z]) v 0 _ hs ev ?_ (by simp) ?_ ?_ ?_, rfl, rfl⟩
    · rcases hp with rfl | rfl <;> rcases hq with rfl | rfl <;>
        simp [ex.symm, ey.symm, ez.symm]
    · rcases hp with rfl | rfl <;> rcases hq with rfl | rfl <;>
        simp (disch := first | decide | assumption) only [validateLoop_operand,
          validateLoop_operator, validateLoop_left, validateLoop_right, validateLoop_nil] <;>
        rfl
    · simpa using oz
    · rcases hp with rfl | rfl <;> rcases hq with rfl | rfl <;>
        simp (disch := first | decide | assumption) only [createLoop_nil, createLoop_operand,
          createLoop_operator, createLoop_left, createLoop_right, generateWhile_nil,
          generateWhile_stop, generateWhile_reduce, bind_ok, List.tail_cons, List.cons_append,
          List.nil_append]

/-- C3 at the lines `e = 2+3* 1` and `e=3*1-2`. -/
theorem operator_precedence_witness :
    (∃ ps, execute (new "e = 2+3* 1".toList) = .ok (true, ps) ∧ ps.getOperandOfLHS = ['e']
        ∧ ps.getASTOfRHS = [.node '+' (.leaf '2') (.node '*' (.leaf '3') (.leaf '1'))])
    ∧ (∃ ps, execute (new "e=3*1-2".toList) = .ok (true, ps) ∧ ps.getOperandOfLHS = ['e']
        ∧ ps.getASTOfRHS = [.node '-' (.node '*' (.leaf '3') (.leaf '1')) (.leaf '2')]) :=
  ⟨(operator_precedence "e = 2+3* 1".toList 'e' '2' '3' '1' '+' '*' (by decide) (by decide)
      (by decide) (by decide) (by decide) (by decide)).1 (by decide),
   (operator_precedence "e=3*1-2".toList 'e' '3' '1' '2' '-' '*' (by decide) (by decide)
      (by decide) (by decide) (by decide) (by decide)).2 (by decide)⟩

/-- C4. Left associativity: on `v=x o1 y o2 z` with `o1`, `o2` of equal precedence the parser
succeeds with the tree `o2(o1(x, y), z)`; white space in the line is immaterial. -/
theorem left_associativity (s : Str) (v x y z o1 o2 : Char)
    (hv : isalpha v = true) (hx : isOperand x = true) (hy : isOperand y = true)
    (hz : isOperand z = true)
    (ho : ((o1 = '+' ∨ o1 = '-') ∧ (o2 = '+' ∨ o2 = '-'))
      ∨ ((o1 = '*' ∨ o1 = '/') ∧ (o2 = '*' ∨ o2 = '/')))
    (hs : removeWhiteSpacesFromString s = [v, '=', x, o1, y, o2, z]) :
    operatorPrecedence o1 = operatorPrecedence o2
    ∧ ∃ ps, execute (new s) = .ok (true, ps) ∧ ps.getOperandOfLHS = [v]
        ∧ ps.getASTOfRHS = [.node o2 (.node o1 (.leaf x) (.leaf y)) (.leaf z)] := by
  have ev := operand_ne v '=' (by simp [isOperand, hv]) (by decide)
  obtain ⟨ex, ox, px, sx⟩ := operand_facts x hx
  obtain ⟨ey, oy, py, sy⟩ := operand_facts y hy
  obtain ⟨ez, oz, pz, sz⟩ := operand_facts z hz
  refine ⟨?_, _, execute_ok s _ (['(', x, o1, y, o2, z]) v 0 _ hs ev ?_ (by simp) ?_ ?_ ?_,
    rfl, rfl⟩
  · rcases ho with ⟨h1 | h1, h2 | h2⟩ | ⟨h1 | h1, h2 | h2⟩ <;> subst h1 <;> subst h2 <;> decide
  · rcases ho with ⟨h1 | h1, h2 | h2⟩ | ⟨h1 | h1, h2 | h2⟩ <;> subst h1 <;> subst h2 <;>
      simp [ex.symm, ey.symm, ez.symm]
  · rcases ho with ⟨h1 | h1, h2 | h2⟩ | ⟨h1 | h1, h2 | h2⟩ <;> subst h1 <;> subst h2 <;>
      simp (disch := first | decide | assumption) only [validateLoop_operand,
        validateLoop_operator, validateLoop_left, validateLoop_right, validateLoop_nil] <;>
      rfl
  · simpa using oz
  · rcases ho with ⟨h1 | h1, h2 | h2⟩ | ⟨h1 | h1, h2 | h2⟩ <;> subst h1 <;> subst h2 <;>
      simp (disch := first | decide | assumption) only [createLoop_nil, createLoop_operand,
        createLoop_operator, createLoop_left, createLoop_right, generateWhile_nil,
        generateWhile_stop, generateWhile_reduce, bind_ok, List.tail_cons, List.cons_append,
        List.nil_append]

/-- C4 at the line `b = 8-3+2`. -/
theorem left_associativity_witness :
    operatorPrecedence '-' = operatorPrecedence '+'
    ∧ ∃ ps, execute (new "b = 8-3+2".toList) = .ok (true, ps) ∧ ps.getOperandOfLHS = ['b']
        ∧ ps.getASTOfRHS = [.node '+' (.node '-' (.leaf '8') (.leaf '3')) (.leaf '2')] :=
  left_associativity "b = 8-3+2".toList 'b' '8' '3' '2' '-' '+' (by decide) (by decide)
    (by decide) (by decide) (by decide) (by decide)

/-- C5. Parentheses override precedence: on `v = x o1 (y o2 z)` the parser succeeds,
`getOperandOfLHS` returns `v`, and the node stack holds the tree `o1(x, o2(y, z))`, which has
five nodes; white space in the line is immaterial. -/
theorem parentheses_override (s : Str) (v x y z o1 o2 : Char)
    (hv : isalpha v = true) (hx : isOperand x = true) (hy : isOperand y = true)
    (hz : isOperand z = true) (h1 : isOperator o1 = true) (h2 : isOperator o2 = true)
    (hs : removeWhiteSpacesFromString s = [v, '=', x, o1, '(', y, o2, z, ')']) :
    ∃ ps root, execute (new s) = .ok (true, ps) ∧ ps.getOperandOfLHS = [v]
      ∧ ps.getASTOfRHS = [root]
      ∧ root = .node o1 (.leaf x) (.node o2 (.leaf y) (.leaf z)) ∧ root.size = 5 := by
  have ev := operand_ne v '=' (by simp [isOperand, hv]) (by decide)
  obtain ⟨ex, ox, px, sx⟩ := operand_facts x hx
  obtain ⟨ey, oy, py, sy⟩ := operand_facts y hy
  obtain ⟨ez, oz, pz, sz⟩ := operand_facts z hz
  refine ⟨_, _, execute_ok s _ (['(', x, o1, '(', y, o2, z, ')']) v 1 _ hs ev ?_ (by simp) ?_
    (by simp; decide) ?_, rfl, rfl, rfl, rfl⟩
  · rcases isOperator_cases o1 h1 with h | h | h | h <;>
      rcases isOperator_cases o2 h2 with k | k | k | k <;> subst h <;> subst k <;>
      simp [ex.symm, ey.symm, ez.symm]
  · rcases isOperator_cases o1 h1 with h | h | h | h <;>
      rcases isOperator_cases o2 h2 with k | k | k | k <;> subst h <;> subst k <;>
      simp (disch := first | decide | assumption) only [validateLoop_operand,
        validateLoop_operator, validateLoop_left, validateLoop_right, validateLoop_nil] <;>
      rfl
  · rcases isOperator_cases o1 h1 with h | h | h | h <;>
      rcases isOperator_cases o2 h2 with k | k | k | k <;> subst h <;> subst k <;>
      simp (disch := first | decide | assumption) only [createLoop_nil, createLoop_operand,
        createLoop_operator, createLoop_left, createLoop_right, generateWhile_nil,
        generateWhile_stop, generateWhile_reduce, bind_ok, List.tail_cons, List.cons_append,
        List.nil_append]

/-- C5 at the line `a = 5+(1*2)` of the unit test. -/
theorem parentheses_override_witness :
    ∃ ps root, execute (new "a = 5+(1*2)".toList) = .ok (true, ps) ∧ ps.getOperandOfLHS = ['a']
      ∧ ps.getASTOfRHS = [root]
      ∧ root = .node '+' (.leaf '5') (.node '*' (.leaf '1') (.leaf '2')) ∧ root.size = 5 :=
  parentheses_override "a = 5+(1*2)".toList 'a' '5' '1' '2' '+' '*' (by decide) (by decide)
    (by decide) (by decide) (by decide) (by decide) (by decide)

end Parser

/-! ## Binary32 operations on representable results -/

namespace F32

theorem log2Aux_spec (fuel : Nat) : ∀ n, n ≤ fuel → 1 ≤ n →
    2 ^ log2Aux fuel n ≤ n ∧ n < 2 ^ (log2Aux fuel n + 1) := by
  induction fuel with
  | zero => intro n h1 h2; omega
  | succ f ih =>
    intro n h1 h2
    by_cases h : 2 ≤ n
    · simp only [log2Aux, h, if_true]
      obtain ⟨a, b⟩ := ih (n / 2) (by omega) (by omega)
      constructor
      · rw [pow_succ]; omega
      · rw [pow_succ]; omega
    · simp only [log2Aux, h, if_false]
      omega

theorem log2_spec (n : Nat) (h : 1 ≤ n) : 2 ^ log2 n ≤ n ∧ n < 2 ^ (log2 n + 1) :=
  log2Aux_spec n n (le_refl _) h

theorem two_zpow_pos (e : Int) : (0 : ℚ) < (2 : ℚ) ^ e := zpow_pos (by norm_num) e

theorem two_zpow_toNat (a : Int) (h : 0 ≤ a) : ((2 : ℚ) ^ a.toNat) = (2 : ℚ) ^ a := by
  rw [← zpow_natCast, Int.toNat_of_nonneg h]

theorem two_zpow_add (a b : Int) : (2 : ℚ) ^ (a + b) = (2 : ℚ) ^ a * (2 : ℚ) ^ b :=
  zpow_add₀ (by norm_num) a b

theorem two_zpow_le (a b : Int) (h : a ≤ b) : (2 : ℚ) ^ a ≤ (2 : ℚ) ^ b :=
  zpow_le_zpow_right₀ (by norm_num) h

theorem two_zpow_lt (a b : Int) (h : a < b) : (2 : ℚ) ^ a < (2 : ℚ) ^ b :=
  zpow_lt_zpow_right₀ (by norm_num) h

end F32

namespace F32

/-- The significand `round` computes before renormalisation: exact when the value is a
binary32 number. -/
theorem round_core (m : Nat) (e : Int) (hm : m ≠ 0) (M : Nat) (E : Int) (hM : M < 2 ^ 24)
    (hE1 : -149 ≤ E) (hv : (m : ℚ) * (2 : ℚ) ^ e = (M : ℚ) * (2 : ℚ) ^ E)
    (et : Int) (het : et = max (e + (log2 m : Int) - 23) (-149)) (q : Nat)
    (hq : q = if et ≤ e then m * 2 ^ (e - et).toNat
      else
        if 2 ^ ((et - e).toNat - 1) < m % 2 ^ (et - e).toNat
            ∨ (m % 2 ^ (et - e).toNat = 2 ^ ((et - e).toNat - 1)
              ∧ m / 2 ^ (et - e).toNat % 2 = 1)
        then m / 2 ^ (et - e).toNat + 1 else m / 2 ^ (et - e).toNat) :
    q ≠ 0 ∧ (q : ℚ) * (2 : ℚ) ^ et = (m : ℚ) * (2 : ℚ) ^ e
      ∧ (et = e + (log2 m : Int) - 23 → 2 ^ 23 ≤ q) := by
  obtain ⟨hL1, hL2⟩ := log2_spec m (Nat.one_le_iff_ne_zero.mpr hm)
  by_cases h : et ≤ e
  · rw [if_pos h] at hq
    subst hq
    refine ⟨by positivity, ?_, ?_⟩
    · push_cast
      rw [two_zpow_toNat _ (by omega), mul_assoc, ← two_zpow_add]
      congr 2
      omega
    · intro h23
      have hk : (e - et).toNat + log2 m = 23 := by omega
      calc 2 ^ 23 = 2 ^ log2 m * 2 ^ (e - et).toNat := by rw [← pow_add, add_comm, hk]
        _ ≤ m * 2 ^ (e - et).toNat := Nat.mul_le_mul_right _ hL1
  · have hk : 1 ≤ (et - e).toNat := by omega
    have hdvd : 2 ^ (et - e).toNat ∣ m := by
      by_cases hEe : et ≤ E
      · have hmq : (m : ℚ) = ((M * 2 ^ (E - e).toNat : Nat) : ℚ) := by
          push_cast
          rw [two_zpow_toNat _ (by omega)]
          have : (2 : ℚ) ^ (E - e) = (2 : ℚ) ^ E * ((2 : ℚ) ^ e)⁻¹ := by
            rw [sub_eq_add_neg, two_zpow_add, zpow_neg]
          rw [this, ← mul_assoc, ← hv]
          field_simp
        have hmn : m = M * 2 ^ (E - e).toNat := Nat.cast_injective hmq
        rw [hmn]
        apply Dvd.dvd.mul_left
        apply pow_dvd_pow
        omega
      · exfalso
        have het2 : et = e + (log2 m : Int) - 23 := by omega
        have h1 : (2 : ℚ) ^ (E + 24) ≤ (m : ℚ) * (2 : ℚ) ^ e := by
          calc (2 : ℚ) ^ (E + 24) ≤ (2 : ℚ) ^ ((log2 m : Int) + e) := two_zpow_le _ _ (by omega)
            _ = (2 : ℚ) ^ (log2 m : Int) * (2 : ℚ) ^ e := two_zpow_add _ _
            _ ≤ (m : ℚ) * (2 : ℚ) ^ e := by
              apply mul_le_mul_of_nonneg_right _ (two_zpow_pos e).le
              rw [zpow_natCast]
              exact_mod_cast hL1
        have h2 : (M : ℚ) * (2 : ℚ) ^ E < (2 : ℚ) ^ (E + 24) := by
          rw [add_comm, two_zpow_add]
          apply mul_lt_mul_of_pos_right _ (two_zpow_pos E)
          exact_mod_cast hM
        rw [hv] at h1
        exact absurd h1 (not_le.mpr h2)
    have hrem : m % 2 ^ (et - e).toNat = 0 := Nat.mod_eq_zero_of_dvd hdvd
    have hhalf : 0 < 2 ^ ((et - e).toNat - 1) := by positivity
    have hq' : q = m / 2 ^ (et - e).toNat := by
      rw [hq, if_neg h, hrem, if_neg]
      rintro (h1 | ⟨h1, _⟩)
      · omega
      · omega
    have hmul : q * 2 ^ (et - e).toNat = m := by
      rw [hq']; exact Nat.div_mul_cancel hdvd
    refine ⟨?_, ?_, ?_⟩
    · intro h0
      rw [h0] at hmul
      simp at hmul
      exact hm hmul.symm
    · have : (2 : ℚ) ^ et = (2 : ℚ) ^ (et - e).toNat * (2 : ℚ) ^ e := by
        rw [two_zpow_toNat _ (by omega), ← two_zpow_add]
        congr 1
        omega
      rw [this, ← mul_assoc]
      congr 1
      exact_mod_cast hmul
    · intro h23
      have hkL : (et - e).toNat + 23 = log2 m := by omega
      rw [hq']
      calc 2 ^ 23 = 2 ^ log2 m / 2 ^ (et - e).toNat := by
            rw [Nat.pow_div (by omega) (by norm_num)]
            congr 1
            omega
        _ ≤ m / 2 ^ (et - e).toNat := Nat.div_le_div_right hL1

end F32

namespace F32

/-- Rounding a value that is a binary32 number changes nothing. -/
theorem round_exact (s : Bool) (m : Nat) (e : Int) (hm : m ≠ 0) (M : Nat) (E : Int)
    (hM : M < 2 ^ 24) (hE1 : -149 ≤ E) (hE2 : E ≤ 104)
    (hv : (m : ℚ) * (2 : ℚ) ^ e = (M : ℚ) * (2 : ℚ) ^ E) :
    ∃ m1 e1, round s m e = finite s m1 e1
      ∧ (m1 : ℚ) * (2 : ℚ) ^ e1 = (m : ℚ) * (2 : ℚ) ^ e := by
  obtain ⟨hq0, hqv, hq23⟩ := round_core m e hm M E hM hE1 hv _ rfl _ rfl
  generalize hetd : max (e + (log2 m : Int) - 23) (-149) = et at hq0 hqv hq23
  generalize hqd : (if et ≤ e then m * 2 ^ (e - et).toNat
      else
        if 2 ^ ((et - e).toNat - 1) < m % 2 ^ (et - e).toNat
            ∨ (m % 2 ^ (et - e).toNat = 2 ^ ((et - e).toNat - 1)
              ∧ m / 2 ^ (et - e).toNat % 2 = 1)
        then m / 2 ^ (et - e).toNat + 1 else m / 2 ^ (et - e).toNat) = q at hq0 hqv hq23
  have hround : round s m e
      = if (if q = 2 ^ 24 then 2 ^ 23 else q) = 0 then zero s
        else if 104 < (if q = 2 ^ 24 then et + 1 else et) then inf s
        else finite s (if q = 2 ^ 24 then 2 ^ 23 else q) (if q = 2 ^ 24 then et + 1 else et) := by
    simp only [round, hm, if_false, hetd, hqd]
  have hq1 : (if q = 2 ^ 24 then 2 ^ 23 else q) ≠ 0 := by
    split
    · norm_num
    · exact hq0
  have hval : (((if q = 2 ^ 24 then 2 ^ 23 else q : Nat) : ℚ))
      * (2 : ℚ) ^ (if q = 2 ^ 24 then et + 1 else et) = (m : ℚ) * (2 : ℚ) ^ e := by
    rw [← hqv]
    split
    · rename_i h24
      rw [h24, two_zpow_add]
      push_cast
      ring
    · rfl
  have hno : ¬ 104 < (if q = 2 ^ 24 then et + 1 else et) := by
    intro hover
    have het104 : 104 ≤ et := by
      split at hover <;> omega
    have h23 := hq23 (by omega)
    have hq1' : 2 ^ 23 ≤ (if q = 2 ^ 24 then 2 ^ 23 else q) := by
      split
      · exact le_refl _
      · exact h23
    have h1 : (2 : ℚ) ^ (128 : Int)
        ≤ (((if q = 2 ^ 24 then 2 ^ 23 else q : Nat) : ℚ))
          * (2 : ℚ) ^ (if q = 2 ^ 24 then et + 1 else et) := by
      calc (2 : ℚ) ^ (128 : Int) = (2 : ℚ) ^ (23 : Int) * (2 : ℚ) ^ (105 : Int) := by
            rw [← two_zpow_add]; norm_num
        _ ≤ (((if q = 2 ^ 24 then 2 ^ 23 else q : Nat) : ℚ))
            * (2 : ℚ) ^ (if q = 2 ^ 24 then et + 1 else et) := by
            apply mul_le_mul _ (two_zpow_le _ _ (by omega)) (two_zpow_pos _).le
              (by positivity)
            calc (2 : ℚ) ^ (23 : Int) = ((2 ^ 23 : Nat) : ℚ) := by norm_num
              _ ≤ ((if q = 2 ^ 24 then 2 ^ 23 else q : Nat) : ℚ) := Nat.cast_le.mpr hq1'
    have h2 : (M : ℚ) * (2 : ℚ) ^ E < (2 : ℚ) ^ (128 : Int) := by
      calc (M : ℚ) * (2 : ℚ) ^ E < (2 : ℚ) ^ (24 : Int) * (2 : ℚ) ^ E := by
            apply mul_lt_mul_of_pos_right _ (two_zpow_pos E)
            calc (M : ℚ) < ((2 ^ 24 : Nat) : ℚ) := Nat.cast_lt.mpr hM
              _ = (2 : ℚ) ^ (24 : Int) := by norm_num
        _ ≤ (2 : ℚ) ^ (24 : Int) * (2 : ℚ) ^ (104 : Int) :=
            mul_le_mul_of_nonneg_left (two_zpow_le _ _ hE2) (two_zpow_pos _).le
        _ = (2 : ℚ) ^ (128 : Int) := by rw [← two_zpow_add]; norm_num
    rw [hval, hv] at h1
    exact absurd h1 (not_le.mpr h2)
  refine ⟨_, _, ?_, hval⟩
  rw [hround, if_neg hq1, if_neg hno]

end F32

namespace F32

theorem representable_of_abs_eq {p q : ℚ} (h : |p| = |q|) (hq : Representable q) :
    Representable p := by
  obtain ⟨M, E, h1, h2, h3, h4⟩ := hq
  exact ⟨M, E, h1, h2, h3, by rw [h, h4]⟩

/-- Rounding a magnitude that is a binary32 number yields that number with the given sign. -/
theorem round_toRat (s : Bool) (m : Nat) (e : Int)
    (h : Representable ((m : ℚ) * (2 : ℚ) ^ e)) :
    (round s m e).isFinite = true
      ∧ (round s m e).toRat = (if s then -1 else 1) * ((m : ℚ) * (2 : ℚ) ^ e) := by
  by_cases hm : m = 0
  · subst hm
    simp [round, zero, isFinite, toRat]
  · obtain ⟨M, E, h1, h2, h3, h4⟩ := h
    have hnn : (0 : ℚ) ≤ (m : ℚ) * (2 : ℚ) ^ e :=
      mul_nonneg (Nat.cast_nonneg m) (two_zpow_pos e).le
    rw [abs_of_nonneg hnn] at h4
    obtain ⟨m1, e1, hr, hv⟩ := round_exact s m e hm M E h1 h2 h3 h4
    rw [hr]
    exact ⟨rfl, by simp only [toRat, hv]⟩

theorem ofInt_exact (n : Int) (h : Representable (n : ℚ)) :
    (ofInt n).isFinite = true ∧ (ofInt n).toRat = (n : ℚ) := by
  have hval : ((n.natAbs : ℚ)) * (2 : ℚ) ^ (0 : Int) = |(n : ℚ)| := by
    rw [zpow_zero, mul_one, Nat.cast_natAbs, Int.cast_abs]
  have hrep : Representable (((n.natAbs : ℚ)) * (2 : ℚ) ^ (0 : Int)) := by
    apply representable_of_abs_eq _ h
    rw [hval, abs_abs]
  obtain ⟨hf, ht⟩ := round_toRat (decide (n < 0)) n.natAbs 0 hrep
  refine ⟨hf, ?_⟩
  unfold ofInt
  rw [ht, hval]
  by_cases hn : n < 0
  · have : (n : ℚ) < 0 := by exact_mod_cast hn
    simp [hn, abs_of_neg this]
  · have : (0 : ℚ) ≤ (n : ℚ) := by exact_mod_cast (not_lt.mp hn)
    simp [hn, abs_of_nonneg this]

theorem neg_toRat (a : F32) : (neg a).isFinite = a.isFinite ∧ (neg a).toRat = -a.toRat := by
  cases a with
  | finite s m e => cases s <;> simp [neg, isFinite, toRat]
  | inf s => simp [neg, isFinite, toRat]
  | nan => simp [neg, isFinite, toRat]

theorem add_exact (a b : F32) (ha : a.isFinite = true) (hb : b.isFinite = true)
    (h : Representable (a.toRat + b.toRat)) :
    (add a b).isFinite = true ∧ (add a b).toRat = a.toRat + b.toRat := by
  cases a with
  | inf s => simp [isFinite] at ha
  | nan => simp [isFinite] at ha
  | finite s1 m1 e1 =>
    cases b with
    | inf s => simp [isFinite] at hb
    | nan => simp [isFinite] at hb
    | finite s2 m2 e2 =>
      have hsum : (finite s1 m1 e1).toRat + (finite s2 m2 e2).toRat
          = ((((if s1 then -1 else 1) * ((m1 * 2 ^ (e1 - min e1 e2).toNat : Nat) : Int)
              + (if s2 then -1 else 1) * ((m2 * 2 ^ (e2 - min e1 e2).toNat : Nat) : Int)
              : Int)) : ℚ) * (2 : ℚ) ^ (min e1 e2) := by
        have p1 : (2 : ℚ) ^ e1 = (2 : ℚ) ^ (e1 - min e1 e2).toNat * (2 : ℚ) ^ (min e1 e2) := by
          rw [two_zpow_toNat _ (by omega), ← two_zpow_add]
          congr 1
          omega
        have p2 : (2 : ℚ) ^ e2 = (2 : ℚ) ^ (e2 - min e1 e2).toNat * (2 : ℚ) ^ (min e1 e2) := by
          rw [two_zpow_toNat _ (by omega), ← two_zpow_add]
          congr 1
          omega
        simp only [toRat]
        rw [p1, p2]
        push_cast
        cases s1 <;> cases s2 <;> simp <;> ring
      generalize hS : ((if s1 then -1 else 1) * ((m1 * 2 ^ (e1 - min e1 e2).toNat : Nat) : Int)
          + (if s2 then -1 else 1) * ((m2 * 2 ^ (e2 - min e1 e2).toNat : Nat) : Int) : Int)
          = S at hsum
      have hadd : add (finite s1 m1 e1) (finite s2 m2 e2)
          = if S = 0 then zero (s1 && s2) else round (decide (S < 0)) S.natAbs (min e1 e2) := by
        simp only [add, hS]
      rw [hadd, hsum]
      by_cases h0 : S = 0
      · simp [h0, zero, isFinite, toRat]
      · rw [if_neg h0]
        have habs : ((S.natAbs : ℚ)) * (2 : ℚ) ^ (min e1 e2)
            = |((S : ℚ)) * (2 : ℚ) ^ (min e1 e2)| := by
          rw [abs_mul, abs_of_pos (two_zpow_pos _), Nat.cast_natAbs, Int.cast_abs]
        have hrep : Representable (((S.natAbs : ℚ)) * (2 : ℚ) ^ (min e1 e2)) := by
          apply representable_of_abs_eq _ h
          rw [hsum, habs, abs_abs]
        obtain ⟨hf, ht⟩ := round_toRat (decide (S < 0)) S.natAbs (min e1 e2) hrep
        refine ⟨hf, ?_⟩
        rw [ht, Nat.cast_natAbs, Int.cast_abs]
        by_cases hn : S < 0
        · have : (S : ℚ) < 0 := by exact_mod_cast hn
          simp [hn, abs_of_neg this]
        · have : (0 : ℚ) ≤ (S : ℚ) := by exact_mod_cast (not_lt.mp hn)
          simp [hn, abs_of_nonneg this]

theorem sub_exact (a b : F32) (ha : a.isFinite = true) (hb : b.isFinite = true)
    (h : Representable (a.toRat - b.toRat)) :
    (sub a b).isFinite = true ∧ (sub a b).toRat = a.toRat - b.toRat := by
  obtain ⟨n1, n2⟩ := neg_toRat b
  have := add_exact a (neg b) ha (by rw [n1]; exact hb) (by rw [n2, ← sub_eq_add_neg]; exact h)
  unfold sub
  rw [this.2, n2, ← sub_eq_add_neg]
  exact ⟨this.1, rfl⟩

theorem mul_exact (a b : F32) (ha : a.isFinite = true) (hb : b.isFinite = true)
    (h : Representable (a.toRat * b.toRat)) :
    (mul a b).isFinite = true ∧ (mul a b).toRat = a.toRat * b.toRat := by
  cases a with
  | inf s => simp [isFinite] at ha
  | nan => simp [isFinite] at ha
  | finite s1 m1 e1 =>
    cases b with
    | inf s => simp [isFinite] at hb
    | nan => simp [isFinite] at hb
    | finite s2 m2 e2 =>
      have hprod : (finite s1 m1 e1).toRat * (finite s2 m2 e2).toRat
          = (if xor s1 s2 then -1 else 1) * (((m1 * m2 : Nat) : ℚ) * (2 : ℚ) ^ (e1 + e2)) := by
        simp only [toRat]
        rw [two_zpow_add]
        push_cast
        cases s1 <;> cases s2 <;> simp <;> ring
      have hrep : Representable (((m1 * m2 : Nat) : ℚ) * (2 : ℚ) ^ (e1 + e2)) := by
        apply representable_of_abs_eq _ h
        have hone : |(if xor s1 s2 then (-1 : ℚ) else 1)| = 1 := by
          cases s1 <;> cases s2 <;> simp
        rw [hprod, abs_mul (if xor s1 s2 then (-1 : ℚ) else 1), hone, one_mul]
      obtain ⟨hf, ht⟩ := round_toRat (xor s1 s2) (m1 * m2) (e1 + e2) hrep
      simp only [mul]
      exact ⟨hf, by rw [ht, hprod]⟩

end F32

namespace F32

/-- When the quotient of two magnitudes is a binary32 number, the integer division of `div`,
scaled by `sh` bits with `m2 < 2^(sh - 26)`, leaves no remainder. -/
theorem div_core (m1 m2 : Nat) (e1 e2 : Int) (sh : Nat) (hm1 : m1 ≠ 0)
    (hsh : m2 * 2 ^ 26 < 2 ^ sh) (M : Nat) (E : Int) (hM : M < 2 ^ 24) (hm2 : m2 ≠ 0)
    (hv : (m1 : ℚ) * (2 : ℚ) ^ e1 / ((m2 : ℚ) * (2 : ℚ) ^ e2) = (M : ℚ) * (2 : ℚ) ^ E) :
    m2 ∣ m1 * 2 ^ sh := by
  have hm2q : (m2 : ℚ) ≠ 0 := Nat.cast_ne_zero.mpr hm2
  have hp1 := two_zpow_pos e1
  have hp2 := two_zpow_pos e2
  -- the scaled numerator as a multiple of the divisor
  have hn : (m1 : ℚ) * (2 : ℚ) ^ (sh : Int)
      = (M : ℚ) * (m2 : ℚ) * (2 : ℚ) ^ (E - e1 + e2 + (sh : Int)) := by
    have h1 : (m1 : ℚ) * (2 : ℚ) ^ e1 = (M : ℚ) * (2 : ℚ) ^ E * ((m2 : ℚ) * (2 : ℚ) ^ e2) := by
      rw [← hv]
      field_simp
    have h2 : (2 : ℚ) ^ (E - e1 + e2 + (sh : Int))
        = (2 : ℚ) ^ E * ((2 : ℚ) ^ e1)⁻¹ * (2 : ℚ) ^ e2 * (2 : ℚ) ^ (sh : Int) := by
      rw [two_zpow_add, two_zpow_add, sub_eq_add_neg, two_zpow_add, zpow_neg]
    rw [h2]
    have h3 : (m1 : ℚ) = (M : ℚ) * (2 : ℚ) ^ E * ((m2 : ℚ) * (2 : ℚ) ^ e2)
        * ((2 : ℚ) ^ e1)⁻¹ := by
      rw [← h1]
      field_simp
    rw [h3]
    ring
  by_cases hj : 0 ≤ E - e1 + e2 + (sh : Int)
  · have hq : ((m1 * 2 ^ sh : Nat) : ℚ)
        = ((M * 2 ^ (E - e1 + e2 + (sh : Int)).toNat * m2 : Nat) : ℚ) := by
      rw [Nat.cast_mul, Nat.cast_mul, Nat.cast_mul, Nat.cast_pow, Nat.cast_pow, Nat.cast_ofNat,
        two_zpow_toNat _ hj, ← zpow_natCast, hn]
      ring
    rw [Nat.cast_injective hq]
    exact Dvd.intro_left _ rfl
  · exfalso
    have hjle : (2 : ℚ) ^ (E - e1 + e2 + (sh : Int)) ≤ (2 : ℚ) ^ (-1 : Int) :=
      two_zpow_le _ _ (by omega)
    have hMle : (M : ℚ) ≤ (2 : ℚ) ^ (24 : Int) := by
      calc (M : ℚ) ≤ ((2 ^ 24 : Nat) : ℚ) := Nat.cast_le.mpr hM.le
        _ = (2 : ℚ) ^ (24 : Int) := by norm_num
    have hm2le : (m2 : ℚ) * (2 : ℚ) ^ (26 : Int) ≤ (2 : ℚ) ^ (sh : Int) := by
      have : ((m2 * 2 ^ 26 : Nat) : ℚ) ≤ ((2 ^ sh : Nat) : ℚ) := Nat.cast_le.mpr hsh.le
      rw [zpow_natCast]
      calc (m2 : ℚ) * (2 : ℚ) ^ (26 : Int) = ((m2 * 2 ^ 26 : Nat) : ℚ) := by norm_num
        _ ≤ ((2 ^ sh : Nat) : ℚ) := this
        _ = (2 : ℚ) ^ sh := by norm_num
    have hub : (M : ℚ) * (m2 : ℚ) * (2 : ℚ) ^ (E - e1 + e2 + (sh : Int))
        ≤ (2 : ℚ) ^ (24 : Int) * (m2 : ℚ) * (2 : ℚ) ^ (-1 : Int) := by
      apply mul_le_mul _ hjle (two_zpow_pos _).le (by positivity)
      exact mul_le_mul_of_nonneg_right hMle (Nat.cast_nonneg _)
    have hlb : (2 : ℚ) ^ (sh : Int) ≤ (m1 : ℚ) * (2 : ℚ) ^ (sh : Int) := by
      have : (1 : ℚ) ≤ (m1 : ℚ) := by exact_mod_cast Nat.one_le_iff_ne_zero.mpr hm1
      calc (2 : ℚ) ^ (sh : Int) = 1 * (2 : ℚ) ^ (sh : Int) := (one_mul _).symm
        _ ≤ (m1 : ℚ) * (2 : ℚ) ^ (sh : Int) :=
            mul_le_mul_of_nonneg_right this (two_zpow_pos _).le
    have hlt : (2 : ℚ) ^ (24 : Int) * (m2 : ℚ) * (2 : ℚ) ^ (-1 : Int) < (2 : ℚ) ^ (sh : Int) := by
      have hpos : (0 : ℚ) < (m2 : ℚ) := by
        exact_mod_cast Nat.pos_of_ne_zero hm2
      calc (2 : ℚ) ^ (24 : Int) * (m2 : ℚ) * (2 : ℚ) ^ (-1 : Int)
          = (m2 : ℚ) * (2 : ℚ) ^ (23 : Int) := by
            have : (2 : ℚ) ^ (24 : Int) * (2 : ℚ) ^ (-1 : Int) = (2 : ℚ) ^ (23 : Int) := by
              rw [← two_zpow_add]; norm_num
            rw [mul_comm ((2 : ℚ) ^ (24 : Int)), mul_assoc, this]
        _ < (m2 : ℚ) * (2 : ℚ) ^ (26 : Int) :=
            mul_lt_mul_of_pos_left (two_zpow_lt _ _ (by norm_num)) hpos
        _ ≤ (2 : ℚ) ^ (sh : Int) := hm2le
    rw [hn] at hlb
    exact absurd (lt_of_le_of_lt hub hlt) (not_lt.mpr hlb)

theorem div_exact (a b : F32) (ha : a.isFinite = true) (hb : b.isFinite = true)
    (hb0 : b.toRat ≠ 0) (h : Representable (a.toRat / b.toRat)) :
    (div a b).isFinite = true ∧ (div a b).toRat = a.toRat / b.toRat := by
  cases a with
  | inf s => simp [isFinite] at ha
  | nan => simp [isFinite] at ha
  | finite s1 m1 e1 =>
    cases b with
    | inf s => simp [isFinite] at hb
    | nan => simp [isFinite] at hb
    | finite s2 m2 e2 =>
      have hm2 : m2 ≠ 0 := by
        intro h0
        apply hb0
        simp [toRat, h0]
      have hm2q : (m2 : ℚ) ≠ 0 := Nat.cast_ne_zero.mpr hm2
      have hp2 : (2 : ℚ) ^ e2 ≠ 0 := (two_zpow_pos e2).ne'
      have hquot : (finite s1 m1 e1).toRat / (finite s2 m2 e2).toRat
          = (if xor s1 s2 then -1 else 1)
            * ((m1 : ℚ) * (2 : ℚ) ^ e1 / ((m2 : ℚ) * (2 : ℚ) ^ e2)) := by
        simp only [toRat]
        cases s1 <;> cases s2 <;> simp <;> field_simp
      have hone : |(if xor s1 s2 then (-1 : ℚ) else 1)| = 1 := by
        cases s1 <;> cases s2 <;> simp
      have hnn : (0 : ℚ) ≤ (m1 : ℚ) * (2 : ℚ) ^ e1 / ((m2 : ℚ) * (2 : ℚ) ^ e2) := by
        positivity
      by_cases hm1 : m1 = 0
      · subst hm1
        simp [div, hm2, zero, isFinite, toRat]
      · obtain ⟨M, E, h1, h2, h3, h4⟩ := h
        rw [hquot, abs_mul, hone, one_mul, abs_of_nonneg hnn] at h4
        have hdiv : div (finite s1 m1 e1) (finite s2 m2 e2)
            = round (xor s1 s2)
                (2 * (m1 * 2 ^ (log2 m2 + 27) / m2)
                  + (if m1 * 2 ^ (log2 m2 + 27) % m2 = 0 then 0 else 1))
                (e1 - e2 - ((log2 m2 + 27 : Nat) : Int) - 1) := by
          simp only [div, hm2, hm1, if_false]
        have hshb : m2 * 2 ^ 26 < 2 ^ (log2 m2 + 27) := by
          have := (log2_spec m2 (Nat.one_le_iff_ne_zero.mpr hm2)).2
          calc m2 * 2 ^ 26 < 2 ^ (log2 m2 + 1) * 2 ^ 26 :=
                Nat.mul_lt_mul_of_pos_right this (by norm_num)
            _ = 2 ^ (log2 m2 + 27) := by rw [← pow_add]
        generalize log2 m2 + 27 = sh at hdiv hshb
        have hdvd := div_core m1 m2 e1 e2 sh hm1 hshb M E h1 hm2 h4
        have hmod : m1 * 2 ^ sh % m2 = 0 := Nat.mod_eq_zero_of_dvd hdvd
        rw [hmod, if_pos rfl, add_zero] at hdiv
        have hval : ((2 * (m1 * 2 ^ sh / m2) : Nat) : ℚ)
              * (2 : ℚ) ^ (e1 - e2 - (sh : Int) - 1)
            = (m1 : ℚ) * (2 : ℚ) ^ e1 / ((m2 : ℚ) * (2 : ℚ) ^ e2) := by
          have hq : (((m1 * 2 ^ sh / m2 : Nat)) : ℚ)
              = (m1 : ℚ) * (2 : ℚ) ^ (sh : Int) / (m2 : ℚ) := by
            rw [Nat.cast_div hdvd hm2q, Nat.cast_mul, Nat.cast_pow, Nat.cast_ofNat,
              zpow_natCast]
          have hexp : (2 : ℚ) ^ (e1 - e2 - (sh : Int) - 1)
              = (2 : ℚ) ^ e1 * ((2 : ℚ) ^ e2)⁻¹ * ((2 : ℚ) ^ (sh : Int))⁻¹ * (2 : ℚ)⁻¹ := by
            rw [sub_eq_add_neg, sub_eq_add_neg, sub_eq_add_neg, two_zpow_add, two_zpow_add,
              two_zpow_add, zpow_neg, zpow_neg, zpow_neg, zpow_one]
          have hshne : (2 : ℚ) ^ (sh : Int) ≠ 0 := (two_zpow_pos _).ne'
          rw [Nat.cast_mul, hq, hexp, Nat.cast_ofNat]
          field_simp
          ring
        have hrep : Representable
            (((2 * (m1 * 2 ^ sh / m2) : Nat) : ℚ) * (2 : ℚ) ^ (e1 - e2 - (sh : Int) - 1)) :=
          ⟨M, E, h1, h2, h3, by rw [hval, abs_of_nonneg hnn, h4]⟩
        obtain ⟨hf, ht⟩ := round_toRat (xor s1 s2) _ _ hrep
        rw [hdiv]
        exact ⟨hf, by rw [ht, hval, hquot]⟩

end F32

namespace F32

/-- The integer part of a finite binary32 value is its rational value truncated toward
zero. -/
theorem trunc_toRat (f : F32) (hf : f.isFinite = true) :
    trunc f = some (Evaluator.truncTowardZero f.toRat) := by
  cases f with
  | inf s => simp [isFinite] at hf
  | nan => simp [isFinite] at hf
  | finite s m e =>
    have hfloor : ⌊(m : ℚ) * (2 : ℚ) ^ e⌋
        = ((if 0 ≤ e then m * 2 ^ e.toNat else m / 2 ^ (-e).toNat : Nat) : Int) := by
      by_cases he : 0 ≤ e
      · rw [if_pos he]
        have : (m : ℚ) * (2 : ℚ) ^ e = ((m * 2 ^ e.toNat : Nat) : ℚ) := by
          rw [Nat.cast_mul, Nat.cast_pow, Nat.cast_ofNat, two_zpow_toNat _ he]
        rw [this, Int.floor_natCast]
      · rw [if_neg he]
        have : (m : ℚ) * (2 : ℚ) ^ e = (m : ℚ) / ((2 ^ (-e).toNat : Nat) : ℚ) := by
          rw [Nat.cast_pow, Nat.cast_ofNat, two_zpow_toNat _ (by omega), zpow_neg,
            div_eq_mul_inv, inv_inv]
        rw [this, Rat.floor_natCast_div_natCast]
        rfl
    have hnn : (0 : ℚ) ≤ (m : ℚ) * (2 : ℚ) ^ e :=
      mul_nonneg (Nat.cast_nonneg m) (two_zpow_pos e).le
    simp only [trunc, toRat, Evaluator.truncTowardZero]
    congr 1
    cases s with
    | false => simp only [Bool.false_eq_true, if_false, one_mul, if_pos hnn, hfloor]
    | true =>
      simp only [if_true, neg_mul, one_mul, neg_neg, Left.nonneg_neg_iff]
      by_cases h0 : (m : ℚ) * (2 : ℚ) ^ e ≤ 0
      · have hz : (m : ℚ) * (2 : ℚ) ^ e = 0 := le_antisymm h0 hnn
        rw [if_pos h0, ← hfloor, hz]
        simp
      · rw [if_neg h0, hfloor]

end F32

namespace Evaluator

theorem isExpression_cases (c : Char) (l r : Node) (h : (Node.node c l r).isExpression = true) :
    (l = .nil ∧ r = .nil ∧ (isdigit c || isalpha c) = true)
    ∨ (Parser.isOperator c = true ∧ l.isExpression = true ∧ r.isExpression = true) := by
  cases l with
  | nil =>
    cases r with
    | nil => left; exact ⟨rfl, rfl, by simpa [Node.isExpression] using h⟩
    | node c2 l2 r2 => simp [Node.isExpression] at h
  | node c1 l1 r1 =>
    right
    simp only [Node.isExpression, Bool.and_eq_true] at h
    exact ⟨h.1.1, h.1.2, h.2⟩

/-- When the exact value of every node is a binary32 number and no divisor is zero, the
binary32 value of an expression tree is its exact value. -/
theorem floatValue_exact (lookup : Str → Option Int) (t : Node) (ht : t.isExpression = true)
    (hall : missingVariables lookup t = []) (hz : noZeroDivisor lookup t)
    (hr : exactlyRepresentable lookup t) :
    (floatValue lookup t).isFinite = true ∧ (floatValue lookup t).toRat = exactValue lookup t := by
  induction t with
  | nil => simp [Node.isExpression] at ht
  | node c l r ihl ihr =>
    rcases isExpression_cases c l r ht with ⟨hl, hrn, hc⟩ | ⟨hop, hel, her⟩
    · subst hl; subst hrn
      by_cases hd : isdigit c = true
      · have hrep := hr.1
        simp only [exactValue, hd, if_true] at hrep
        simpa [floatValue, exactValue, hd] using F32.ofInt_exact _ hrep
      · have ha : isalpha c = true := by
          simp only [Bool.or_eq_true] at hc
          tauto
        cases hlk : lookup [c] with
        | none =>
          simp [missingVariables, Node.variableNames, hd, ha, hlk] at hall
        | some v =>
          have hrep := hr.1
          simp only [exactValue, hd, ha, if_true, hlk, Option.getD_some] at hrep
          simpa [floatValue, exactValue, hd, ha, hlk] using F32.ofInt_exact _ hrep
    · have hd : isdigit c = false := by
        rcases Parser.isOperator_cases c hop with h | h | h | h <;> subst h <;> decide
      have ha : isalpha c = false := by
        rcases Parser.isOperator_cases c hop with h | h | h | h <;> subst h <;> decide
      have hmiss : missingVariables lookup l = [] ∧ missingVariables lookup r = [] := by
        have : missingVariables lookup (.node c l r)
            = missingVariables lookup l ++ missingVariables lookup r := by
          simp [missingVariables, Node.variableNames, hd, ha]
        rw [this] at hall
        exact List.append_eq_nil.mp hall
      have hz' : noZeroDivisor lookup l ∧ noZeroDivisor lookup r
          ∧ (c = Utils.Constants.cDivOp → exactValue lookup r ≠ 0) := by
        simpa [noZeroDivisor, hd, ha] using hz
      obtain ⟨fl, vl⟩ := ihl hel hmiss.1 hz'.1 hr.2.1
      obtain ⟨fr, vr⟩ := ihr her hmiss.2 hz'.2.1 hr.2.2
      have hrep := hr.1
      rcases Parser.isOperator_cases c hop with h | h | h | h <;> subst h
      · have e1 : exactValue lookup (.node '+' l r) = exactValue lookup l + exactValue lookup r := by
          simp [exactValue, isdigit, isalpha, Utils.Constants.cAddOp]
        rw [e1, ← vl, ← vr] at hrep
        have := F32.add_exact _ _ fl fr hrep
        rw [e1, ← vl, ← vr]
        simpa [floatValue, isdigit, isalpha, performArithmeticOperation,
          Utils.Constants.cAddOp] using this
      · have e1 : exactValue lookup (.node '-' l r) = exactValue lookup l - exactValue lookup r := by
          simp [exactValue, isdigit, isalpha, Utils.Constants.cAddOp, Utils.Constants.cSubOp]
        rw [e1, ← vl, ← vr] at hrep
        have := F32.sub_exact _ _ fl fr hrep
        rw [e1, ← vl, ← vr]
        simpa [floatValue, isdigit, isalpha, performArithmeticOperation,
          Utils.Constants.cAddOp, Utils.Constants.cSubOp] using this
      · have e1 : exactValue lookup (.node '*' l r) = exactValue lookup l * exactValue lookup r := by
          simp [exactValue, isdigit, isalpha, Utils.Constants.cAddOp, Utils.Constants.cSubOp,
            Utils.Constants.cMultOp]
        rw [e1, ← vl, ← vr] at hrep
        have := F32.mul_exact _ _ fl fr hrep
        rw [e1, ← vl, ← vr]
        simpa [floatValue, isdigit, isalpha, performArithmeticOperation,
          Utils.Constants.cAddOp, Utils.Constants.cSubOp, Utils.Constants.cMultOp] using this
      · have e1 : exactValue lookup (.node '/' l r) = exactValue lookup l / exactValue lookup r := by
          simp [exactValue, isdigit, isalpha, Utils.Constants.cAddOp, Utils.Constants.cSubOp,
            Utils.Constants.cMultOp, Utils.Constants.cDivOp]
        rw [e1, ← vl, ← vr] at hrep
        have h0 : (floatValue lookup r).toRat ≠ 0 := by
          rw [vr]; exact hz'.2.2 rfl
        have := F32.div_exact _ _ fl fr h0 hrep
        rw [e1, ← vl, ← vr]
        simpa [floatValue, isdigit, isalpha, performArithmeticOperation,
          Utils.Constants.cAddOp, Utils.Constants.cSubOp, Utils.Constants.cMultOp,
          Utils.Constants.cDivOp] using this

end Evaluator

namespace Evaluator

/-- C1 fails as stated: the tree of `9*9*9*9*9*9*9*9` is an expression tree without variable
and without division, its exact value is 43046721, and `execute` returns 43046720: the
product is rounded to 24 significant bits. -/
theorem execute_rounds_large_product :
    ninesTree.isExpression = true
    ∧ missingVariables (fun _ => none) ninesTree = []
    ∧ noZeroDivisor (fun _ => none) ninesTree
    ∧ truncTowardZero (exactValue (fun _ => none) ninesTree) = 43046721
    ∧ execute ninesTree (fun _ => none) = .ok (.integer 43046720) := by
  refine ⟨by decide, by decide, ?_, ?_, by decide⟩
  · simp [noZeroDivisor, ninesTree, Node.leaf, isdigit, isalpha, Utils.Constants.cDivOp]
  · have : exactValue (fun _ => none) ninesTree = 43046721 := by
      simp [exactValue, ninesTree, Node.leaf, isdigit, isalpha, Utils.Constants.cAddOp,
        Utils.Constants.cSubOp, Utils.Constants.cMultOp]
      norm_num
    rw [this]
    simp [truncTowardZero]

theorem testTree_exactValue : exactValue (fun _ => none) testTree = 25 / 2 := by
  simp [exactValue, testTree, Node.leaf, isdigit, isalpha, Utils.Constants.cAddOp,
    Utils.Constants.cSubOp, Utils.Constants.cMultOp, Utils.Constants.cDivOp]
  norm_num

theorem testTree_trunc : truncTowardZero (exactValue (fun _ => none) testTree) = 12 := by
  rw [testTree_exactValue]
  have h : (0 : ℚ) ≤ 25 / 2 := by norm_num
  rw [truncTowardZero, if_pos h, Int.floor_eq_iff]
  norm_num

theorem representable_of_eq (q : ℚ) (m : Nat) (e : Int) (hm : m < 2 ^ 24) (h1 : -149 ≤ e)
    (h2 : e ≤ 104) (h : |q| = (m : ℚ) * (2 : ℚ) ^ e) : F32.Representable q :=
  ⟨m, e, hm, h1, h2, h⟩

theorem testTree_exactlyRepresentable : exactlyRepresentable (fun _ => none) testTree := by
  simp only [exactlyRepresentable, testTree, Node.leaf, and_true]
  refine ⟨?_, ⟨?_, ?_, ?_⟩, ?_, ?_, ?_⟩
  · apply representable_of_eq _ 25 (-1) (by norm_num) (by norm_num) (by norm_num)
    simp [exactValue, isdigit, isalpha, Utils.Constants.cAddOp, Utils.Constants.cSubOp,
      Utils.Constants.cMultOp, Utils.Constants.cDivOp]
    norm_num
  · apply representable_of_eq _ 9 0 (by norm_num) (by norm_num) (by norm_num)
    simp [exactValue, isdigit, isalpha, Utils.Constants.cAddOp]
    norm_num
  · apply representable_of_eq _ 4 0 (by norm_num) (by norm_num) (by norm_num)
    simp [exactValue, isdigit]
  · apply representable_of_eq _ 5 0 (by norm_num) (by norm_num) (by norm_num)
    simp [exactValue, isdigit]
  · apply representable_of_eq _ 7 (-1) (by norm_num) (by norm_num) (by norm_num)
    simp [exactValue, isdigit, isalpha, Utils.Constants.cAddOp, Utils.Constants.cSubOp,
      Utils.Constants.cMultOp, Utils.Constants.cDivOp]
    norm_num
  · apply representable_of_eq _ 7 0 (by norm_num) (by norm_num) (by norm_num)
    simp [exactValue, isdigit]
  · apply representable_of_eq _ 2 0 (by norm_num) (by norm_num) (by norm_num)
    simp [exactValue, isdigit]

theorem testTree_noZeroDivisor : noZeroDivisor (fun _ => none) testTree := by
  simp [noZeroDivisor, testTree, Node.leaf, isdigit, isalpha, Utils.Constants.cDivOp,
    exactValue]

/-- C1, amended. For an expression tree whose variable leaves are all keys of the value map,
`execute` returns the Integer alternative, holding the conversion to `int32_t` of the
binary32 value of the tree: digit leaves read as `0..9`, variable leaves as their mapped value
converted to `float`, internal nodes as the binary32 operations `+ - * /` (each rounded to
the nearest `float`, none to an integer); the conversion truncates toward zero, once, when
the truncated value fits in 32 bits. When no divisor is zero and the exact value of every
node is itself a binary32 number, that integer is the exact value of the tree truncated
toward zero. -/
theorem execute_value (t : Node) (lookup : Str → Option Int) (ht : t.isExpression = true)
    (hall : missingVariables lookup t = []) :
    execute t lookup = .ok (.integer (F32.toInt32 (floatValue lookup t)))
    ∧ (∀ v, F32.trunc (floatValue lookup t) = some v → -(2 : Int) ^ 31 ≤ v → v ≤ 2 ^ 31 - 1 →
        execute t lookup = .ok (.integer v))
    ∧ (noZeroDivisor lookup t → exactlyRepresentable lookup t →
        -(2 : Int) ^ 31 ≤ truncTowardZero (exactValue lookup t) →
        truncTowardZero (exactValue lookup t) ≤ 2 ^ 31 - 1 →
        execute t lookup = .ok (.integer (truncTowardZero (exactValue lookup t)))) := by
  have h := (execute_spec lookup t (evaluable_of_isExpression t ht)).1 hall
  have hconv : ∀ v, F32.trunc (floatValue lookup t) = some v → -(2 : Int) ^ 31 ≤ v →
      v ≤ 2 ^ 31 - 1 → execute t lookup = .ok (.integer v) := by
    intro v hv h1 h2
    rw [h]
    have hr : -(2 : Int) ^ 31 ≤ v ∧ v ≤ 2 ^ 31 - 1 := ⟨h1, h2⟩
    simp only [F32.toInt32, hv, hr, and_self, if_true]
  refine ⟨h, hconv, ?_⟩
  intro hz hr h1 h2
  obtain ⟨hf, hv⟩ := floatValue_exact lookup t ht hall hz hr
  apply hconv _ _ h1 h2
  rw [F32.trunc_toRat _ hf, hv]

/-- C1, amended, at the two trees of the unit tests, `4+5+7/2` and `4+a+7/b` with
`a = 5`, `b = 2`: both give 12, the first also as its exact value `25/2` truncated. -/
theorem execute_value_witness :
    execute testTree (fun _ => none) = .ok (.integer 12)
    ∧ execute testTreeWithVariables testLookup = .ok (.integer 12)
    ∧ execute testTree (fun _ => none)
        = .ok (.integer (truncTowardZero (exactValue (fun _ => none) testTree)))
    ∧ truncTowardZero (exactValue (fun _ => none) testTree) = 12 :=
  ⟨(execute_value testTree (fun _ => none) (by decide) (by decide)).2.1 12 (by decide)
      (by decide) (by decide),
    (execute_value testTreeWithVariables testLookup (by decide) (by decide)).2.1 12 (by decide)
      (by decide) (by decide),
    (execute_value testTree (fun _ => none) (by decide) (by decide)).2.2 testTree_noZeroDivisor
      testTree_exactlyRepresentable (by rw [testTree_trunc]; decide)
      (by rw [testTree_trunc]; decide),
    testTree_trunc⟩

/-- C2. For an expression tree and a value map, with `D` the variable leaves of the tree that
are not keys of the map: when `D` is not empty `execute` returns the dependency set `D`
(each member once), when `D` is empty it returns an Integer, and in no case does it return an
empty dependency set. -/
theorem execute_dependencies (t : Node) (lookup : Str → Option Int)
    (ht : t.isExpression = true) :
    (missingVariables lookup t ≠ [] →
      ∃ ds, execute t lookup = .ok (.dependencies ds) ∧ ds.Nodup
        ∧ ∀ v, v ∈ ds ↔ v ∈ missingVariables lookup t)
    ∧ (missingVariables lookup t = [] → ∃ i, execute t lookup = .ok (.integer i))
    ∧ execute t lookup ≠ .ok (.dependencies []) := by
  have hs := execute_spec lookup t (evaluable_of_isExpression t ht)
  refine ⟨?_, ?_, execute_ne_empty_dependencies lookup t⟩
  · intro h
    obtain ⟨ds, e, _, hn, hm⟩ := hs.2 h
    exact ⟨ds, e, hn, hm⟩
  · intro h
    exact ⟨_, hs.1 h⟩

/-- C2 at the tree of `4+a+7/b` of the unit test: with an empty map the dependency set is
`{a, b}` (which the set enumerates as `b`, `a`), with the map `{a: 5, b: 2}` the result is an
Integer. -/
theorem execute_dependencies_witness :
    ((∃ ds, execute testTreeWithVariables (fun _ => none) = .ok (.dependencies ds) ∧ ds.Nodup
        ∧ ∀ v, v ∈ ds ↔ v ∈ missingVariables (fun _ => none) testTreeWithVariables)
      ∧ missingVariables (fun _ => none) testTreeWithVariables = [['a'], ['b']]
      ∧ execute testTreeWithVariables (fun _ => none) = .ok (.dependencies [['b'], ['a']]))
    ∧ ∃ i, execute testTreeWithVariables testLookup = .ok (.integer i) :=
  ⟨⟨(execute_dependencies testTreeWithVariables (fun _ => none) (by decide)).1 (by decide),
      by decide, by decide⟩,
    (execute_dependencies testTreeWithVariables testLookup (by decide)).2.1 (by decide)⟩

end Evaluator

/-! ## The dependency engine -/

namespace Calculator.State

theorem applyStores_append (values : Str → Option Int) (l1 l2 : List (Str × Int)) :
    applyStores values (l1 ++ l2) = applyStores (applyStores values l1) l2 := by
  simp [applyStores, List.foldl_append]

theorem applyStores_cons (values : Str → Option Int) (p : Str × Int) (l : List (Str × Int)) :
    applyStores values (p :: l) = applyStores (insertOrAssign values p.1 p.2) l := rfl

theorem applyStores_lastValue (values : Str → Option Int) (l : List (Str × Int)) (k : Str) :
    applyStores values l k = ((lastValue l k).orElse fun _ => values k) := by
  induction l using List.reverseRecOn with
  | nil => simp [applyStores, lastValue]
  | append_singleton l p ih =>
    rw [applyStores_append]
    by_cases h : p.1 = k
    · simp [applyStores, lastValue, insertOrAssign, h]
    · have h' : ¬ k = p.1 := fun e => h e.symm
      simp only [applyStores, List.foldl_cons, List.foldl_nil, insertOrAssign, h', if_false]
      have : lastValue (l ++ [p]) k = lastValue l k := by
        simp [lastValue, List.find?_cons, h]
      rw [this]
      exact ih

theorem lastValue_isSome (l : List (Str × Int)) (p : Str × Int) (hp : p ∈ l) :
    ∃ v, lastValue l p.1 = some v := by
  have : (l.reverse.find? fun q => decide (q.1 = p.1)).isSome = true := by
    rw [List.find?_isSome]
    exact ⟨p, by simpa using hp, by simp⟩
  obtain ⟨q, hq⟩ := Option.isSome_iff_exists.mp this
  exact ⟨q.2, by simp [lastValue, hq]⟩

theorem sameBookkeeping_refl (st : State) : SameBookkeeping st st := ⟨rfl, rfl, rfl⟩

theorem sameBookkeeping_trans {a b c : State} (h1 : SameBookkeeping a b)
    (h2 : SameBookkeeping b c) : SameBookkeeping a c :=
  ⟨h2.1.trans h1.1, h2.2.1.trans h1.2.1, h2.2.2.trans h1.2.2⟩

theorem cascadePost_refl (st : State) (acc : List (Str × Int)) : CascadePost st acc st acc :=
  ⟨sameBookkeeping_refl st, [], by simp, rfl, by simp⟩

theorem cascadePost_trans {a b c : State} {x y z : List (Str × Int)}
    (h1 : CascadePost a x b y) (h2 : CascadePost b y c z) : CascadePost a x c z := by
  obtain ⟨f1, l1, e1, v1, p1⟩ := h1
  obtain ⟨f2, l2, e2, v2, p2⟩ := h2
  refine ⟨sameBookkeeping_trans f1 f2, l1 ++ l2, ?_, ?_, ?_⟩
  · rw [e2, e1, List.append_assoc]
  · rw [v2, v1, applyStores_append]
  · intro p hp
    rcases List.mem_append.mp hp with h | h
    · exact p1 p h
    · have := p2 p h
      rwa [f1.2.2] at this

/-- One round of the loop, for a recursive call that satisfies `CascadePost` after its own
store. -/
theorem cascadeStep_post
    (recurse : State → List (Str × Int) → Str → Int → Res (State × List (Str × Int)))
    (hrec : ∀ st acc x v st1 acc1, recurse st acc x v = .ok (st1, acc1) →
      (st.mExpressionsWithDependenciesMap x).isSome = true → CascadePost st acc st1 acc1)
    (st : State) (acc : List (Str × Int)) (d : Str) (st1 : State) (acc1 : List (Str × Int))
    (h : cascadeStep recurse (st, acc) d = .ok (st1, acc1)) : CascadePost st acc st1 acc1 := by
  unfold cascadeStep at h
  cases hp : st.mExpressionsWithDependenciesMap d with
  | none =>
    simp only [hp] at h
    injection h with h
    injection h with h1 h2
    subst h1; subst h2
    exact cascadePost_refl _ _
  | some stack =>
    cases stack with
    | nil => simp [hp] at h
    | cons top rest =>
      simp only [hp] at h
      cases he : Evaluator.execute top st.mOperandValuesMap with
      | ok r =>
        cases r with
        | integer v =>
          simp only [he, Res.bind] at h
          exact hrec _ _ _ _ _ _ h (by simp [hp])
        | dependencies ds =>
          simp only [he, Res.bind] at h
          injection h with h
          injection h with h1 h2
          subst h1; subst h2
          exact cascadePost_refl _ _
      | undefined => simp [he, Res.bind] at h
      | diverges => simp [he, Res.bind] at h
      | outOfFuel => simp [he, Res.bind] at h

theorem cascadeLoop_post
    (recurse : State → List (Str × Int) → Str → Int → Res (State × List (Str × Int)))
    (hrec : ∀ st acc x v st1 acc1, recurse st acc x v = .ok (st1, acc1) →
      (st.mExpressionsWithDependenciesMap x).isSome = true → CascadePost st acc st1 acc1)
    (ds : List Str) (st : State) (acc : List (Str × Int)) (st1 : State)
    (acc1 : List (Str × Int))
    (h : cascadeLoop recurse ds (st, acc) = .ok (st1, acc1)) : CascadePost st acc st1 acc1 := by
  induction ds generalizing st acc with
  | nil =>
    simp only [cascadeLoop] at h
    injection h with h
    injection h with h1 h2
    subst h1; subst h2
    exact cascadePost_refl _ _
  | cons d rest ih =>
    simp only [cascadeLoop] at h
    cases hs : cascadeStep recurse (st, acc) d with
    | ok s =>
      obtain ⟨st2, acc2⟩ := s
      simp only [hs, Res.bind] at h
      exact cascadePost_trans (cascadeStep_post recurse hrec st acc d st2 acc2 hs) (ih st2 acc2 h)
    | undefined => simp [hs, Res.bind] at h
    | diverges => simp [hs, Res.bind] at h
    | outOfFuel => simp [hs, Res.bind] at h

/-- A store that returns has changed only the value map, by the stores it appended to the
list: its own store first, then stores of operands with a pending expression. -/
theorem store_post (fuel : Nat) (st : State) (acc : List (Str × Int)) (x : Str) (v : Int)
    (st1 : State) (acc1 : List (Str × Int))
    (h : storeValueAndCheckDependencies fuel st acc x v = .ok (st1, acc1)) :
    SameBookkeeping st st1
      ∧ ∃ l, acc1 = acc ++ (x, v) :: l
        ∧ st1.mOperandValuesMap = applyStores st.mOperandValuesMap ((x, v) :: l)
        ∧ ∀ p ∈ l, (st.mExpressionsWithDependenciesMap p.1).isSome = true := by
  induction fuel generalizing st acc x v st1 acc1 with
  | zero => simp [storeValueAndCheckDependencies] at h
  | succ n ih =>
    simp only [storeValueAndCheckDependencies] at h
    have hrec : ∀ st acc x v st1 acc1,
        storeValueAndCheckDependencies n st acc x v = .ok (st1, acc1) →
        (st.mExpressionsWithDependenciesMap x).isSome = true → CascadePost st acc st1 acc1 := by
      intro st acc x v st1 acc1 h hx
      obtain ⟨f, l, e, hv, hp⟩ := ih st acc x v st1 acc1 h
      refine ⟨f, (x, v) :: l, e, hv, ?_⟩
      intro p hp'
      rcases List.mem_cons.mp hp' with h1 | h1
      · subst h1; exact hx
      · exact hp p h1
    obtain ⟨f, l, e, hv, hp⟩ := cascadeLoop_post _ hrec _ _ _ _ _ h
    refine ⟨⟨f.1, f.2.1, f.2.2⟩, l, ?_, ?_, hp⟩
    · rw [e]; simp
    · rw [hv]; rfl


theorem emplaceAfterFirst_perm (key value : Str) (map : List (Str × Str)) :
    (emplaceAfterFirst key value map).Perm ((key, value) :: map) := by
  induction map with
  | nil => exact List.Perm.refl _
  | cons entry rest ih =>
    simp only [emplaceAfterFirst]
    split
    · exact List.Perm.swap _ _ _
    · exact (List.Perm.cons entry ih).trans (List.Perm.swap _ _ _)

theorem emplaceBeforeFirst_perm (key value : Str) (map : List (Str × Str)) :
    (emplaceBeforeFirst key value map).Perm ((key, value) :: map) := by
  induction map with
  | nil => exact List.Perm.refl _
  | cons entry rest ih =>
    simp only [emplaceBeforeFirst]
    split
    · exact List.Perm.refl _
    · exact (List.Perm.cons entry ih).trans (List.Perm.swap _ _ _)

theorem emplace_perm (map : List (Str × Str)) (key value : Str) :
    (emplace map key value).Perm ((key, value) :: map) := by
  unfold emplace
  split
  · exact emplaceAfterFirst_perm key value map
  · exact emplaceBeforeFirst_perm key value map

theorem emplacedFrom_perm (recorded map : List (Str × Str)) :
    (recorded.foldl (fun map entry => emplace map entry.1 entry.2) map).Perm
      (map ++ recorded) := by
  induction recorded generalizing map with
  | nil => simp
  | cons entry rest ih =>
    simp only [List.foldl_cons]
    refine (ih _).trans ?_
    refine (List.Perm.append_right rest (emplace_perm map entry.1 entry.2)).trans ?_
    simpa using (@List.perm_middle _ entry map rest).symm

/-- The container holds the entries that were recorded, each as often as it was recorded. -/
theorem emplaced_perm (recorded : List (Str × Str)) : (emplaced recorded).Perm recorded := by
  simpa [emplaced] using emplacedFrom_perm recorded []

theorem mem_equalRange (st : State) (x d : Str) :
    d ∈ equalRange st x ↔ (x, d) ∈ st.mOperandDependenciesMap := by
  rw [← (emplaced_perm st.mOperandDependenciesMap).mem_iff]
  simp only [equalRange, List.mem_map, List.mem_filter, decide_eq_true_eq]
  constructor
  · rintro ⟨e, ⟨he, h1⟩, h2⟩
    obtain ⟨a, b⟩ := e
    simp only at h1 h2
    subst h1; subst h2
    exact he
  · intro h
    exact ⟨(x, d), ⟨h, rfl⟩, rfl⟩

theorem rankedBy_of_same {st st1 : State} {rank : Str → Nat} (h : SameBookkeeping st st1)
    (hr : RankedBy st rank) : RankedBy st1 rank := by
  intro e he hp
  rw [h.2.1] at he
  rw [h.2.2] at hp
  exact hr e he hp

theorem pendingEvaluable_of_same {st st1 : State} (h : SameBookkeeping st st1)
    (hr : PendingEvaluable st) : PendingEvaluable st1 := by
  intro k stack hk
  rw [h.2.2] at hk
  exact hr k stack hk

end Calculator.State

namespace Evaluator

/-- On an evaluable tree `execute` returns. -/
theorem execute_ok_of_evaluable (lookup : Str → Option Int) (t : Node)
    (ht : t.evaluable = true) : ∃ r, execute t lookup = .ok r := by
  by_cases h : missingVariables lookup t = []
  · exact ⟨_, (execute_spec lookup t ht).1 h⟩
  · obtain ⟨ds, e, _⟩ := (execute_spec lookup t ht).2 h
    exact ⟨_, e⟩

end Evaluator

namespace Calculator.State

/-- With edges ranked and pending stacks evaluable, a store whose budget exceeds the rank of
its operand returns. -/
theorem store_terminates (st0 : State) (rank : Str → Nat) (hr : RankedBy st0 rank)
    (he : PendingEvaluable st0) (fuel : Nat) :
    ∀ (st : State) (acc : List (Str × Int)) (x : Str) (v : Int),
      SameBookkeeping st0 st → rank x < fuel →
      ∃ r, storeValueAndCheckDependencies fuel st acc x v = .ok r := by
  induction fuel with
  | zero => intro st acc x v _ h; omega
  | succ n ih =>
    intro st acc x v hs hx
    simp only [storeValueAndCheckDependencies]
    have hloop : ∀ (ds : List Str),
        (∀ d ∈ ds, (st0.mExpressionsWithDependenciesMap d).isSome = true → rank d < n) →
        ∀ (s : State × List (Str × Int)), SameBookkeeping st0 s.1 →
        ∃ r, cascadeLoop (storeValueAndCheckDependencies n) ds s = .ok r := by
      intro ds
      induction ds with
      | nil => intro _ s _; exact ⟨s, rfl⟩
      | cons d rest ihd =>
        intro hds s hsame
        have hstep : ∃ s1, cascadeStep (storeValueAndCheckDependencies n) s d = .ok s1
            ∧ SameBookkeeping st0 s1.1 := by
          unfold cascadeStep
          cases hp : s.1.mExpressionsWithDependenciesMap d with
          | none => exact ⟨s, rfl, hsame⟩
          | some stack =>
            have hp0 : st0.mExpressionsWithDependenciesMap d = some stack := by
              rw [← hsame.2.2]; exact hp
            obtain ⟨top, rest1, e1, e2⟩ := he d stack hp0
            subst e1
            obtain ⟨res, hres⟩ := Evaluator.execute_ok_of_evaluable s.1.mOperandValuesMap top e2
            cases res with
            | integer val =>
              have hd : rank d < n := hds d (List.mem_cons_self _ _) (by simp [hp0])
              obtain ⟨r, hr1⟩ := ih s.1 s.2 d val hsame hd
              refine ⟨r, by simp [hres, Res.bind, hr1], ?_⟩
              obtain ⟨s1, a1⟩ := r
              exact sameBookkeeping_trans hsame (store_post n _ _ _ _ _ _ hr1).1
            | dependencies deps => exact ⟨s, by simp [hres, Res.bind], hsame⟩
        obtain ⟨s1, hs1, hsame1⟩ := hstep
        obtain ⟨r, hr1⟩ := ihd (fun d hd => hds d (List.mem_cons_of_mem _ hd)) s1 hsame1
        exact ⟨r, by simp [cascadeLoop, hs1, Res.bind, hr1]⟩
    apply hloop
    · intro d hd hp
      have hedge := (mem_equalRange _ x d).mp hd
      have hedge0 : (x, d) ∈ st0.mOperandDependenciesMap := by
        rw [← hs.2.1]; exact hedge
      have := hr (x, d) hedge0 hp
      simp only at this
      omega
    · exact ⟨hs.1, hs.2.1, hs.2.2⟩

end Calculator.State

namespace Calculator.State

/-- A cascade that walks a closed chain of pending definitions, each depending only on its
predecessor, uses up every budget. -/
theorem store_diverges_of_cycle (st0 : State) (next : Str → Str) (S : Str → Prop)
    (hnext : ∀ k, S k → S (next k) ∧ equalRange st0 k = [next k]
      ∧ ∃ t rest, st0.mExpressionsWithDependenciesMap (next k) = some (t :: rest)
        ∧ t.evaluable = true ∧ ∀ v ∈ t.variableNames, v = k)
    (fuel : Nat) :
    ∀ (st : State) (acc : List (Str × Int)) (k : Str) (v : Int),
      SameBookkeeping st0 st → S k →
      storeValueAndCheckDependencies fuel st acc k v = .outOfFuel := by
  induction fuel with
  | zero => intro st acc k v _ _; rfl
  | succ n ih =>
    intro st acc k v hs hk
    obtain ⟨hS, hrange, t, rest, hpend, hev, hvars⟩ := hnext k hk
    have hrange1 : equalRange
        { st with mOperandValuesMap := insertOrAssign st.mOperandValuesMap k v } k
        = [next k] := by
      rw [← hrange]
      simp only [equalRange, hs.2.1]
    have hmiss : Evaluator.missingVariables (insertOrAssign st.mOperandValuesMap k v) t
        = [] := by
      apply List.filter_eq_nil_iff.mpr
      intro a ha
      rw [hvars a ha]
      simp [insertOrAssign]
    have hexec := (Evaluator.execute_spec
      (insertOrAssign st.mOperandValuesMap k v) t hev).1 hmiss
    have hpend1 : st.mExpressionsWithDependenciesMap (next k) = some (t :: rest) := by
      rw [hs.2.2]; exact hpend
    simp only [storeValueAndCheckDependencies, hrange1, cascadeLoop, cascadeStep, hpend1,
      hexec, Res.bind]
    rw [ih { st with mOperandValuesMap := insertOrAssign st.mOperandValuesMap k v } _ _ _
      ⟨hs.1, hs.2.1, hs.2.2⟩ hS]

end Calculator.State

namespace Calculator

theorem cyclicState_reached :
    Runner.processAll 0 {} cyclicInstructions = .ok ([[], [], []], ⟨cyclicState⟩) := by
  rfl

theorem chainState_reached :
    Runner.processAll 0 {} chainInstructions = .ok ([[], [], []], ⟨chainState⟩) := by
  rfl

theorem cyclicState_diverges (fuel : Nat) (k : Str) (v : Int)
    (hk : k = ['a'] ∨ k = ['b'] ∨ k = ['c']) :
    cyclicState.storeExpressionValue fuel k v = .outOfFuel := by
  apply State.store_diverges_of_cycle cyclicState cyclicNext
    (fun k => k = ['a'] ∨ k = ['b'] ∨ k = ['c']) ?_ fuel cyclicState [] k v
    (State.sameBookkeeping_refl _) hk
  intro k hk
  rcases hk with h | h | h <;> subst h
  · exact ⟨by decide, by decide, Node.leaf 'a', [], by decide, by decide, by decide⟩
  · exact ⟨by decide, by decide, Node.leaf 'b', [], by decide, by decide, by decide⟩
  · exact ⟨by decide, by decide, Node.leaf 'c', [], by decide, by decide, by decide⟩

end Calculator

/-! ## From a parsed line to the engine -/

namespace Parser

open Utils.Constants Utils.Methods

theorem generateWhile_evaluable (cond : Char → Bool) (ops : List Char) :
    ∀ (values : List Node) (ops1 : List Char) (values1 : List Node),
      generateWhile cond ops values = .ok (ops1, values1) →
      (∀ t ∈ values, t.evaluable = true) → ∀ t ∈ values1, t.evaluable = true := by
  induction ops with
  | nil =>
    intro values ops1 values1 h hv
    simp only [generateWhile] at h
    injection h with h
    injection h with h1 h2
    subst h2
    exact hv
  | cons op rest ih =>
    intro values ops1 values1 h hv
    simp only [generateWhile] at h
    by_cases hc : cond op = true
    · simp only [hc, if_true] at h
      match values, h, hv with
      | [], h, _ => simp at h
      | [_], h, _ => simp at h
      | r :: l :: vs, h, hv =>
        simp only at h
        apply ih _ _ _ h
        intro t ht
        rcases List.mem_cons.mp ht with e | e
        · subst e
          have hl := hv l (by simp)
          have hr := hv r (by simp)
          simp [Node.evaluable, hl, hr]
        · exact hv t (by simp [e])
    · simp only [hc] at h
      injection h with h
      injection h with h1 h2
      subst h2
      exact hv

theorem createLoop_evaluable (s : Str) :
    ∀ (ops : List Char) (values : List Node) (ops1 : List Char) (values1 : List Node),
      createLoop s ops values = .ok (ops1, values1) →
      (∀ t ∈ values, t.evaluable = true) → ∀ t ∈ values1, t.evaluable = true := by
  induction s with
  | nil =>
    intro ops values ops1 values1 h hv
    simp only [createLoop] at h
    injection h with h
    injection h with h1 h2
    subst h2
    exact hv
  | cons c rest ih =>
    intro ops values ops1 values1 h hv
    simp only [createLoop] at h
    split at h
    · rename_i hc
      apply ih _ _ _ _ h
      intro t ht
      rcases List.mem_cons.mp ht with e | e
      · subst e
        simp only [Bool.or_eq_true] at hc
        rcases hc with hc | hc <;> simp [Node.leaf, Node.evaluable, hc]
      · exact hv t e
    · split at h
      · generalize hg : generateWhile _ ops values = g at h
        cases g with
        | ok s1 => exact ih _ _ _ _ h (generateWhile_evaluable _ _ _ _ _ hg hv)
        | undefined => simp [Res.bind] at h
        | diverges => simp [Res.bind] at h
        | outOfFuel => simp [Res.bind] at h
      · split at h
        · exact ih _ _ _ _ h hv
        · split at h
          · generalize hg : generateWhile _ ops values = g at h
            cases g with
            | ok s1 => exact ih _ _ _ _ h (generateWhile_evaluable _ _ _ _ _ hg hv)
            | undefined => simp [Res.bind] at h
            | diverges => simp [Res.bind] at h
            | outOfFuel => simp [Res.bind] at h
          · exact ih _ _ _ _ h hv

/-- Every tree a successful parse leaves on the node stack can be walked by the evaluator. -/
theorem execute_evaluable (s : Str) (p : Parser) (h : execute (new s) = .ok (true, p)) :
    ∀ t ∈ p.getASTOfRHS, t.evaluable = true := by
  simp only [execute, new] at h
  split at h
  · simp at h
  · split at h
    · simp only [parseRHS] at h
      split at h
      · simp only [createASTforRHS] at h
        split at h
        · simp at h
        · rename_i hv _
          have hstack : (validateRHS
              { mLHSString := (splitString (removeWhiteSpacesFromString s) cAssignOp).head?.getD [],
                mRHSString :=
                  (splitString (removeWhiteSpacesFromString s) cAssignOp).getLast?.getD [],
                mInputString := removeWhiteSpacesFromString s }).2.mRHSValueStack = [] := by
            simp only [validateRHS]
            split
            · rfl
            · split
              · rfl
              · split
                · rfl
                · split <;> rfl
          rw [hstack] at h
          cases hc : createLoop _ _ [] with
          | ok s1 =>
            rw [hc] at h
            simp only [Res.bind] at h
            cases hg : generateWhile (fun _ => true) s1.1 s1.2 with
            | ok s2 =>
              rw [hg] at h
              simp only [Res.ok.injEq, Prod.mk.injEq, true_and] at h
              subst h
              have h1 := createLoop_evaluable _ _ _ s1.1 s1.2 hc (by simp)
              exact generateWhile_evaluable _ _ _ s2.1 s2.2 hg h1
            | undefined => simp [hg] at h
            | diverges => simp [hg] at h
            | outOfFuel => simp [hg] at h
          | undefined => simp [hc, Res.bind] at h
          | diverges => simp [hc, Res.bind] at h
          | outOfFuel => simp [hc, Res.bind] at h
      · simp at h
    · simp at h

end Parser

namespace Utils.Methods

theorem splitAux_head (d : Char) (l : Str) :
    ∀ cur : Str, ∃ h tl, splitAux d l cur = h :: tl ∧ cur.length ≤ h.length := by
  induction l with
  | nil => intro cur; exact ⟨cur.reverse, [], rfl, by simp⟩
  | cons c cs ih =>
    intro cur
    by_cases hc : c = d
    · exact ⟨cur.reverse, splitAux d cs [], by simp [splitAux, hc], by simp⟩
    · obtain ⟨h, tl, e, hl⟩ := ih (c :: cur)
      exact ⟨h, tl, by simp [splitAux, hc, e], by simp at hl; omega⟩

theorem splitAux_single (d : Char) (l : Str) :
    ∀ (cur t : Str), splitAux d l cur = [t] → t = cur.reverse ++ l := by
  induction l with
  | nil => intro cur t h; simp [splitAux] at h; simp [h]
  | cons c cs ih =>
    intro cur t h
    by_cases hc : c = d
    · simp only [splitAux, hc, if_true] at h
      obtain ⟨h1, tl, e, _⟩ := splitAux_head d cs []
      rw [e] at h
      simp at h
    · simp only [splitAux, hc, if_false] at h
      rw [ih _ _ h]
      simp

theorem splitAux_pair (d : Char) (l : Str) :
    ∀ (cur a b : Str), splitAux d l cur = [a, b] → cur.reverse ++ l = a ++ d :: b := by
  induction l with
  | nil => intro cur a b h; simp [splitAux] at h
  | cons c cs ih =>
    intro cur a b h
    by_cases hc : c = d
    · simp only [splitAux, hc, if_true] at h
      injection h with h1 h2
      have := splitAux_single d cs [] b h2
      simp only [List.reverse_nil, List.nil_append] at this
      rw [hc, ← h1, this]
    · simp only [splitAux, hc, if_false] at h
      rw [← ih _ _ _ h]
      simp

end Utils.Methods

namespace Calculator

open Utils.Constants Utils.Methods

/-- A line that starts with two characters other than `=` has a left-hand side of at least
two characters, so the parser rejects it. -/
theorem execute_false_of_long_lhs (s rest : Str) (c1 c2 : Char) (h1 : c1 ≠ '=') (h2 : c2 ≠ '=')
    (hs : removeWhiteSpacesFromString s = c1 :: c2 :: rest) :
    ∃ p, Parser.execute (Parser.new s) = .ok (false, p) := by
  obtain ⟨h, tl, e, hl⟩ := splitAux_head '=' rest [c2, c1]
  have hsplit : splitString (c1 :: c2 :: rest) cAssignOp = h :: tl := by
    simp [splitString, splitAux, cAssignOp, h1, h2, e]
  simp only [Parser.execute, Parser.new, hs, hsplit]
  split
  · exact ⟨_, rfl⟩
  · have : ¬ (h.length = 1) := by
      simp at hl
      omega
    simp [Parser.parseLHS, this]

/-- A line the parser accepts is neither the `result` command nor an `undo` command. -/
theorem getOperationRequest_of_parsed (s : Str) (p : Parser)
    (h : Parser.execute (Parser.new s) = .ok (true, p)) :
    getOperationRequest s = (.OTHER, none) := by
  unfold getOperationRequest
  simp only
  split
  · rename_i hr
    exfalso
    obtain ⟨hlen, hlast⟩ := hr
    have htok : splitString s cWhiteSpace = ["result".toList] := by
      match hsp : splitString s cWhiteSpace, hlen, hlast with
      | [t], _, hlast => simp at hlast; simp [hlast]
    have hs : s = "result".toList := by
      cases s with
      | nil => simp [splitString] at htok
      | cons c cs =>
        have := splitAux_single _ _ _ _ htok
        simpa using this.symm
    subst hs
    have : Parser.execute (Parser.new "result".toList) ≠ .ok (true, p) := by
      intro hc
      have h1 : (Parser.execute (Parser.new "result".toList)).bind (fun r => Res.ok r.1)
          = Res.ok true := by rw [hc]; rfl
      revert h1
      decide
    exact this h
  · split
    · rename_i hu
      exfalso
      obtain ⟨hlen, hhead⟩ := hu
      obtain ⟨t, htok⟩ : ∃ t, splitString s cWhiteSpace = ["undo".toList, t] := by
        match hsp : splitString s cWhiteSpace, hlen, hhead with
        | [a, b], _, hhead => simp at hhead; exact ⟨b, by simp [hhead]⟩
      have hs : s = "undo".toList ++ ' ' :: t := by
        cases s with
        | nil => simp [splitString] at htok
        | cons c cs =>
          have := splitAux_pair _ _ _ _ _ htok
          simpa [cWhiteSpace] using this
      have hstrip : removeWhiteSpacesFromString s
          = 'u' :: 'n' :: ('d' :: 'o' :: removeWhiteSpacesFromString t) := by
        rw [hs]
        have e1 : isspace ' ' = true := by decide
        have e2 : isspace 'u' = false := by decide
        have e3 : isspace 'n' = false := by decide
        have e4 : isspace 'd' = false := by decide
        have e5 : isspace 'o' = false := by decide
        simp [removeWhiteSpacesFromString, List.filter, e1, e2, e3, e4, e5]
      obtain ⟨q, hq⟩ := execute_false_of_long_lhs s _ 'u' 'n' (by decide) (by decide) hstrip
      rw [hq] at h
      simp at h
    · rfl

/-- How `processInstruction` continues once the parser has accepted the line. -/
theorem processInstruction_of_parsed (fuel : Nat) (runner : Runner) (s : Str) (p : Parser)
    (top : Node) (rest : List Node)
    (h : Parser.execute (Parser.new s) = .ok (true, p)) (hast : p.getASTOfRHS = top :: rest) :
    Runner.processInstruction fuel runner s
      = (Evaluator.execute top runner.mState.getOperandValueMap).bind fun evaluationResult =>
          match evaluationResult with
          | .integer variantValue =>
            (runner.mState.storeExpressionValue fuel p.getOperandOfLHS variantValue).bind
              fun stored =>
                .ok (stored.2.map fun affected =>
                    affected.1 ++ " = ".toList ++ to_string affected.2,
                  { runner with
                    mState := stored.1.updateOperationOrder p.getOperandOfLHS })
          | .dependencies variantValue =>
            if variantValue ≠ [] then
              let attempt :=
                runner.mState.storeExpressionDependencies p.getOperandOfLHS p.getASTOfRHS
                  variantValue
              if !attempt.1 then .ok ([], runner)
              else
                .ok ([], { runner with
                  mState := attempt.2.updateOperationOrder p.getOperandOfLHS })
            else .ok ([], runner) := by
  unfold Runner.processInstruction
  simp only [getOperationRequest_of_parsed s p h, h, Res.bind, hast]
  rfl

end Calculator

namespace Calculator

theorem eq_singleton_of_nodup {α : Type} (l : List α) (a : α) (hne : l ≠ []) (hnd : l.Nodup)
    (hall : ∀ v ∈ l, v = a) : l = [a] := by
  match l, hne, hnd, hall with
  | [b], _, _, hall => simp [hall b (by simp)]
  | b :: c :: rest, _, hnd, hall =>
    have hb := hall b (by simp)
    have hc := hall c (by simp)
    subst hb
    subst hc
    simp at hnd

/-- C7. Forward reference resolution: from a fresh calculator, after an accepted line that
defines `y` by an expression whose only variable is `x` (nothing is returned), an accepted
line that defines `x` by an expression that evaluates to `n` without any variable value
returns exactly `x = n` followed by `y = m`, with `m` the value of the first expression under
`x = n`. -/
theorem forward_reference_resolution (s1 s2 : Str) (p1 p2 : Parser) (x y : Char)
    (t1 t2 : Node) (r1 r2 : List Node) (n : Int) (hxy : x ≠ y)
    (h1 : Parser.execute (Parser.new s1) = .ok (true, p1))
    (hl1 : p1.getOperandOfLHS = [y]) (ha1 : p1.getASTOfRHS = t1 :: r1)
    (hv1 : t1.variableNames ≠ [] ∧ ∀ v ∈ t1.variableNames, v = [x])
    (h2 : Parser.execute (Parser.new s2) = .ok (true, p2))
    (hl2 : p2.getOperandOfLHS = [x]) (ha2 : p2.getASTOfRHS = t2 :: r2)
    (hn : Evaluator.execute t2 (fun _ => none) = .ok (.integer n)) :
    ∃ m runner1 runner2,
      Evaluator.execute t1 (fun k => if k = [x] then some n else none) = .ok (.integer m)
      ∧ ∀ fuel, 2 ≤ fuel →
        Runner.processInstruction fuel {} s1 = .ok ([], runner1)
        ∧ Runner.processInstruction fuel runner1 s2
          = .ok ([[x] ++ " = ".toList ++ to_string n, [y] ++ " = ".toList ++ to_string m],
              runner2) := by
  have hev1 : t1.evaluable = true := Parser.execute_evaluable s1 p1 h1 t1 (by simp [ha1])
  -- the first line leaves `x` as the only missing variable
  have hmiss1 : Evaluator.missingVariables (fun _ => none) t1 = t1.variableNames := by
    simp [Evaluator.missingVariables]
  obtain ⟨ds, hds, hne, hnd, hmem⟩ :=
    (Evaluator.execute_spec (fun _ => none) t1 hev1).2 (by rw [hmiss1]; exact hv1.1)
  have hds1 : ds = [[x]] := by
    apply eq_singleton_of_nodup ds [x] hne hnd
    intro v hv
    exact hv1.2 v (by rw [← hmiss1]; exact (hmem v).mp hv)
  subst hds1
  -- under `x = n` the first expression has a value
  have hmiss2 : Evaluator.missingVariables (fun k => if k = [x] then some n else none) t1
      = [] := by
    apply List.filter_eq_nil_iff.mpr
    intro a ha
    simp [hv1.2 a ha]
  have hm := (Evaluator.execute_spec _ t1 hev1).1 hmiss2
  have hyx : ¬ ([x] = [y]) := by simpa using hxy
  refine ⟨F32.toInt32 (Evaluator.floatValue (fun k => if k = [x] then some n else none) t1),
    ⟨{ mOperandOrderStack := [[y]],
                mOperandDependenciesMap := [([x], [y])],
                mExpressionsWithDependenciesMap :=
                  State.insertOrAssign (fun _ => none) [y] (t1 :: r1) }⟩,
    ⟨{ mOperandOrderStack := [[x], [y]],
       mOperandValuesMap :=
        State.insertOrAssign (State.insertOrAssign (fun _ => none) [x] n) [y]
          (F32.toInt32 (Evaluator.floatValue (fun k => if k = [x] then some n else none) t1)),
       mOperandDependenciesMap := [([x], [y])],
       mExpressionsWithDependenciesMap :=
        State.insertOrAssign (fun _ => none) [y] (t1 :: r1) }⟩, hm, ?_⟩
  intro fuel hfuel
  obtain ⟨f, rfl⟩ : ∃ f, fuel = f + 2 := ⟨fuel - 2, by omega⟩
  constructor
  · rw [processInstruction_of_parsed _ _ s1 p1 t1 r1 h1 ha1]
    simp [State.getOperandValueMap, hds, Res.bind, State.storeExpressionDependencies,
      State.equalRange, State.emplaced, State.updateOperationOrder, hl1, ha1]
  · rw [processInstruction_of_parsed _ _ s2 p2 t2 r2 h2 ha2]
    have hm' : Evaluator.execute t1 (State.insertOrAssign (fun _ => none) [x] n)
        = .ok (.integer (F32.toInt32 (Evaluator.floatValue
            (fun k => if k = [x] then some n else none) t1))) := hm
    simp [State.getOperandValueMap, hn, Res.bind, State.storeExpressionValue,
      State.storeValueAndCheckDependencies, State.equalRange, State.emplaced, State.emplace,
      State.emplaceAfterFirst, State.smallSizeThreshold, State.cascadeLoop,
      State.cascadeStep, State.insertOrAssign, State.updateOperationOrder, hl2, hm', hyx]


/-- C7 at the lines `f=g*7` and `g=3*2` of the integration test, which return nothing and
then `g = 6`, `f = 42`. -/
theorem forward_reference_resolution_witness :
    (∃ m runner1 runner2,
      Evaluator.execute (.node '*' (.leaf 'g') (.leaf '7'))
          (fun k => if k = ['g'] then some 6 else none) = .ok (.integer m)
      ∧ ∀ fuel, 2 ≤ fuel →
        Runner.processInstruction fuel {} "f=g*7".toList = .ok ([], runner1)
        ∧ Runner.processInstruction fuel runner1 "g=3*2".toList
          = .ok ([['g'] ++ " = ".toList ++ to_string 6, ['f'] ++ " = ".toList ++ to_string m],
              runner2))
    ∧ (Runner.processAll 2 {} ["f=g*7".toList, "g=3*2".toList]).bind (fun r => .ok r.1)
        = .ok [[], ["g = 6".toList, "f = 42".toList]] :=
  ⟨forward_reference_resolution "f=g*7".toList "g=3*2".toList
      { mLHSString := ['f'], mRHSString := "(g*7)".toList, mInputString := "f=g*7".toList,
        mRHSValueStack := [.node '*' (.leaf 'g') (.leaf '7')] }
      { mLHSString := ['g'], mRHSString := "(3*2)".toList, mInputString := "g=3*2".toList,
        mRHSValueStack := [.node '*' (.leaf '3') (.leaf '2')] }
      'g' 'f' (.node '*' (.leaf 'g') (.leaf '7')) (.node '*' (.leaf '3') (.leaf '2')) [] [] 6
      (by decide) (by decide) rfl rfl (by decide) (by decide) rfl rfl (by decide),
    by decide⟩

end Calculator

namespace Calculator

open State

/-- C6 at its failing input: the lines `a=c`, `b=a`, `c=b` are all accepted, although they
are the cycle that the comment of the guard in `storeExpressionDependencies` names, and in
the state they lead to the call `storeExpressionValue("a", 1)` returns no list at all,
whatever the recursion budget: the recursion goes round `a`, `b`, `c` without end. -/
theorem storeExpressionValue_no_result_on_cycle :
    Runner.processAll 0 {} cyclicInstructions = .ok ([[], [], []], ⟨cyclicState⟩)
    ∧ ¬ ∃ fuel r, cyclicState.storeExpressionValue fuel ['a'] 1 = .ok r := by
  refine ⟨cyclicState_reached, ?_⟩
  rintro ⟨fuel, r, h⟩
  rw [cyclicState_diverges fuel ['a'] 1 (Or.inl rfl)] at h
  exact Res.noConfusion h

/-- What a store returns. Whenever `storeExpressionValue(variable, value)` returns, the
list starts with `(variable, value)`, every variable of the list has in the value map the value of its
last occurrence in the list, and the history, the dependency edges and the pending
expressions are unchanged; and it does return when the recorded edges are ranked (no chain of
edges through pending definitions comes back to a variable) and the pending trees are
evaluable. -/
theorem storeExpressionValue_result (st : State) (x : Str) (v : Int) :
    (∀ fuel st1 r, st.storeExpressionValue fuel x v = .ok (st1, r) →
      r.head? = some (x, v)
      ∧ (∀ p ∈ r, st1.mOperandValuesMap p.1 = lastValue r p.1
          ∧ (lastValue r p.1).isSome = true)
      ∧ SameBookkeeping st st1)
    ∧ (∀ rank, RankedBy st rank → PendingEvaluable st →
      ∃ st1 r, st.storeExpressionValue (rank x + 1) x v = .ok (st1, r)) := by
  constructor
  · intro fuel st1 r h
    obtain ⟨f, l, e, hv, _⟩ := store_post fuel st [] x v st1 r h
    simp only [List.nil_append] at e
    subst e
    refine ⟨rfl, ?_, f⟩
    intro p hp
    obtain ⟨w, hw⟩ := lastValue_isSome _ p hp
    rw [hv, applyStores_lastValue, hw]
    simp
  · intro rank hr he
    obtain ⟨r, h⟩ := store_terminates st rank hr he (rank x + 1) st [] x v
      (sameBookkeeping_refl st) (Nat.lt_succ_self _)
    exact ⟨r.1, r.2, h⟩

/-- What a store returns, at the state after `f=g*7` and the call
`storeExpressionValue("g", 6)`, which returns `[(g, 6), (f, 42)]`. -/
theorem storeExpressionValue_result_witness :
    ([(['g'], (6 : Int)), (['f'], 42)].head? = some (['g'], 6)
      ∧ (∀ p ∈ [(['g'], (6 : Int)), (['f'], 42)],
          forwardStateResolved.mOperandValuesMap p.1 = lastValue [(['g'], 6), (['f'], 42)] p.1
          ∧ (lastValue [(['g'], 6), (['f'], 42)] p.1).isSome = true)
      ∧ SameBookkeeping forwardState forwardStateResolved)
    ∧ ∃ st1 r, forwardState.storeExpressionValue 2 ['g'] 6 = .ok (st1, r) :=
  ⟨(storeExpressionValue_result forwardState ['g'] 6).1 2 forwardStateResolved
      [(['g'], 6), (['f'], 42)] rfl,
    (storeExpressionValue_result forwardState ['g'] 6).2
      (fun k => if k = ['g'] then 1 else 0) (by unfold RankedBy; decide)
      (by
        intro k stack h
        by_cases hk : k = ['f']
        · subst hk
          exact ⟨_, [], by simpa [forwardState, insertOrAssign] using h.symm, by decide⟩
        · simp [forwardState, insertOrAssign, hk] at h)⟩

/-- C8: after `w=1`, `y=w+x`, `w=2`, `undo 1`, `x=3` the variable `y` has the pending
expression `w+x`, `x` is known and `w` is the only variable missing; the call
`storeExpressionValue("w", 5)` returns `[(w, 5)]` alone and `y` stays without a value. -/
theorem cascade_misses_undone_dependency :
    ((Runner.processAll 1 {} undoneInstructions).bind fun q =>
      (q.2.mState.storeExpressionValue 3 ['w'] 5).bind fun s =>
        .ok (q.2.mState.mExpressionsWithDependenciesMap ['y'],
          q.2.mState.mOperandValuesMap ['w'], q.2.mState.mOperandValuesMap ['x'],
          s.2, s.1.mOperandValuesMap ['y']))
      = .ok (some [.node '+' (.leaf 'w') (.leaf 'x')], none, some 3, [(['w'], 5)], none) := by
  rfl

/-- C9 fails as stated: in the state after `f=g*7`, the call `storeExpressionValue("g", 6)`
returns `[(g, 6), (f, 42)]` and `f`, resolved by the call, still has its entry in the
pending-expression map, although no variable of its expression is missing any more. -/
theorem pending_entry_survives_resolution :
    ((Runner.processAll 0 {} ["f=g*7".toList]).bind fun q =>
      (q.2.mState.storeExpressionValue 2 ['g'] 6).bind fun s =>
        .ok (s.2, (s.1.mExpressionsWithDependenciesMap ['f']).isSome))
      = .ok ([(['g'], 6), (['f'], 42)], true) := by
  decide

end Calculator

namespace Calculator.State

theorem applyStores_of_not_key (values : Str → Option Int) (l : List (Str × Int)) (k : Str)
    (h : ∀ p ∈ l, p.1 ≠ k) : applyStores values l k = values k := by
  induction l generalizing values with
  | nil => rfl
  | cons p rest ih =>
    rw [applyStores_cons, ih _ (fun q hq => h q (List.mem_cons_of_mem _ hq))]
    have : ¬ k = p.1 := fun e => h p (List.mem_cons_self _ _) e.symm
    simp [insertOrAssign, this]

theorem applyStores_isSome (values : Str → Option Int) (l : List (Str × Int)) (k : Str)
    (h : (values k).isSome = true) : (applyStores values l k).isSome = true := by
  induction l generalizing values with
  | nil => exact h
  | cons p rest ih =>
    rw [applyStores_cons]
    apply ih
    unfold insertOrAssign
    split
    · rfl
    · exact h

theorem bind_eq_ok {α β : Type} (r : Res α) (f : α → Res β) (b : β) (h : r.bind f = .ok b) :
    ∃ a, r = .ok a ∧ f a = .ok b := by
  cases r with
  | ok a => exact ⟨a, rfl, h⟩
  | undefined => simp [Res.bind] at h
  | diverges => simp [Res.bind] at h
  | outOfFuel => simp [Res.bind] at h

theorem cascadeLoop_append
    (recurse : State → List (Str × Int) → Str → Int → Res (State × List (Str × Int)))
    (ds1 ds2 : List Str) (s : State × List (Str × Int)) :
    cascadeLoop recurse (ds1 ++ ds2) s
      = (cascadeLoop recurse ds1 s).bind (cascadeLoop recurse ds2) := by
  induction ds1 generalizing s with
  | nil => rfl
  | cons d rest ih =>
    simp only [List.cons_append, cascadeLoop]
    cases cascadeStep recurse s d with
    | ok s1 => simp only [Res.bind]; exact ih s1
    | undefined => rfl
    | diverges => rfl
    | outOfFuel => rfl

/-- With edges ranked, every store a cascade appends after its own is of an operand of
lower rank than the operand it started from. -/
theorem store_rank (st0 : State) (rank : Str → Nat) (hr : RankedBy st0 rank) (fuel : Nat) :
    ∀ (st : State) (acc : List (Str × Int)) (x : Str) (v : Int) (st1 : State)
      (acc1 : List (Str × Int)),
      SameBookkeeping st0 st →
      storeValueAndCheckDependencies fuel st acc x v = .ok (st1, acc1) →
      ∃ l, acc1 = acc ++ (x, v) :: l ∧ ∀ p ∈ l, rank p.1 < rank x := by
  induction fuel with
  | zero => intro st acc x v st1 acc1 _ h; simp [storeValueAndCheckDependencies] at h
  | succ n ih =>
    intro st acc x v st1 acc1 hs h
    simp only [storeValueAndCheckDependencies] at h
    have hloop : ∀ (ds : List Str),
        (∀ d ∈ ds, (st0.mExpressionsWithDependenciesMap d).isSome = true → rank d < rank x) →
        ∀ (s s1 : State × List (Str × Int)), SameBookkeeping st0 s.1 →
        cascadeLoop (storeValueAndCheckDependencies n) ds s = .ok s1 →
        ∃ l, s1.2 = s.2 ++ l ∧ ∀ p ∈ l, rank p.1 < rank x := by
      intro ds
      induction ds with
      | nil =>
        intro _ s s1 _ h
        simp only [cascadeLoop] at h
        injection h with h
        subst h
        exact ⟨[], by simp, by simp⟩
      | cons d rest ihd =>
        intro hds s s1 hsame h
        simp only [cascadeLoop] at h
        obtain ⟨s2, hstep, hrest⟩ := bind_eq_ok _ _ _ h
        have hstep2 : SameBookkeeping st0 s2.1
            ∧ ∃ l, s2.2 = s.2 ++ l ∧ ∀ p ∈ l, rank p.1 < rank x := by
          unfold cascadeStep at hstep
          cases hp : s.1.mExpressionsWithDependenciesMap d with
          | none =>
            simp only [hp] at hstep
            injection hstep with hstep
            subst hstep
            exact ⟨hsame, [], by simp, by simp⟩
          | some stack =>
            have hp0 : (st0.mExpressionsWithDependenciesMap d).isSome = true := by
              rw [← hsame.2.2, hp]; rfl
            have hd : rank d < rank x := hds d (List.mem_cons_self _ _) hp0
            cases stack with
            | nil => simp [hp] at hstep
            | cons top rest1 =>
              simp only [hp] at hstep
              obtain ⟨res, _, hres⟩ := bind_eq_ok _ _ _ hstep
              cases res with
              | integer val =>
                simp only at hres
                obtain ⟨st2, acc2⟩ := s2
                obtain ⟨l, e, hl⟩ := ih s.1 s.2 d val st2 acc2 hsame hres
                refine ⟨sameBookkeeping_trans hsame (store_post n _ _ _ _ _ _ hres).1,
                  (d, val) :: l, e, ?_⟩
                intro p hp1
                rcases List.mem_cons.mp hp1 with e1 | e1
                · subst e1; exact hd
                · exact lt_trans (hl p e1) hd
              | dependencies deps =>
                simp only at hres
                injection hres with hres
                subst hres
                exact ⟨hsame, [], by simp, by simp⟩
        obtain ⟨hsame2, l1, e1, hl1⟩ := hstep2
        obtain ⟨l2, e2, hl2⟩ :=
          ihd (fun d hd => hds d (List.mem_cons_of_mem _ hd)) s2 s1 hsame2 hrest
        refine ⟨l1 ++ l2, by rw [e2, e1, List.append_assoc], ?_⟩
        intro p hp
        rcases List.mem_append.mp hp with h1 | h1
        · exact hl1 p h1
        · exact hl2 p h1
    obtain ⟨l, e, hl⟩ := hloop _ (by
      intro d hd hp
      have hedge := (mem_equalRange _ x d).mp hd
      have hedge0 : (x, d) ∈ st0.mOperandDependenciesMap := by
        rw [← hs.2.1]; exact hedge
      exact hr (x, d) hedge0 hp) _ (st1, acc1) ⟨hs.1, hs.2.1, hs.2.2⟩ h
    exact ⟨l, by simpa using e, hl⟩

end Calculator.State

namespace Calculator

open State

theorem store_cascadePost (n : Nat) (st : State) (acc : List (Str × Int)) (x : Str) (v : Int)
    (st1 : State) (acc1 : List (Str × Int))
    (h : storeValueAndCheckDependencies n st acc x v = .ok (st1, acc1))
    (hx : (st.mExpressionsWithDependenciesMap x).isSome = true) :
    CascadePost st acc st1 acc1 := by
  obtain ⟨f, l, e, hv, hp⟩ := store_post n st acc x v st1 acc1 h
  refine ⟨f, (x, v) :: l, e, hv, ?_⟩
  intro p hp'
  rcases List.mem_cons.mp hp' with h1 | h1
  · subst h1; exact hx
  · exact hp p h1

/-- C10 at its failing input: the lines `b=a+1`, `c=b+1`, `a=c+1` are all accepted, although
they close a cycle of the kind the guard in `storeExpressionDependencies` is documented to
reject; then `b` is pending on `a` (the edge is recorded, the tree `a+1` is retained, it has
no other variable), and the assignment of `1` to `a` returns nothing, whatever the recursion
budget, so `b` is not returned with its re-evaluated value. -/
theorem reevaluation_no_result_on_cycle :
    Runner.processAll 0 {} chainInstructions = .ok ([[], [], []], ⟨chainState⟩)
    ∧ (['a'], ['b']) ∈ chainState.mOperandDependenciesMap
    ∧ chainState.mExpressionsWithDependenciesMap ['b']
        = some [.node '+' (.leaf 'a') (.leaf '1')]
    ∧ (Node.node '+' (.leaf 'a') (.leaf '1')).variableNames = [['a']]
    ∧ ¬ ∃ fuel r, chainState.storeExpressionValue fuel ['a'] 1 = .ok r := by
  refine ⟨chainState_reached, by decide, by decide, by decide, ?_⟩
  rintro ⟨fuel, r, h⟩
  have hd : chainState.storeExpressionValue fuel ['a'] 1 = .outOfFuel := by
    apply State.store_diverges_of_cycle chainState cyclicNext
      (fun k => k = ['a'] ∨ k = ['b'] ∨ k = ['c']) ?_ fuel chainState [] ['a'] 1
      (State.sameBookkeeping_refl _) (Or.inl rfl)
    intro k hk
    rcases hk with h | h | h <;> subst h
    · exact ⟨by decide, by decide, .node '+' (.leaf 'a') (.leaf '1'), [], by decide,
        by decide, by decide⟩
    · exact ⟨by decide, by decide, .node '+' (.leaf 'b') (.leaf '1'), [], by decide,
        by decide, by decide⟩
    · exact ⟨by decide, by decide, .node '+' (.leaf 'c') (.leaf '1'), [], by decide,
        by decide, by decide⟩
  rw [hd] at h
  exact Res.noConfusion h

/-- Re-evaluation where no cycle is recorded. Let the edge `x → y` be recorded, `y` have the pending tree `t` and every
variable of `t` other than `x` be known, in a state whose edges are ranked (no chain of edges
through pending definitions comes back to a variable) and whose pending trees are evaluable.
Then `storeExpressionValue(x, n)` returns a list in which `y` occurs with the value `m` of
`t` under the value map as it stands after the stores listed before it, where `x` has the
value `n`; and afterwards the value map gives `y` the value of its last occurrence in the
list. -/
theorem reevaluation_on_redefinition (st : State) (rank : Str → Nat) (x y : Str) (t : Node)
    (rest : List Node) (n : Int) (hr : RankedBy st rank) (he : PendingEvaluable st)
    (hedge : (x, y) ∈ st.mOperandDependenciesMap)
    (hpend : st.mExpressionsWithDependenciesMap y = some (t :: rest))
    (hknown : ∀ v ∈ t.variableNames, v ≠ x → (st.mOperandValuesMap v).isSome = true) :
    ∃ st1 r r1 r2 m, st.storeExpressionValue (rank x + 1) x n = .ok (st1, r)
      ∧ r = r1 ++ (y, m) :: r2
      ∧ applyStores st.mOperandValuesMap r1 x = some n
      ∧ Evaluator.execute t (applyStores st.mOperandValuesMap r1) = .ok (.integer m)
      ∧ st1.mOperandValuesMap y = lastValue r y ∧ (lastValue r y).isSome = true := by
  obtain ⟨⟨st1, r⟩, h⟩ := store_terminates st rank hr he (rank x + 1) st [] x n
    (sameBookkeeping_refl st) (Nat.lt_succ_self _)
  obtain ⟨fr, lr, er, hvr, _⟩ := store_post _ st [] x n st1 r h
  obtain ⟨lk, ek, hlk⟩ := store_rank st rank hr _ st [] x n st1 r (sameBookkeeping_refl st) h
  simp only [List.nil_append] at er ek
  have hlk' : lk = lr := by rw [er] at ek; simpa using ek.symm
  subst hlk'
  have h' := h
  simp only [storeValueAndCheckDependencies] at h'
  have hy : y ∈ equalRange
      { st with mOperandValuesMap := insertOrAssign st.mOperandValuesMap x n } x :=
    (mem_equalRange _ x y).mpr hedge
  obtain ⟨ds1, ds2, hds⟩ := List.append_of_mem hy
  rw [hds, cascadeLoop_append] at h'
  obtain ⟨smid, hmid, h2⟩ := bind_eq_ok _ _ _ h'
  obtain ⟨stm, accm⟩ := smid
  simp only [cascadeLoop] at h2
  obtain ⟨s2, hstep, h3⟩ := bind_eq_ok _ _ _ h2
  obtain ⟨st2, acc2⟩ := s2
  obtain ⟨fm, l1, e1, hv1, _⟩ := cascadeLoop_post _ (store_cascadePost _) _ _ _ _ _ hmid
  obtain ⟨_, l3, e3, _, _⟩ := cascadeLoop_post _ (store_cascadePost _) _ _ _ _ _ h3
  simp only [List.nil_append] at e1
  -- the pending tree of `y` is evaluated under a map that knows all its variables
  have hpm : stm.mExpressionsWithDependenciesMap y = some (t :: rest) := by
    rw [fm.2.2]; exact hpend
  have hev : t.evaluable = true := by
    obtain ⟨top, rest1, e, ht⟩ := he y _ hpend
    injection e with e1 _
    rw [e1]; exact ht
  have hvals : stm.mOperandValuesMap = applyStores st.mOperandValuesMap ((x, n) :: l1) := by
    rw [hv1]; rfl
  -- the stores before `y` are in the returned list
  have hstep' := hstep
  unfold cascadeStep at hstep'
  simp only [hpm] at hstep'
  obtain ⟨res, hres, hrec⟩ := bind_eq_ok _ _ _ hstep'
  have hl1 : ∀ p ∈ l1, p.1 ≠ x := by
    intro p hp
    have hpost := cascadeStep_post _ (store_cascadePost _) _ _ _ _ _ hstep
    obtain ⟨_, l2, e2, _, _⟩ := hpost
    have hmem : p ∈ lk := by
      have : (x, n) :: lk = (x, n) :: (l1 ++ l2 ++ l3) := by
        rw [← er, e3, e2, e1]; simp
      injection this with _ this
      rw [this]
      simp [hp]
    have := hlk p hmem
    intro hc
    rw [hc] at this
    exact lt_irrefl _ this
  have hx : applyStores st.mOperandValuesMap ((x, n) :: l1) x = some n := by
    rw [applyStores_cons, applyStores_of_not_key _ _ _ hl1]
    simp [insertOrAssign]
  have hmiss : Evaluator.missingVariables stm.mOperandValuesMap t = [] := by
    apply List.filter_eq_nil_iff.mpr
    intro a ha
    rw [hvals]
    by_cases hax : a = x
    · rw [hax, hx]; simp
    · have h1 := hknown a ha hax
      have h2 : (applyStores st.mOperandValuesMap ((x, n) :: l1) a).isSome = true := by
        rw [applyStores_cons]
        apply applyStores_isSome
        simp [insertOrAssign, hax, h1]
      intro hc
      simp only [Option.isNone_iff_eq_none] at hc
      rw [hc] at h2
      exact Bool.noConfusion h2
  have hexec := (Evaluator.execute_spec stm.mOperandValuesMap t hev).1 hmiss
  rw [hexec] at hres
  injection hres with hres
  subst hres
  simp only at hrec
  obtain ⟨_, l2, e2, _, _⟩ := store_post _ _ _ _ _ _ _ hrec
  refine ⟨st1, r, (x, n) :: l1, l2 ++ l3,
    F32.toInt32 (Evaluator.floatValue stm.mOperandValuesMap t), h, ?_, hx, ?_, ?_⟩
  · rw [e3, e2, e1]; simp
  · rw [← hvals]; exact hexec
  · have hmem : (y, F32.toInt32 (Evaluator.floatValue stm.mOperandValuesMap t)) ∈ r := by
      rw [e3, e2]; simp
    obtain ⟨w, hw⟩ := lastValue_isSome r _ hmem
    simp only at hw
    rw [hvr, ← er, applyStores_lastValue, hw]
    simp

end Calculator

namespace Calculator

open State

theorem undoState_reached :
    Runner.processAll 2 {} undoInstructions
      = .ok ([["a = 5".toList], [], ["c = 3".toList], [],
          ["e = 8".toList, "b = 6".toList, "d = 2".toList], ["f = 7".toList],
          ["delete f".toList, "delete e".toList]], ⟨undoState⟩) := by
  rfl

theorem undoState_pendingEvaluable : PendingEvaluable undoState := by
  intro k stack h
  by_cases hb : k = ['b']
  · subst hb
    exact ⟨_, [], by simpa [undoState, erase, insertOrAssign] using h.symm, by decide⟩
  · by_cases hd : k = ['d']
    · subst hd
      exact ⟨_, [], by simpa [undoState, erase, insertOrAssign] using h.symm, by decide⟩
    · simp [undoState, erase, insertOrAssign, hb, hd] at h

/-- Re-evaluation at the integration test: after `undo 2` has removed `f` and `e`, the
assignment of 4 to `e` re-evaluates `b = e-2` and `d = e/3`, and the line `e=2+2` returns
`e = 4`, `b = 2`, `d = 1`. -/
theorem reevaluation_on_redefinition_witness :
    (∃ st1 r r1 r2 m, undoState.storeExpressionValue 2 ['e'] 4 = .ok (st1, r)
      ∧ r = r1 ++ (['b'], m) :: r2
      ∧ applyStores undoState.mOperandValuesMap r1 ['e'] = some 4
      ∧ Evaluator.execute (.node '-' (.leaf 'e') (.leaf '2'))
          (applyStores undoState.mOperandValuesMap r1) = .ok (.integer m)
      ∧ st1.mOperandValuesMap ['b'] = lastValue r ['b'] ∧ (lastValue r ['b']).isSome = true)
    ∧ (Runner.processInstruction 2 ⟨undoState⟩ "e=2+2".toList).bind (fun q => .ok q.1)
        = .ok ["e = 4".toList, "b = 2".toList, "d = 1".toList] :=
  ⟨reevaluation_on_redefinition undoState (fun k => if k = ['e'] then 1 else 0) ['e'] ['b']
      (.node '-' (.leaf 'e') (.leaf '2')) [] 4 (by unfold RankedBy; decide)
      undoState_pendingEvaluable (by decide) (by decide) (by decide),
    by decide⟩

end Calculator

/-! ## Recording dependencies -/

namespace Calculator

open State

/-- C11. The call `storeExpressionDependencies(variable, tree, missing)` returns false exactly
when some dependant recorded under `variable` in the dependency edges is a member of
`missing`; and when it returns false the state after the call (value map, dependency edges,
pending expressions and history) is the state before it. -/
theorem storeExpressionDependencies_rejects (st : State) (operand : Str) (expressionAST : List Node)
    (dependencies : Evaluator.Dependencies) :
    ((st.storeExpressionDependencies operand expressionAST dependencies).1 = false
        ↔ ∃ dependant, (operand, dependant) ∈ st.mOperandDependenciesMap
            ∧ dependant ∈ dependencies)
    ∧ ((st.storeExpressionDependencies operand expressionAST dependencies).1 = false →
        (st.storeExpressionDependencies operand expressionAST dependencies).2 = st) := by
  unfold storeExpressionDependencies
  by_cases h : ((equalRange st operand).any fun dependantOperand =>
      decide (dependantOperand ∈ dependencies)) = true
  · simp only [h, if_true, true_iff, forall_true_left, and_true]
    obtain ⟨d, hd, hm⟩ := List.any_eq_true.mp h
    exact ⟨d, (mem_equalRange st operand d).mp hd, of_decide_eq_true hm⟩
  · have h' : ((equalRange st operand).any fun dependantOperand =>
        decide (dependantOperand ∈ dependencies)) = false := by simpa using h
    simp only [h', Bool.false_eq_true, if_false, Bool.true_eq_false, false_iff, false_implies,
      and_true]
    rintro ⟨d, hd, hm⟩
    exact h (List.any_eq_true.mpr ⟨d, (mem_equalRange st operand d).mpr hd,
      decide_eq_true hm⟩)

/-- C13 at its failing input: from the empty state, after `a = c` (missing `c`) and `b = a`
(missing `a`) have been stored as pending, the call for `c = b` (missing `b`) returns true:
the one dependant recorded under `c` is `a`, which is not in the set `b`. The three edges
recorded close the chain `c`, `a`, `b`, `c`. -/
theorem cycle_guard_misses_chain :
    ((({} : State).storeExpressionDependencies ['a'] [Node.leaf 'c'] [['c']]).1 = true
    ∧ ((({} : State).storeExpressionDependencies ['a'] [Node.leaf 'c'] [['c']]).2.storeExpressionDependencies
        ['b'] [Node.leaf 'a'] [['a']]).1 = true
    ∧ (((({} : State).storeExpressionDependencies ['a'] [Node.leaf 'c'] [['c']]).2.storeExpressionDependencies
        ['b'] [Node.leaf 'a'] [['a']]).2.storeExpressionDependencies
        ['c'] [Node.leaf 'b'] [['b']]).1 = true
    ∧ (((({} : State).storeExpressionDependencies ['a'] [Node.leaf 'c'] [['c']]).2.storeExpressionDependencies
        ['b'] [Node.leaf 'a'] [['a']]).2.storeExpressionDependencies
        ['c'] [Node.leaf 'b'] [['b']]).2.mOperandDependenciesMap
        = [(['c'], ['a']), (['a'], ['b']), (['b'], ['c'])]) := by
  decide

end Calculator

/-! ## The history: undo and last result -/

namespace Calculator.State

/-- The loop of `undoLastRegisteredOperations` on a history of at least `count` entries. -/
theorem undoLoop_spec (count : Nat) :
    ∀ (st : State) (deleted : List Str), count ≤ st.mOperandOrderStack.length →
      (undoLoop count st deleted).2 = deleted ++ st.mOperandOrderStack.take count
      ∧ (undoLoop count st deleted).1.mOperandOrderStack = st.mOperandOrderStack.drop count
      ∧ (∀ k, (undoLoop count st deleted).1.mOperandValuesMap k
          = if k ∈ st.mOperandOrderStack.take count then none else st.mOperandValuesMap k)
      ∧ (∀ k, (undoLoop count st deleted).1.mExpressionsWithDependenciesMap k
          = if k ∈ st.mOperandOrderStack.take count then none
            else st.mExpressionsWithDependenciesMap k)
      ∧ (undoLoop count st deleted).1.mOperandDependenciesMap = st.mOperandDependenciesMap := by
  induction count with
  | zero =>
    intro st deleted _
    simp [undoLoop]
  | succ n ih =>
    intro st deleted hlen
    cases hs : st.mOperandOrderStack with
    | nil => rw [hs] at hlen; simp at hlen
    | cons operand rest =>
      rw [hs] at hlen
      have hn : n ≤ rest.length := by simpa using hlen
      simp only [undoLoop, hs]
      obtain ⟨h1, h2, h3, h4, h5⟩ := ih
        { st with
          mOperandValuesMap := erase st.mOperandValuesMap operand,
          mExpressionsWithDependenciesMap := erase st.mExpressionsWithDependenciesMap operand,
          mOperandOrderStack := rest }
        (deleted ++ [operand]) hn
      refine ⟨?_, ?_, ?_, ?_, ?_⟩
      · rw [h1]; simp
      · rw [h2]; simp
      · intro k
        rw [h3 k]
        by_cases hk : k = operand
        · simp [erase, hk]
        · simp [erase, hk]
      · intro k
        rw [h4 k]
        by_cases hk : k = operand
        · simp [erase, hk]
        · simp [erase, hk]
      · rw [h5]

end Calculator.State

namespace Calculator

open State

/-- C15. For `1 ≤ n ≤` history depth, `undoLastRegisteredOperations(n)` returns the `n` most
recent history entries, most recent first; the history afterwards is the old one without
them; the value map and the pending-expression map afterwards are the old maps without the
keys returned, and agree with the old maps at every other key; the dependency edges are
unchanged. -/
theorem undoLastRegisteredOperations_undoes (st : State) (n : Int) (h1 : 1 ≤ n)
    (h2 : n ≤ (st.mOperandOrderStack.length : Int)) :
    (st.undoLastRegisteredOperations n).2 = st.mOperandOrderStack.take n.toNat
    ∧ (st.undoLastRegisteredOperations n).2.length = n.toNat
    ∧ (st.undoLastRegisteredOperations n).1.mOperandOrderStack
        = st.mOperandOrderStack.drop n.toNat
    ∧ (∀ k, (st.undoLastRegisteredOperations n).1.mOperandValuesMap k
        = if k ∈ (st.undoLastRegisteredOperations n).2 then none else st.mOperandValuesMap k)
    ∧ (∀ k, (st.undoLastRegisteredOperations n).1.mExpressionsWithDependenciesMap k
        = if k ∈ (st.undoLastRegisteredOperations n).2 then none
          else st.mExpressionsWithDependenciesMap k)
    ∧ (st.undoLastRegisteredOperations n).1.mOperandDependenciesMap
        = st.mOperandDependenciesMap := by
  have hguard : ¬ (n ≤ 0 ∨ (st.mOperandOrderStack.length : Int) < n) := by omega
  have hlen : n.toNat ≤ st.mOperandOrderStack.length := by omega
  have e : st.undoLastRegisteredOperations n = undoLoop n.toNat st [] := by
    simp only [undoLastRegisteredOperations, hguard, if_false]
  obtain ⟨r1, r2, r3, r4, r5⟩ := undoLoop_spec n.toNat st [] hlen
  rw [e]
  simp only [List.nil_append] at r1
  refine ⟨r1, ?_, r2, ?_, ?_, r5⟩
  · rw [r1, List.length_take]
    omega
  · intro k; rw [r3 k, r1]
  · intro k; rw [r4 k, r1]

/-- C15 on the lines of the integration test: after the six assignments `undo 2` returns
`delete f`, `delete e`, and the state afterwards is the state with `f` and `e` removed from
the history and from the two maps. -/
theorem undoLastRegisteredOperations_undoes_witness :
    Runner.processAll 2 {} assignedInstructions
        = .ok ([["a = 5".toList], [], ["c = 3".toList], [],
            ["e = 8".toList, "b = 6".toList, "d = 2".toList], ["f = 7".toList]],
          ⟨assignedState⟩)
    ∧ Runner.processInstruction 0 ⟨assignedState⟩ "undo 2".toList
        = .ok (["delete f".toList, "delete e".toList], ⟨undoState⟩)
    ∧ (assignedState.undoLastRegisteredOperations 2).2
        = assignedState.mOperandOrderStack.take (2 : Int).toNat
    ∧ (assignedState.undoLastRegisteredOperations 2).1.mOperandOrderStack
        = assignedState.mOperandOrderStack.drop (2 : Int).toNat :=
  ⟨rfl, rfl,
    (undoLastRegisteredOperations_undoes assignedState 2 (by decide) (by decide)).1,
    (undoLastRegisteredOperations_undoes assignedState 2 (by decide) (by decide)).2.2.1⟩

/-- C16. For `n ≤ 0` or `n` greater than the history depth, `undoLastRegisteredOperations(n)`
returns the empty list and the state as it was. -/
theorem undoLastRegisteredOperations_rejects (st : State) (n : Int)
    (h : n ≤ 0 ∨ (st.mOperandOrderStack.length : Int) < n) :
    st.undoLastRegisteredOperations n = (st, []) := by
  simp only [undoLastRegisteredOperations, h, if_true]

/-- C16 on the state after the six assignments of the integration test: neither `undo 7`
nor `undo 0` nor `undo -1` removes anything. -/
theorem undoLastRegisteredOperations_rejects_witness :
    assignedState.undoLastRegisteredOperations 7 = (assignedState, [])
    ∧ assignedState.undoLastRegisteredOperations 0 = (assignedState, [])
    ∧ assignedState.undoLastRegisteredOperations (-1) = (assignedState, []) :=
  ⟨undoLastRegisteredOperations_rejects assignedState 7 (Or.inr (by decide)),
    undoLastRegisteredOperations_rejects assignedState 0 (Or.inl (by decide)),
    undoLastRegisteredOperations_rejects assignedState (-1) (Or.inl (by decide))⟩

end Calculator

/-! ## The history of a reachable runner -/

namespace Parser

theorem validateRHS_lhs (p : Parser) : (validateRHS p).2.mLHSString = p.mLHSString := by
  simp only [validateRHS]
  split
  · rfl
  · split
    · rfl
    · split
      · rfl
      · split <;> rfl

theorem createASTforRHS_lhs (q p : Parser) (b : Bool) (h : createASTforRHS q = .ok (b, p)) :
    p.mLHSString = q.mLHSString := by
  simp only [createASTforRHS] at h
  split at h
  · injection h with h
    rw [← (Prod.mk.inj h).2]
  · obtain ⟨s, _, h1⟩ := Calculator.State.bind_eq_ok _ _ _ h
    obtain ⟨s1, _, h2⟩ := Calculator.State.bind_eq_ok _ _ _ h1
    injection h2 with h2
    rw [← (Prod.mk.inj h2).2]

/-- The left-hand side of an accepted line has one character. -/
theorem execute_lhs_length (s : Str) (p : Parser) (h : execute (new s) = .ok (true, p)) :
    p.getOperandOfLHS.length = 1 := by
  simp only [execute, new] at h
  split at h
  · simp at h
  · split at h
    · rename_i hl
      simp only [parseRHS] at h
      split at h
      · rw [getOperandOfLHS, createASTforRHS_lhs _ _ _ h, validateRHS_lhs]
        simpa [parseLHS] using hl
      · simp at h
    · simp at h

end Parser

namespace Calculator

open State

/-- The history after `undoLastRegisteredOperations` is the old history without its first
entries. -/
theorem undo_history (st : State) (n : Int) :
    ∃ k, (st.undoLastRegisteredOperations n).1.mOperandOrderStack
      = st.mOperandOrderStack.drop k := by
  by_cases hg : n ≤ 0 ∨ (st.mOperandOrderStack.length : Int) < n
  · exact ⟨0, by simp [undoLastRegisteredOperations, hg]⟩
  · have hlen : n.toNat ≤ st.mOperandOrderStack.length := by omega
    refine ⟨n.toNat, ?_⟩
    simp only [undoLastRegisteredOperations, hg, if_false]
    exact (undoLoop_spec n.toNat st [] hlen).2.1

theorem storeExpressionDependencies_history (st : State) (operand : Str)
    (expressionAST : List Node) (dependencies : Evaluator.Dependencies) :
    (st.storeExpressionDependencies operand expressionAST dependencies).2.mOperandOrderStack
      = st.mOperandOrderStack := by
  unfold storeExpressionDependencies
  split <;> rfl

/-- What a returned call of `processInstruction` does to the history: nothing, or it drops
the first entries (an undo), or it pushes the left-hand side of the accepted line. -/
theorem processInstruction_history_cases (fuel : Nat) (runner : Runner) (input : Str)
    (out : List Str) (runner1 : Runner)
    (h : Runner.processInstruction fuel runner input = .ok (out, runner1)) :
    (∃ k, runner1.mState.mOperandOrderStack = runner.mState.mOperandOrderStack.drop k)
    ∨ ∃ p, Parser.execute (Parser.new input) = .ok (true, p)
        ∧ runner1.mState.mOperandOrderStack
          = p.getOperandOfLHS :: runner.mState.mOperandOrderStack := by
  unfold Runner.processInstruction at h
  simp only at h
  split at h
  · left
    split at h
    · injection h with h
      rw [← (Prod.mk.inj h).2]
      exact ⟨0, rfl⟩
    · injection h with h
      rw [← (Prod.mk.inj h).2]
      exact ⟨0, rfl⟩
  · left
    injection h with h
    rw [← (Prod.mk.inj h).2]
    exact undo_history _ _
  · obtain ⟨parsed, hparse, h1⟩ := bind_eq_ok _ _ _ h
    obtain ⟨b, p⟩ := parsed
    cases b with
    | false =>
      left
      simp only [Bool.not_false, if_true] at h1
      injection h1 with h1
      rw [← (Prod.mk.inj h1).2]
      exact ⟨0, rfl⟩
    | true =>
      simp only [Bool.not_true, Bool.false_eq_true, if_false] at h1
      split at h1
      · exact Res.noConfusion h1
      · obtain ⟨res, _, h2⟩ := bind_eq_ok _ _ _ h1
        cases res with
        | integer value =>
          simp only at h2
          obtain ⟨stored, hs, h3⟩ := bind_eq_ok _ _ _ h2
          right
          refine ⟨p, hparse, ?_⟩
          injection h3 with h3
          rw [← (Prod.mk.inj h3).2]
          obtain ⟨f, _⟩ := store_post fuel runner.mState [] _ _ stored.1 stored.2 hs
          simp only [updateOperationOrder, f.1]
        | dependencies deps =>
          simp only at h2
          split at h2
          · split at h2
            · left
              injection h2 with h2
              rw [← (Prod.mk.inj h2).2]
              exact ⟨0, rfl⟩
            · right
              refine ⟨p, hparse, ?_⟩
              injection h2 with h2
              rw [← (Prod.mk.inj h2).2]
              simp only [updateOperationOrder, storeExpressionDependencies_history]
          · left
            injection h2 with h2
            rw [← (Prod.mk.inj h2).2]
            exact ⟨0, rfl⟩

/-- Every history entry of a reachable runner is a name of one character. -/
theorem reachable_history (runner : Runner) (h : Runner.Reachable runner) :
    ∀ u ∈ runner.mState.mOperandOrderStack, u.length = 1 := by
  induction h with
  | fresh => intro u hu; simp at hu
  | step fuel runner input out runner1 _ hrun ih =>
    rcases processInstruction_history_cases fuel runner input out runner1 hrun with
      ⟨k, e⟩ | ⟨p, hp, e⟩
    · intro u hu
      rw [e] at hu
      exact ih u (List.mem_of_mem_drop hu)
    · intro u hu
      rw [e] at hu
      rcases List.mem_cons.mp hu with e1 | e1
      · rw [e1]; exact Parser.execute_lhs_length input p hp
      · exact ih u e1

end Calculator

namespace Calculator.State

/-- The loop of `getLastFulfilledOperation` stops at the first entry that has a value. -/
theorem lastFulfilledIn_found (values : Str → Option Int) (pre : List Str) (v : Str)
    (post : List Str) (n : Int) (hpre : ∀ u ∈ pre, values u = none) (hv : values v = some n) :
    lastFulfilledIn values (pre ++ v :: post) = (v, n) := by
  induction pre with
  | nil => simp [lastFulfilledIn, hv]
  | cons u rest ih =>
    have hu : values u = none := hpre u (List.mem_cons_self _ _)
    simp only [List.cons_append, lastFulfilledIn, hu]
    exact ih fun w hw => hpre w (List.mem_cons_of_mem _ hw)

/-- The loop of `getLastFulfilledOperation` returns the empty pair when no entry has a
value. -/
theorem lastFulfilledIn_none (values : Str → Option Int) (history : List Str)
    (h : ∀ u ∈ history, values u = none) : lastFulfilledIn values history = ([], 0) := by
  induction history with
  | nil => rfl
  | cons u rest ih =>
    have hu : values u = none := h u (List.mem_cons_self _ _)
    simp only [lastFulfilledIn, hu]
    exact ih fun w hw => h w (List.mem_cons_of_mem _ hw)

/-- What the loop of `getLastFulfilledOperation` returns is the empty pair or an entry of the
history with its value. -/
theorem lastFulfilledIn_cases (values : Str → Option Int) (history : List Str) :
    (lastFulfilledIn values history = ([], 0) ∧ ∀ u ∈ history, values u = none)
    ∨ ∃ pre v post n, history = pre ++ v :: post ∧ (∀ u ∈ pre, values u = none)
        ∧ values v = some n ∧ lastFulfilledIn values history = (v, n) := by
  induction history with
  | nil => exact Or.inl ⟨rfl, by simp⟩
  | cons u rest ih =>
    cases hu : values u with
    | some n =>
      exact Or.inr ⟨[], u, rest, n, rfl, by simp, hu, by simp [lastFulfilledIn, hu]⟩
    | none =>
      rcases ih with ⟨e, hn⟩ | ⟨pre, v, post, n, e, hpre, hv, hl⟩
      · refine Or.inl ⟨by simp [lastFulfilledIn, hu, e], ?_⟩
        intro w hw
        rcases List.mem_cons.mp hw with h1 | h1
        · subst h1; exact hu
        · exact hn w h1
      · refine Or.inr ⟨u :: pre, v, post, n, by simp [e], ?_, hv, by simp [lastFulfilledIn, hu, hl]⟩
        intro w hw
        rcases List.mem_cons.mp hw with h1 | h1
        · subst h1; exact hu
        · exact hpre w h1

end Calculator.State

namespace Calculator

open State

theorem getOperationRequest_result : getOperationRequest "result".toList = (.RESULT, none) := by
  decide

/-- C14. The method `getLastFulfilledOperation` returns `(v, n)` for the most recent history
entry `v` that has a value `n` in the value map; it returns the empty pair when the history is
empty or no history entry has a value, and only then when no history entry is the empty
name, as in every state of a reachable runner; the `result` command, which calls it, returns
the runner as it was, with the line `return v = n` when the pair is not the empty one. -/
theorem getLastFulfilledOperation_spec (st : State) :
    (∀ pre v post n, st.mOperandOrderStack = pre ++ v :: post →
        (∀ u ∈ pre, st.mOperandValuesMap u = none) → st.mOperandValuesMap v = some n →
        st.getLastFulfilledOperation = (v, n))
    ∧ ((∀ u ∈ st.mOperandOrderStack, st.mOperandValuesMap u = none) →
        st.getLastFulfilledOperation = ([], 0))
    ∧ ([] ∉ st.mOperandOrderStack → st.getLastFulfilledOperation = ([], 0) →
        ∀ u ∈ st.mOperandOrderStack, st.mOperandValuesMap u = none)
    ∧ (∀ runner : Runner, Runner.Reachable runner → runner.mState = st →
        (st.getLastFulfilledOperation = ([], 0)
          ↔ ∀ u ∈ st.mOperandOrderStack, st.mOperandValuesMap u = none))
    ∧ (∀ (fuel : Nat) (runner : Runner), runner.mState = st →
        Runner.processInstruction fuel runner "result".toList
          = .ok (if st.getLastFulfilledOperation = ([], 0) then []
              else ["return ".toList ++ st.getLastFulfilledOperation.1 ++ " = ".toList
                ++ to_string st.getLastFulfilledOperation.2], runner)) := by
  have hthird : [] ∉ st.mOperandOrderStack → st.getLastFulfilledOperation = ([], 0) →
      ∀ u ∈ st.mOperandOrderStack, st.mOperandValuesMap u = none := by
    intro hne he
    rcases lastFulfilledIn_cases st.mOperandValuesMap st.mOperandOrderStack with
      ⟨_, hn⟩ | ⟨pre, v, post, n, e, _, _, hl⟩
    · exact hn
    · exfalso
      unfold getLastFulfilledOperation at he
      rw [hl] at he
      have hv : v = [] := (Prod.mk.inj he).1
      apply hne
      rw [e, hv]
      simp
  refine ⟨?_, ?_, hthird, ?_, ?_⟩
  · intro pre v post n e hpre hv
    unfold getLastFulfilledOperation
    rw [e]
    exact lastFulfilledIn_found _ pre v post n hpre hv
  · intro h
    exact lastFulfilledIn_none _ _ h
  · intro runner hreach hr
    subst hr
    refine ⟨hthird ?_, fun h => lastFulfilledIn_none _ _ h⟩
    intro hmem
    have := reachable_history runner hreach [] hmem
    simp at this
  · intro fuel runner hr
    subst hr
    unfold Runner.processInstruction
    simp only [getOperationRequest_result]
    split <;> rfl

/-- C14 on the lines of the integration test: after `e=2+2` and the pending `f=g*7`, the
history is `f`, `e`, the most recent entry with a value is `e`, and `result` returns
`return e = 4`. -/
theorem getLastFulfilledOperation_spec_witness :
    Runner.processAll 1 {} ["e=2+2".toList, "f=g*7".toList]
        = .ok ([["e = 4".toList], []], ⟨resultState⟩)
    ∧ resultState.getLastFulfilledOperation = (['e'], 4)
    ∧ Runner.processInstruction 0 ⟨resultState⟩ "result".toList
        = .ok (["return e = 4".toList], ⟨resultState⟩) :=
  ⟨rfl,
    (getLastFulfilledOperation_spec resultState).1 [['f']] ['e'] [] 4 rfl (by decide) rfl,
    (getLastFulfilledOperation_spec resultState).2.2.2.2 0 ⟨resultState⟩ rfl⟩

end Calculator

/-! ## The runner and the history -/

namespace Calculator

open State

/-- C17 fails as stated: in the state after `f=g*7` the line `g=3*2` returns the two lines
`g = 6`, `f = 42` (the list of `storeExpressionValue` has two entries), and the history grows
by one entry, `g`, not by two. -/
theorem history_grows_by_one_on_cascade :
    Runner.processAll 0 {} ["f=g*7".toList] = .ok ([[]], ⟨forwardState⟩)
    ∧ Runner.processInstruction 2 ⟨forwardState⟩ "g=3*2".toList
      = .ok (["g = 6".toList, "f = 42".toList],
          ⟨forwardStateResolved.updateOperationOrder ['g']⟩)
    ∧ forwardState.storeExpressionValue 2 ['g'] 6
      = .ok (forwardStateResolved, [(['g'], 6), (['f'], 42)])
    ∧ forwardState.mOperandOrderStack = [['f']]
    ∧ (forwardStateResolved.updateOperationOrder ['g']).mOperandOrderStack = [['g'], ['f']]
    ∧ (forwardStateResolved.updateOperationOrder ['g']).mOperandOrderStack.length
      ≠ forwardState.mOperandOrderStack.length
        + [((['g'] : Str), (6 : Int)), (['f'], 42)].length :=
  ⟨rfl, rfl, rfl, rfl, rfl, by decide⟩

/-- C17, amended. When `processInstruction` handles an assignment whose expression
evaluates to a value, a call that returns has pushed exactly one entry on the history, the
variable of the left-hand side, whatever the length of the list `storeExpressionValue`
returned (one line is returned for each entry of that list); and the call does return when
the recorded edges are ranked and the pending trees are evaluable. -/
theorem processInstruction_history (runner : Runner) (input : Str) (p : Parser) (top : Node)
    (rest : List Node) (value : Int)
    (hparse : Parser.execute (Parser.new input) = .ok (true, p))
    (hast : p.getASTOfRHS = top :: rest)
    (heval : Evaluator.execute top runner.mState.getOperandValueMap = .ok (.integer value)) :
    (∀ fuel out runner1, Runner.processInstruction fuel runner input = .ok (out, runner1) →
        runner1.mState.mOperandOrderStack
          = p.getOperandOfLHS :: runner.mState.mOperandOrderStack
        ∧ ∃ st1 stored,
            runner.mState.storeExpressionValue fuel p.getOperandOfLHS value = .ok (st1, stored)
            ∧ out.length = stored.length)
    ∧ (∀ rank, RankedBy runner.mState rank → PendingEvaluable runner.mState →
        ∃ out runner1,
          Runner.processInstruction (rank p.getOperandOfLHS + 1) runner input
            = .ok (out, runner1)) := by
  constructor
  · intro fuel out runner1 hrun
    rw [processInstruction_of_parsed fuel runner input p top rest hparse hast] at hrun
    simp only [heval, Res.bind] at hrun
    cases hs : runner.mState.storeExpressionValue fuel p.getOperandOfLHS value with
    | ok stored =>
      simp only [hs] at hrun
      injection hrun with hrun
      injection hrun with ho hr
      subst ho; subst hr
      obtain ⟨f, _⟩ := store_post fuel runner.mState [] _ _ stored.1 stored.2 hs
      refine ⟨?_, stored.1, stored.2, rfl, by simp⟩
      simp only [updateOperationOrder, f.1]
    | undefined => simp [hs] at hrun
    | diverges => simp [hs] at hrun
    | outOfFuel => simp [hs] at hrun
  · intro rank hr he
    obtain ⟨r, h⟩ := store_terminates runner.mState rank hr he (rank p.getOperandOfLHS + 1)
      runner.mState [] p.getOperandOfLHS value (sameBookkeeping_refl _) (Nat.lt_succ_self _)
    rw [processInstruction_of_parsed _ runner input p top rest hparse hast]
    simp only [heval, Res.bind]
    have h' : runner.mState.storeExpressionValue (rank p.getOperandOfLHS + 1)
        p.getOperandOfLHS value = .ok r := h
    simp only [h']
    exact ⟨_, _, rfl⟩

/-- C17, amended, at the line `g=3*2` in the state after `f=g*7`: two lines are returned and
the history becomes `g`, `f`. -/
theorem processInstruction_history_witness :
    (forwardStateResolved.updateOperationOrder ['g']).mOperandOrderStack
      = ['g'] :: forwardState.mOperandOrderStack
    ∧ ∃ st1 stored,
        forwardState.storeExpressionValue 2 ['g'] 6 = .ok (st1, stored)
        ∧ ["g = 6".toList, "f = 42".toList].length = stored.length :=
  (processInstruction_history ⟨forwardState⟩ "g=3*2".toList
    { mLHSString := ['g'], mRHSString := "(3*2)".toList, mInputString := "g=3*2".toList,
      mRHSOperatorStack := [],
      mRHSValueStack := [Node.node '*' (Node.leaf '3') (Node.leaf '2')] }
    (Node.node '*' (Node.leaf '3') (Node.leaf '2')) [] 6 rfl rfl rfl).1 2
    ["g = 6".toList, "f = 42".toList] ⟨forwardStateResolved.updateOperationOrder ['g']⟩ rfl

/-- C18. A line that is neither `result` nor an `undo` command and that `Parser::execute`
rejects, or whose dependencies `storeExpressionDependencies` refuses as cyclic, returns the
empty list and the runner as it was: value map, dependency edges, pending expressions and
history are those before the call. -/
theorem processInstruction_rejection (fuel : Nat) (runner : Runner) (input : Str)
    (hreq : (getOperationRequest input).1 = .OTHER) :
    (∀ p, Parser.execute (Parser.new input) = .ok (false, p) →
        Runner.processInstruction fuel runner input = .ok ([], runner))
    ∧ (∀ p top rest dependencies,
        Parser.execute (Parser.new input) = .ok (true, p) → p.getASTOfRHS = top :: rest →
        Evaluator.execute top runner.mState.getOperandValueMap
          = .ok (.dependencies dependencies) →
        (runner.mState.storeExpressionDependencies p.getOperandOfLHS p.getASTOfRHS
          dependencies).1 = false →
        Runner.processInstruction fuel runner input = .ok ([], runner)) := by
  constructor
  · intro p hp
    unfold Runner.processInstruction
    simp only [hreq, hp, Res.bind]
    rfl
  · intro p top rest dependencies hp hast he hs
    rw [processInstruction_of_parsed fuel runner input p top rest hp hast]
    simp only [he, Res.bind, hs]
    split <;> rfl

/-- C18 at the rejected line `a = -1` in the state after `f=g*7`, and at the line `a=b` in
the state after `b=a`, refused as cyclic: `b` is recorded under `a` and is the variable
`a=b` is missing. -/
theorem processInstruction_rejection_witness :
    Runner.processAll 0 {} ["b=a".toList] = .ok ([[]], ⟨backEdgeState⟩)
    ∧ Runner.processInstruction 0 ⟨forwardState⟩ "a = -1".toList = .ok ([], ⟨forwardState⟩)
    ∧ Runner.processInstruction 0 ⟨backEdgeState⟩ "a=b".toList = .ok ([], ⟨backEdgeState⟩) :=
  ⟨rfl,
    (processInstruction_rejection 0 ⟨forwardState⟩ "a = -1".toList rfl).1
      { mLHSString := ['a'], mRHSString := "-1".toList, mInputString := "a=-1".toList } rfl,
    (processInstruction_rejection 0 ⟨backEdgeState⟩ "a=b".toList rfl).2
      { mLHSString := ['a'], mRHSString := "(b)".toList, mInputString := "a=b".toList,
        mRHSValueStack := [Node.leaf 'b'] }
      (Node.leaf 'b') [] [['b']] rfl rfl rfl rfl⟩

end Calculator

/-! ## A store that returns has stored its operand once -/

namespace Evaluator

/-- A traversal that ends with no missing variable started with none, and ends with none
under every lookup map that knows at least as much. -/
theorem analyse_integer_mono (lookup lookup1 : Str → Option Int)
    (hmono : ∀ u, (lookup u).isSome = true → (lookup1 u).isSome = true) (t : Node) :
    ∀ (deps : Dependencies) (f : F32),
      analyseAndTraverseASTNode lookup t deps = .ok (f, []) →
      deps = [] ∧ ∃ f1, analyseAndTraverseASTNode lookup1 t [] = .ok (f1, []) := by
  induction t with
  | nil => intro deps f h; simp [analyseAndTraverseASTNode] at h
  | node c l r ihl ihr =>
    intro deps f h
    cases hd : isdigit c with
    | true =>
      simp only [analyseAndTraverseASTNode, hd, if_true] at h
      injection h with h
      exact ⟨(Prod.mk.inj h).2, F32.ofInt ((c.toNat : Int) - ('0'.toNat : Int)),
        by simp only [analyseAndTraverseASTNode, hd, if_true]⟩
    | false =>
      cases ha : isalpha c with
      | true =>
        cases hl : lookup [c] with
        | some v =>
          simp only [analyseAndTraverseASTNode, hd, ha, hl, if_true, Bool.false_eq_true,
            if_false] at h
          injection h with h
          obtain ⟨w, hw⟩ := Option.isSome_iff_exists.mp (hmono [c] (by simp [hl]))
          exact ⟨(Prod.mk.inj h).2, F32.ofInt w,
            by simp only [analyseAndTraverseASTNode, hd, ha, hw, if_true, Bool.false_eq_true,
              if_false]⟩
        | none =>
          simp only [analyseAndTraverseASTNode, hd, ha, hl, if_true, Bool.false_eq_true,
            if_false] at h
          injection h with h
          exact absurd (Prod.mk.inj h).2 (insertDependency_ne_nil _ _)
      | false =>
        simp only [analyseAndTraverseASTNode, hd, ha, Bool.false_eq_true, if_false] at h
        obtain ⟨a, ha1, hrest⟩ := Calculator.State.bind_eq_ok _ _ _ h
        obtain ⟨b, hb1, hfin⟩ := Calculator.State.bind_eq_ok _ _ _ hrest
        injection hfin with hfin
        obtain ⟨fa, da⟩ := a
        obtain ⟨fb, db⟩ := b
        have hb2 : db = [] := (Prod.mk.inj hfin).2
        subst hb2
        obtain ⟨e1, f1, h1⟩ := ihr da fb hb1
        have e1' : da = [] := e1
        subst e1'
        obtain ⟨e0, f0, h0⟩ := ihl deps fa ha1
        exact ⟨e0, performArithmeticOperation c f0 f1,
          by simp only [analyseAndTraverseASTNode, hd, ha, Bool.false_eq_true, if_false, h0, h1,
            Res.bind]⟩

end Evaluator

namespace Evaluator

/-- An evaluation that gives an integer gives an integer under every lookup map that knows
at least as much. -/
theorem execute_integer_mono (lookup lookup1 : Str → Option Int)
    (hmono : ∀ u, (lookup u).isSome = true → (lookup1 u).isSome = true) (t : Node) (v : Int)
    (h : execute t lookup = .ok (.integer v)) :
    ∃ v1, execute t lookup1 = .ok (.integer v1) := by
  cases t with
  | nil => exact ⟨0, rfl⟩
  | node c l r =>
    rw [execute_node] at h ⊢
    obtain ⟨a, ha, hrest⟩ := Calculator.State.bind_eq_ok _ _ _ h
    obtain ⟨fa, da⟩ := a
    by_cases hne : da = []
    · subst hne
      obtain ⟨_, f1, h1⟩ := analyse_integer_mono lookup lookup1 hmono _ _ _ ha
      exact ⟨F32.toInt32 f1, by simp [h1, Res.bind]⟩
    · simp [hne] at hrest

end Evaluator

namespace Calculator.State

theorem liveEdge_mono (st0 : State) (values values1 : Str → Option Int)
    (hmono : ∀ u, (values u).isSome = true → (values1 u).isSome = true) (a b : Str)
    (h : LiveEdge st0 values a b) : LiveEdge st0 values1 a b := by
  obtain ⟨he, top, rest, hp, hl⟩ := h
  exact ⟨he, top, rest, hp, fun lookup hk => hl lookup fun u hu => hk u (hmono u hu)⟩

theorem insertOrAssign_isSome (values : Str → Option Int) (k : Str) (v : Int) (u : Str)
    (h : (values u).isSome = true) : (insertOrAssign values k v u).isSome = true := by
  unfold insertOrAssign
  split
  · rfl
  · exact h

/-- A run of stores keeps what the value map knew. -/
theorem cascadePost_known {st st1 : State} {acc acc1 : List (Str × Int)}
    (h : CascadePost st acc st1 acc1) (u : Str)
    (hu : (st.mOperandValuesMap u).isSome = true) : (st1.mOperandValuesMap u).isSome = true := by
  obtain ⟨_, l, _, hv, _⟩ := h
  rw [hv]
  exact applyStores_isSome _ _ _ hu

/-- A store on an operand of a closed chain of live edges uses up every budget. -/
theorem store_diverges_of_live_cycle (st0 : State) (values : Str → Option Int) (x : Str)
    (fuel : Nat) :
    ∀ (st : State) (acc : List (Str × Int)) (a : Str) (v : Int),
      SameBookkeeping st0 st →
      (∀ u, (values u).isSome = true → (st.mOperandValuesMap u).isSome = true) →
      Relation.TransGen (LiveEdge st0 values) a x →
      Relation.ReflTransGen (LiveEdge st0 values) x a →
      ∀ r, storeValueAndCheckDependencies fuel st acc a v ≠ .ok r := by
  induction fuel with
  | zero => intro st acc a v _ _ _ _ r h; simp [storeValueAndCheckDependencies] at h
  | succ n ih =>
    intro st acc a v hs hk hax hxa r h
    obtain ⟨b, hab, hbx⟩ := Relation.TransGen.head'_iff.mp hax
    have hxb : Relation.ReflTransGen (LiveEdge st0 values) x b := hxa.tail hab
    have hbx' : Relation.TransGen (LiveEdge st0 values) b x := by
      rcases Relation.reflTransGen_iff_eq_or_transGen.mp hbx with e | t
      · subst e
        exact Relation.TransGen.tail' hxa hab
      · exact t
    have hrec : ∀ st acc x v st1 acc1,
        storeValueAndCheckDependencies n st acc x v = .ok (st1, acc1) →
        (st.mExpressionsWithDependenciesMap x).isSome = true → CascadePost st acc st1 acc1 :=
      fun st acc x v st1 acc1 h hx => Calculator.store_cascadePost n st acc x v st1 acc1 h hx
    have hloop : ∀ (ds : List Str), b ∈ ds →
        ∀ (s : State × List (Str × Int)), SameBookkeeping st0 s.1 →
        (∀ u, (values u).isSome = true → (s.1.mOperandValuesMap u).isSome = true) →
        ∀ r, cascadeLoop (storeValueAndCheckDependencies n) ds s ≠ .ok r := by
      intro ds
      induction ds with
      | nil => intro hb; simp at hb
      | cons d rest ihd =>
        intro hb s hsame hknown r hr
        simp only [cascadeLoop] at hr
        obtain ⟨s2, hstep, hrest⟩ := bind_eq_ok _ _ _ hr
        by_cases hd : d = b
        · subst hd
          obtain ⟨_, top, rest1, hp, hl⟩ := hab
          have hp1 : s.1.mExpressionsWithDependenciesMap d = some (top :: rest1) := by
            rw [hsame.2.2]; exact hp
          obtain ⟨val, hval⟩ := hl s.1.mOperandValuesMap hknown
          simp only [cascadeStep, hp1, hval, Res.bind] at hstep
          exact ih s.1 s.2 d val hsame hknown hbx' hxb s2 hstep
        · have hb' : b ∈ rest := by
            rcases List.mem_cons.mp hb with e | e
            · exact absurd e.symm hd
            · exact e
          have hpost := cascadeStep_post _ hrec s.1 s.2 d s2.1 s2.2 hstep
          exact ihd hb' s2 (sameBookkeeping_trans hsame hpost.1)
            (fun u hu => cascadePost_known hpost u (hknown u hu)) r hrest
    simp only [storeValueAndCheckDependencies] at h
    refine hloop _ ?_ _ ⟨hs.1, hs.2.1, hs.2.2⟩ ?_ r h
    · apply (mem_equalRange _ a b).mpr
      show (a, b) ∈ st.mOperandDependenciesMap
      rw [hs.2.1]
      exact hab.1
    · intro u hu
      exact insertOrAssign_isSome _ _ _ _ (hk u hu)

end Calculator.State

namespace Calculator.State

/-- A store that returns has not stored again an operand `x` from which it was reached along
live edges: a second store of `x` would close a chain of live edges and never return. -/
theorem store_not_restored (st0 : State) (x : Str) (fuel : Nat) :
    ∀ (st : State) (acc : List (Str × Int)) (o : Str) (v : Int) (st1 : State)
      (acc1 : List (Str × Int)),
      SameBookkeeping st0 st →
      Relation.ReflTransGen (LiveEdge st0 st.mOperandValuesMap) x o →
      storeValueAndCheckDependencies fuel st acc o v = .ok (st1, acc1) →
      ∃ l, acc1 = acc ++ (o, v) :: l ∧ ∀ p ∈ l, p.1 ≠ x := by
  induction fuel with
  | zero => intro st acc o v st1 acc1 _ _ h; simp [storeValueAndCheckDependencies] at h
  | succ n ih =>
    intro st acc o v st1 acc1 hs hpath h
    simp only [storeValueAndCheckDependencies] at h
    have hrec : ∀ st acc x v st1 acc1,
        storeValueAndCheckDependencies n st acc x v = .ok (st1, acc1) →
        (st.mExpressionsWithDependenciesMap x).isSome = true → CascadePost st acc st1 acc1 :=
      fun st acc x v st1 acc1 h hx => Calculator.store_cascadePost n st acc x v st1 acc1 h hx
    have hloop : ∀ (ds : List Str), (∀ d ∈ ds, (o, d) ∈ st0.mOperandDependenciesMap) →
        ∀ (s s1 : State × List (Str × Int)), SameBookkeeping st0 s.1 →
        (∀ u, (st.mOperandValuesMap u).isSome = true →
          (s.1.mOperandValuesMap u).isSome = true) →
        cascadeLoop (storeValueAndCheckDependencies n) ds s = .ok s1 →
        ∃ l, s1.2 = s.2 ++ l ∧ ∀ p ∈ l, p.1 ≠ x := by
      intro ds
      induction ds with
      | nil =>
        intro _ s s1 _ _ h
        simp only [cascadeLoop] at h
        injection h with h
        subst h
        exact ⟨[], by simp, by simp⟩
      | cons d rest ihd =>
        intro hds s s1 hsame hknown h
        simp only [cascadeLoop] at h
        obtain ⟨s2, hstep, hrest⟩ := bind_eq_ok _ _ _ h
        have hpost := cascadeStep_post _ hrec s.1 s.2 d s2.1 s2.2 hstep
        have hstep2 : ∃ l, s2.2 = s.2 ++ l ∧ ∀ p ∈ l, p.1 ≠ x := by
          unfold cascadeStep at hstep
          cases hp : s.1.mExpressionsWithDependenciesMap d with
          | none =>
            simp only [hp] at hstep
            injection hstep with hstep
            subst hstep
            exact ⟨[], by simp, by simp⟩
          | some stack =>
            cases stack with
            | nil => simp [hp] at hstep
            | cons top rest1 =>
              simp only [hp] at hstep
              obtain ⟨res, hexec, hres⟩ := bind_eq_ok _ _ _ hstep
              cases res with
              | integer val =>
                simp only at hres
                have hedge : LiveEdge st0 s.1.mOperandValuesMap o d :=
                  ⟨hds d (List.mem_cons_self _ _), top, rest1,
                    by rw [← hsame.2.2]; exact hp,
                    fun lookup hl =>
                      Evaluator.execute_integer_mono s.1.mOperandValuesMap lookup hl top val
                        hexec⟩
                have hpath1 : Relation.ReflTransGen (LiveEdge st0 s.1.mOperandValuesMap) x o :=
                  Relation.ReflTransGen.mono
                    (fun a b hab => liveEdge_mono st0 _ _ hknown a b hab) hpath
                by_cases hdx : d = x
                · exfalso
                  subst hdx
                  exact store_diverges_of_live_cycle st0 s.1.mOperandValuesMap d n s.1 s.2 d val
                    hsame (fun _ hu => hu) (Relation.TransGen.tail' hpath1 hedge)
                    Relation.ReflTransGen.refl s2 hres
                · obtain ⟨l, e, hl⟩ := ih s.1 s.2 d val s2.1 s2.2 hsame (hpath1.tail hedge) hres
                  refine ⟨(d, val) :: l, e, ?_⟩
                  intro p hp1
                  rcases List.mem_cons.mp hp1 with e1 | e1
                  · subst e1; exact hdx
                  · exact hl p e1
              | dependencies deps =>
                simp only at hres
                injection hres with hres
                subst hres
                exact ⟨[], by simp, by simp⟩
        obtain ⟨l1, e1, hl1⟩ := hstep2
        obtain ⟨l2, e2, hl2⟩ :=
          ihd (fun d hd => hds d (List.mem_cons_of_mem _ hd)) s2 s1
            (sameBookkeeping_trans hsame hpost.1)
            (fun u hu => cascadePost_known hpost u (hknown u hu)) hrest
        refine ⟨l1 ++ l2, by rw [e2, e1, List.append_assoc], ?_⟩
        intro p hp
        rcases List.mem_append.mp hp with h1 | h1
        · exact hl1 p h1
        · exact hl2 p h1
    obtain ⟨l, e, hl⟩ := hloop _ (by
      intro d hd
      have hedge := (mem_equalRange _ o d).mp hd
      have hedge0 : (o, d) ∈ st.mOperandDependenciesMap := hedge
      rw [hs.2.1] at hedge0
      exact hedge0) _ (st1, acc1) ⟨hs.1, hs.2.1, hs.2.2⟩
      (fun u hu => insertOrAssign_isSome _ _ _ _ hu) h
    exact ⟨l, by simpa using e, hl⟩

/-- After a store of `(x, v)` that returns, the value map holds `v` for `x`. -/
theorem store_value_kept (fuel : Nat) (st : State) (x : Str) (v : Int) (st1 : State)
    (r : List (Str × Int)) (h : storeValueAndCheckDependencies fuel st [] x v = .ok (st1, r)) :
    st1.mOperandValuesMap x = some v := by
  obtain ⟨l, e, hl⟩ := store_not_restored st x fuel st [] x v st1 r (sameBookkeeping_refl st)
    Relation.ReflTransGen.refl h
  obtain ⟨_, l', e', hv, _⟩ := store_post fuel st [] x v st1 r h
  have hll : l' = l := by
    rw [e] at e'
    simpa using e'.symm
  subst hll
  rw [hv, applyStores_cons, applyStores_of_not_key _ _ _ hl]
  simp [insertOrAssign]

end Calculator.State

namespace Calculator

open State

theorem selfState_diverges (fuel : Nat) (v : Int) :
    selfState.storeExpressionValue fuel ['a'] v = .outOfFuel := by
  apply State.store_diverges_of_cycle selfState (fun k => k) (fun k => k = ['a']) ?_ fuel
    selfState [] ['a'] v (State.sameBookkeeping_refl _) rfl
  intro k hk
  subst hk
  exact ⟨rfl, by decide, Node.node '+' (Node.leaf 'a') (Node.leaf '1'), [], by decide,
    by decide, by decide⟩

/-- C19 at its failing input: the line `a=a+1` is accepted on a fresh calculator, although
it makes `a` depend on itself, and leaves `a` pending on itself; in that state the valid line
`a=1` has no unresolved variable and evaluates to `1`, and `storeExpressionValue("a", 1)`
returns nothing, whatever the recursion budget, so no `getLastFulfilledOperation` follows
it. -/
theorem self_reference_store_has_no_result :
    Runner.processAll 0 {} ["a=a+1".toList] = .ok ([[]], ⟨selfState⟩)
    ∧ ((Parser.execute (Parser.new "a=1".toList)).bind fun parsed =>
        .ok (parsed.1, parsed.2.getOperandOfLHS, parsed.2.getASTOfRHS))
      = .ok (true, ['a'], [Node.leaf '1'])
    ∧ Evaluator.execute (Node.leaf '1') selfState.getOperandValueMap = .ok (.integer 1)
    ∧ ¬ ∃ fuel r, selfState.storeExpressionValue fuel ['a'] 1 = .ok r := by
  refine ⟨rfl, rfl, rfl, ?_⟩
  rintro ⟨fuel, r, h⟩
  rw [selfState_diverges fuel 1] at h
  exact Res.noConfusion h

/-- The round trip of a store that returns. For every state, variable `x` and integer `n`:
whenever `storeExpressionValue(x, n)` returns, `updateOperationOrder(x)` after it makes
`getLastFulfilledOperation` return exactly `(x, n)`; and the store does return when the
recorded edges are ranked and the pending trees are evaluable. -/
theorem round_trip (st : State) (x : Str) (n : Int) :
    (∀ fuel st1 r, st.storeExpressionValue fuel x n = .ok (st1, r) →
      (st1.updateOperationOrder x).getLastFulfilledOperation = (x, n))
    ∧ (∀ rank, RankedBy st rank → PendingEvaluable st →
      ∃ st1 r, st.storeExpressionValue (rank x + 1) x n = .ok (st1, r)
        ∧ (st1.updateOperationOrder x).getLastFulfilledOperation = (x, n)) := by
  have hfirst : ∀ fuel st1 r, st.storeExpressionValue fuel x n = .ok (st1, r) →
      (st1.updateOperationOrder x).getLastFulfilledOperation = (x, n) := by
    intro fuel st1 r h
    have hv := store_value_kept fuel st x n st1 r h
    simp [getLastFulfilledOperation, updateOperationOrder, lastFulfilledIn, hv]
  refine ⟨hfirst, ?_⟩
  intro rank hr he
  obtain ⟨r, h⟩ := store_terminates st rank hr he (rank x + 1) st [] x n
    (sameBookkeeping_refl st) (Nat.lt_succ_self _)
  exact ⟨r.1, r.2, h, hfirst _ r.1 r.2 h⟩

/-- The round trip on the lines of the integration test: in the state after `f=g*7` the line
`g=3*2` evaluates to `6`, the store of `(g, 6)` returns and `result` then names `g = 6`. -/
theorem round_trip_witness :
    (forwardStateResolved.updateOperationOrder ['g']).getLastFulfilledOperation = (['g'], 6)
    ∧ Runner.processAll 2 ⟨forwardState⟩ ["g=3*2".toList, "result".toList]
      = .ok ([["g = 6".toList, "f = 42".toList], ["return g = 6".toList]],
          ⟨forwardStateResolved.updateOperationOrder ['g']⟩) :=
  ⟨(round_trip forwardState ['g'] 6).1 2 forwardStateResolved [(['g'], 6), (['f'], 42)] rfl,
    rfl⟩

end Calculator

/-! ## The node stack the parser returns -/

namespace Parser

/-- C20 at its failing inputs: `Parser::execute` returns true on `a=()` and leaves the node
stack empty, so the runner reads the top of an empty stack; it returns true on `a=bc` and
leaves two nodes on the stack, the leaves `c` (on top) and `b`. -/
theorem execute_accepts_without_single_root :
    ((execute (new "a=()".toList)).bind fun parsed => .ok (parsed.1, parsed.2.getASTOfRHS))
      = .ok (true, [])
    ∧ Calculator.Runner.processInstruction 0 {} "a=()".toList = .undefined
    ∧ ((execute (new "a=bc".toList)).bind fun parsed => .ok (parsed.1, parsed.2.getASTOfRHS))
      = .ok (true, [Node.leaf 'c', Node.leaf 'b']) := by
  refine ⟨rfl, rfl, rfl⟩

end Parser

/-! ## Lines the parser accepts or rejects -/

namespace Parser

open Utils.Constants Utils.Methods

/-- C21 at its failing inputs: `Parser::execute` returns true on `1=2+3` with the left-hand
side `1` and on `+=1` with the left-hand side `+`, neither of them a letter; the runner then
stores the value `5` under the name `1`. -/
theorem execute_accepts_non_letter_lhs :
    ((execute (new "1=2+3".toList)).bind fun parsed =>
        .ok (parsed.1, parsed.2.getOperandOfLHS, parsed.2.getASTOfRHS))
      = .ok (true, ['1'], [Node.node '+' (Node.leaf '2') (Node.leaf '3')])
    ∧ ((execute (new "+=1".toList)).bind fun parsed =>
        .ok (parsed.1, parsed.2.getOperandOfLHS, parsed.2.getASTOfRHS))
      = .ok (true, ['+'], [Node.leaf '1'])
    ∧ ((Calculator.Runner.processInstruction 1 {} "1=2+3".toList).bind fun r =>
        .ok (r.1, r.2.mState.mOperandValuesMap ['1']))
      = .ok (["1 = 5".toList], some 5) := by
  refine ⟨rfl, rfl, rfl⟩

/-- C25 at its failing inputs: `Parser::execute` returns true on `a=)b+c(`, where the first
`)` has no earlier `(`, and builds the tree of `b+c`; it returns true on `a=)(` with an empty
node stack; and it returns true on `a=b+()c`, where a pair of parentheses encloses nothing,
and builds the tree of `b+c`. -/
theorem execute_accepts_misused_parentheses :
    ((execute (new "a=)b+c(".toList)).bind fun parsed => .ok (parsed.1, parsed.2.getASTOfRHS))
      = .ok (true, [Node.node '+' (Node.leaf 'b') (Node.leaf 'c')])
    ∧ ((execute (new "a=)(".toList)).bind fun parsed => .ok (parsed.1, parsed.2.getASTOfRHS))
      = .ok (true, [])
    ∧ ((execute (new "a=b+()c".toList)).bind fun parsed => .ok (parsed.1, parsed.2.getASTOfRHS))
      = .ok (true, [Node.node '+' (Node.leaf 'b') (Node.leaf 'c')]) := by
  refine ⟨rfl, rfl, rfl⟩

/-- C26 at its failing inputs: `Parser::execute` returns true on `a=1b` (a digit followed by
a letter), `a=b1`, `a=(b)c` (a right parenthesis followed by a letter), `a=b(c)` (a letter
followed by a left parenthesis) and `a=(b)(c)`; each time two leaves are left on the node
stack, with no operator between them. -/
theorem execute_accepts_missing_operator :
    ((execute (new "a=1b".toList)).bind fun parsed => .ok (parsed.1, parsed.2.getASTOfRHS))
      = .ok (true, [Node.leaf 'b', Node.leaf '1'])
    ∧ ((execute (new "a=b1".toList)).bind fun parsed => .ok (parsed.1, parsed.2.getASTOfRHS))
      = .ok (true, [Node.leaf '1', Node.leaf 'b'])
    ∧ ((execute (new "a=(b)c".toList)).bind fun parsed => .ok (parsed.1, parsed.2.getASTOfRHS))
      = .ok (true, [Node.leaf 'c', Node.leaf 'b'])
    ∧ ((execute (new "a=b(c)".toList)).bind fun parsed => .ok (parsed.1, parsed.2.getASTOfRHS))
      = .ok (true, [Node.leaf 'c', Node.leaf 'b'])
    ∧ ((execute (new "a=(b)(c)".toList)).bind fun parsed =>
        .ok (parsed.1, parsed.2.getASTOfRHS))
      = .ok (true, [Node.leaf 'c', Node.leaf 'b']) := by
  refine ⟨rfl, rfl, rfl, rfl, rfl⟩

/-- C30 at its failing inputs: `validateRHS` accepts `()+b`, and the reduction of `+` then
finds the single node `b` and reads the top of the emptied node stack; `validateRHS` accepts
`))b((c`, and the last loop of `createASTforRHS` then builds a node whose operator is `(`. -/
theorem createASTforRHS_reduces_without_operands :
    (validateRHS { mRHSString := "()+b".toList, mInputString := [] }).1 = true
    ∧ createASTforRHS (validateRHS { mRHSString := "()+b".toList, mInputString := [] }).2
      = .undefined
    ∧ execute (new "a=()+b".toList) = .undefined
    ∧ (validateRHS { mRHSString := "))b((c".toList, mInputString := [] }).1 = true
    ∧ ((execute (new "a=))b((c".toList)).bind fun parsed =>
        .ok (parsed.1, parsed.2.getASTOfRHS))
      = .ok (true, [Node.node '(' (Node.leaf 'b') (Node.leaf 'c')]) := by
  refine ⟨rfl, rfl, rfl, rfl, rfl⟩

end Parser

namespace Evaluator

/-- C28. A division node keeps its quotient as a binary32 value, it is not truncated where
it occurs: the value of `/(7, 2)` inside a tree is `7/2` and that of `/(1, 2)` is `1/2`; only
the value of the whole tree is converted to an integer (`/(7, 2)` alone evaluates to `3`).
So the tree `*( /(7, 2), 2)` evaluates to `7`, where a division truncated at its node would
give `6`, the tree `+( /(1, 2), /(1, 2) )` to `1`, not `0`, the tree `*( /(1, 2), 4)` to `2`,
not `0`, and the tree `/(9, /(3, 2))` to `6`, not `9`; the first two trees are those the
parser builds for `7/2*2` and `1/2+1/2`. -/
theorem division_not_truncated_per_node :
    execute (.node '*' (.node '/' (.leaf '7') (.leaf '2')) (.leaf '2')) (fun _ => none)
      = .ok (.integer 7)
    ∧ nodewiseIntegerValue (fun _ => none)
        (.node '*' (.node '/' (.leaf '7') (.leaf '2')) (.leaf '2')) = 6
    ∧ execute (.node '+' (.node '/' (.leaf '1') (.leaf '2')) (.node '/' (.leaf '1') (.leaf '2')))
        (fun _ => none) = .ok (.integer 1)
    ∧ nodewiseIntegerValue (fun _ => none)
        (.node '+' (.node '/' (.leaf '1') (.leaf '2')) (.node '/' (.leaf '1') (.leaf '2'))) = 0
    ∧ ((Calculator.Runner.processAll 1 {} ["a=7/2*2".toList, "b=1/2+1/2".toList]).bind
        fun r => .ok (r.1, r.2.mState.mExpressionsWithDependenciesMap ['a']))
      = .ok ([["a = 7".toList], ["b = 1".toList]], none)
    ∧ ((Parser.execute (Parser.new "a=7/2*2".toList)).bind fun parsed =>
        .ok (parsed.1, parsed.2.getASTOfRHS))
      = .ok (true, [.node '*' (.node '/' (.leaf '7') (.leaf '2')) (.leaf '2')])
    ∧ ((Parser.execute (Parser.new "b=1/2+1/2".toList)).bind fun parsed =>
        .ok (parsed.1, parsed.2.getASTOfRHS))
      = .ok (true,
          [.node '+' (.node '/' (.leaf '1') (.leaf '2')) (.node '/' (.leaf '1') (.leaf '2'))])
    ∧ (∀ (lookup : Str → Option Int) (l r : Node),
        floatValue lookup (.node '/' l r) = F32.div (floatValue lookup l) (floatValue lookup r))
    ∧ (floatValue (fun _ => none) (.node '/' (.leaf '7') (.leaf '2'))).toRat = 7 / 2
    ∧ (floatValue (fun _ => none) (.node '/' (.leaf '1') (.leaf '2'))).toRat = 1 / 2
    ∧ execute (.node '/' (.leaf '7') (.leaf '2')) (fun _ => none) = .ok (.integer 3)
    ∧ execute (.node '*' (.node '/' (.leaf '1') (.leaf '2')) (.leaf '4')) (fun _ => none)
      = .ok (.integer 2)
    ∧ nodewiseIntegerValue (fun _ => none)
        (.node '*' (.node '/' (.leaf '1') (.leaf '2')) (.leaf '4')) = 0
    ∧ execute (.node '/' (.leaf '9') (.node '/' (.leaf '3') (.leaf '2'))) (fun _ => none)
      = .ok (.integer 6)
    ∧ nodewiseIntegerValue (fun _ => none)
        (.node '/' (.leaf '9') (.node '/' (.leaf '3') (.leaf '2'))) = 9
    ∧ ((Calculator.Runner.processAll 1 {} ["a=1/2*4".toList, "b=7/2".toList,
          "c=9/(3/2)".toList]).bind fun r => .ok r.1)
      = .ok [["a = 2".toList], ["b = 3".toList], ["c = 6".toList]] := by
  have h72 : floatValue (fun _ => none) (.node '/' (.leaf '7') (.leaf '2'))
      = F32.finite false 14680064 (-22) := by decide
  have h12 : floatValue (fun _ => none) (.node '/' (.leaf '1') (.leaf '2'))
      = F32.finite false 8388608 (-24) := by decide
  refine ⟨by decide, by decide, by decide, by decide, rfl, rfl, rfl, fun lookup l r => rfl,
    ?_, ?_, by decide, by decide, by decide, by decide, by decide, by decide⟩
  · rw [h72]
    simp only [F32.toRat]
    norm_num
  · rw [h12]
    simp only [F32.toRat]
    norm_num

end Evaluator

/-! ## What the validation loop rejects -/

namespace Utils.Methods

theorem splitAux_at_delimiter (d : Char) (l1 l2 cur : Str) (h : d ∉ l1) :
    splitAux d (l1 ++ d :: l2) cur = (cur.reverse ++ l1) :: splitAux d l2 [] := by
  induction l1 generalizing cur with
  | nil => simp [splitAux]
  | cons c cs ih =>
    have hc : c ≠ d := fun e => h (by simp [e])
    have hcs : d ∉ cs := fun e => h (List.mem_cons_of_mem _ e)
    simp [splitAux, hc, ih _ hcs]

theorem splitAux_length (d : Char) (l cur : Str) :
    (splitAux d l cur).length = 1 + l.count d := by
  induction l generalizing cur with
  | nil => simp [splitAux]
  | cons c cs ih =>
    by_cases hc : c = d
    · subst hc
      simp [splitAux, ih]
      omega
    · have hc' : ¬ (c == d) = true := by simpa using hc
      simp [splitAux, hc, ih, List.count_cons, hc']

theorem splitString_eq_splitAux (l : Str) (d : Char) (h : l ≠ []) :
    splitString l d = splitAux d l [] := by
  cases l with
  | nil => exact absurd rfl h
  | cons c cs => rfl

end Utils.Methods

namespace Parser

open Utils.Constants Utils.Methods

/-- A line whose stripped form is `lhs=rhs`, with no `=` in `lhs` and `rhs` failing the
validation, is rejected. -/
theorem execute_false_of_rhs (s lhs rhs : Str)
    (hs : removeWhiteSpacesFromString s = lhs ++ '=' :: rhs) (hl : '=' ∉ lhs)
    (hv : ∀ p : Parser, p.mRHSString = rhs → (validateRHS p).1 = false) :
    ∃ p, execute (new s) = .ok (false, p) := by
  have hne : lhs ++ '=' :: rhs ≠ [] := by simp
  have hsplit : splitString (lhs ++ '=' :: rhs) cAssignOp = lhs :: splitAux '=' rhs [] := by
    rw [splitString_eq_splitAux _ _ hne]
    exact splitAux_at_delimiter '=' lhs rhs [] hl
  simp only [execute, new, hs, hsplit]
  split
  · exact ⟨_, rfl⟩
  · rename_i hlen
    have hcount : rhs.count '=' = 0 := by
      have := splitAux_length '=' rhs []
      simp only [List.length_cons, ne_eq, not_not] at hlen
      omega
    have hr : '=' ∉ rhs := List.count_eq_zero.mp hcount
    rw [splitAux_not_mem '=' rhs [] hr]
    simp only [List.reverse_nil, List.nil_append, List.head?_cons, Option.getD_some,
      List.getLast?_cons_cons, List.getLast?_singleton]
    split
    · simp only [parseRHS]
      rw [hv _ rfl]
      exact ⟨_, rfl⟩
    · exact ⟨_, rfl⟩

theorem validateRHS_false_of_loop (p : Parser)
    (h : validateLoop p.mRHSString [cLeftParenthesis] 0 0 = none) : (validateRHS p).1 = false := by
  simp only [validateRHS, h]
  split <;> rfl

/-- The validation loop on a string cut in two. -/
theorem validateLoop_append (s1 s2 : Str) :
    ∀ (v : Str) (l r : Nat),
      validateLoop (s1 ++ s2) v l r
        = (validateLoop s1 v l r).bind fun t => validateLoop s2 t.1 t.2.1 t.2.2 := by
  induction s1 with
  | nil => intro v l r; simp [validateLoop]
  | cons c cs ih =>
    intro v l r
    simp only [List.cons_append, validateLoop]
    split_ifs <;> simp [ih]

/-- The string the validation loop has built is the one it started from followed by the
characters it read. -/
theorem validateLoop_validated (s : Str) :
    ∀ (v : Str) (l r : Nat) (v1 : Str) (l1 r1 : Nat),
      validateLoop s v l r = some (v1, l1, r1) → v1 = v ++ s := by
  induction s with
  | nil =>
    intro v l r v1 l1 r1 h
    simp only [validateLoop, Option.some.injEq, Prod.mk.injEq] at h
    simp [h.1]
  | cons c cs ih =>
    intro v l r v1 l1 r1 h
    simp only [validateLoop] at h
    split_ifs at h <;> first
      | exact absurd h (by simp)
      | simpa using ih _ _ _ _ _ _ h

/-- A character that the loop rejects after the character before it makes the loop fail,
wherever it stands. -/
theorem validateLoop_reject_at (pre post : Str) (prev c : Char) (v : Str) (l r : Nat)
    (hbad : ∀ (init : Str) (l1 r1 : Nat),
      validateLoop (c :: post) (init ++ [prev]) l1 r1 = none) :
    validateLoop (pre ++ prev :: c :: post) v l r = none := by
  have e : pre ++ prev :: c :: post = (pre ++ [prev]) ++ (c :: post) := by simp
  rw [e, validateLoop_append]
  cases h : validateLoop (pre ++ [prev]) v l r with
  | none => rfl
  | some t =>
    obtain ⟨v1, l1, r1⟩ := t
    have hv := validateLoop_validated _ _ _ _ _ _ _ h
    subst hv
    simp only [Option.bind]
    rw [← List.append_assoc]
    exact hbad _ _ _

end Parser

namespace Parser

open Utils.Constants Utils.Methods

theorem digit_facts (c : Char) (hc : isdigit c = true) :
    isOperator c = false ∧ isParenthesis c = false ∧ isalpha c = false := by
  have ho : isOperand c = true := by simp [isOperand, hc]
  refine ⟨operand_not_operator c ho, operand_not_parenthesis c ho, ?_⟩
  simp only [isdigit, Bool.and_eq_true, decide_eq_true_eq] at hc
  simp only [isalpha, Bool.or_eq_false_iff, Bool.and_eq_false_iff, decide_eq_false_iff_not]
  have h0 : '0'.toNat = 48 := by decide
  have h9 : '9'.toNat = 57 := by decide
  have ha : 'a'.toNat = 97 := by decide
  have hz : 'z'.toNat = 122 := by decide
  have hA : 'A'.toNat = 65 := by decide
  have hZ : 'Z'.toNat = 90 := by decide
  rw [h0, h9] at hc
  rw [ha, hz, hA, hZ]
  omega

theorem operator_not_digit (c : Char) (hc : isOperator c = true) : isdigit c = false := by
  rcases isOperator_cases c hc with h | h | h | h <;> subst h <;> decide

/-- A digit that follows a digit stops the validation loop. -/
theorem validateLoop_digit_digit (d1 d2 : Char) (post init : Str) (l r : Nat)
    (h1 : isdigit d1 = true) (h2 : isdigit d2 = true) :
    validateLoop (d2 :: post) (init ++ [d1]) l r = none := by
  obtain ⟨ho, hp, ha⟩ := digit_facts d2 h2
  simp [validateLoop, isSingleDigitInteger, h1, h2, ho, hp, ha]

/-- An operator that follows an operator or a left parenthesis stops the validation loop. -/
theorem validateLoop_operator_misplaced (c o : Char) (post init : Str) (l r : Nat)
    (ho : isOperator o = true) (hc : isOperator c = true ∨ c = '(') :
    validateLoop (o :: post) (init ++ [c]) l r = none := by
  have hd := operator_not_digit o ho
  rcases hc with h | h
  · simp [validateLoop, isSingleDigitInteger, hd, ho, h]
  · simp [validateLoop, isSingleDigitInteger, hd, ho, h, cLeftParenthesis]

theorem parenthesis_facts (c : Char) (hc : isParenthesis c = true) :
    (c = '(' ∨ c = ')') ∧ isdigit c = false ∧ isOperator c = false := by
  have h : c = '(' ∨ c = ')' := by
    simpa [isParenthesis, cLeftParenthesis, cRightParenthesis] using hc
  refine ⟨h, ?_, ?_⟩ <;> rcases h with e | e <;> subst e <;> decide

/-- The counters of the validation loop count the parentheses read. -/
theorem validateLoop_counts (s : Str) :
    ∀ (v : Str) (l r : Nat) (v1 : Str) (l1 r1 : Nat),
      validateLoop s v l r = some (v1, l1, r1) →
      l1 = l + s.count '(' ∧ r1 = r + s.count ')' := by
  induction s with
  | nil =>
    intro v l r v1 l1 r1 h
    simp only [validateLoop, Option.some.injEq, Prod.mk.injEq] at h
    simp [h.2.1, h.2.2]
  | cons c cs ih =>
    intro v l r v1 l1 r1 h
    by_cases hpar : isParenthesis c = true
    · obtain ⟨hc, hd, ho⟩ := parenthesis_facts c hpar
      simp only [validateLoop, isSingleDigitInteger, hd, Bool.and_false, Bool.false_eq_true,
        if_false, ho, hpar, if_true] at h
      split at h
      · exact absurd h (by simp)
      · obtain ⟨e1, e2⟩ := ih _ _ _ _ _ _ h
        rcases hc with e | e
        · subst e
          simp only [cLeftParenthesis, if_true] at e1 e2
          simp only [List.count_cons_self]
          have : List.count ')' ('(' :: cs) = List.count ')' cs := by
            simp [List.count_cons]
          rw [this]
          omega
        · subst e
          have e3 : ¬ (')' = cLeftParenthesis) := by decide
          simp only [cRightParenthesis, e3, if_true, if_false] at e1 e2
          simp only [List.count_cons_self]
          have : List.count '(' (')' :: cs) = List.count '(' cs := by
            simp [List.count_cons]
          rw [this]
          omega
    · have hc1 : c ≠ '(' := by intro e; subst e; exact hpar (by decide)
      have hc2 : c ≠ ')' := by intro e; subst e; exact hpar (by decide)
      have hcount : List.count '(' (c :: cs) = List.count '(' cs
          ∧ List.count ')' (c :: cs) = List.count ')' cs := by
        constructor <;> simp [List.count_cons, hc1, hc2]
      rw [hcount.1, hcount.2]
      simp only [validateLoop, hpar, Bool.false_eq_true, if_false] at h
      split_ifs at h <;> first
        | exact absurd h (by simp)
        | exact ih _ _ _ _ _ _ h

end Parser

namespace Parser

open Utils.Constants Utils.Methods

theorem validateRHS_false_of_last (p : Parser) (pre : Str) (o : Char)
    (h : p.mRHSString = pre ++ [o]) (ho : isOperator o = true) : (validateRHS p).1 = false := by
  simp only [validateRHS]
  split
  · rfl
  · cases hloop : validateLoop p.mRHSString [cLeftParenthesis] 0 0 with
    | none => rfl
    | some t =>
      obtain ⟨v1, l1, r1⟩ := t
      have hv := validateLoop_validated _ _ _ _ _ _ _ hloop
      have hlast : isOperator (v1.getLast?.getD cLeftParenthesis) = true := by
        rw [hv, h, ← List.append_assoc, List.getLast?_concat]
        exact ho
      simp only [hlast, if_true]
      split <;> rfl

theorem validateRHS_false_of_counts (p : Parser)
    (h : p.mRHSString.count '(' ≠ p.mRHSString.count ')') : (validateRHS p).1 = false := by
  simp only [validateRHS]
  split
  · rfl
  · cases hloop : validateLoop p.mRHSString [cLeftParenthesis] 0 0 with
    | none => rfl
    | some t =>
      obtain ⟨v1, l1, r1⟩ := t
      obtain ⟨e1, e2⟩ := validateLoop_counts _ _ _ _ _ _ _ hloop
      have hne : l1 ≠ r1 := by omega
      simp only [hne, ne_eq, not_false_eq_true, if_true]

/-- C22. A line whose right-hand side, after white-space removal, has two adjacent decimal
digits is rejected by `Parser::execute`. -/
theorem execute_rejects_adjacent_digits (s lhs pre post : Str) (d1 d2 : Char)
    (hs : removeWhiteSpacesFromString s = lhs ++ '=' :: (pre ++ d1 :: d2 :: post))
    (hl : '=' ∉ lhs) (h1 : isdigit d1 = true) (h2 : isdigit d2 = true) :
    ∃ p, execute (new s) = .ok (false, p) := by
  apply execute_false_of_rhs s lhs _ hs hl
  intro p hp
  apply validateRHS_false_of_loop
  rw [hp]
  exact validateLoop_reject_at pre post d1 d2 _ 0 0
    fun init l r => validateLoop_digit_digit d1 d2 post init l r h1 h2

/-- C22 on the lines `a = 42` and `d = 10  +  1` of the unit test. -/
theorem execute_rejects_adjacent_digits_witness :
    (∃ p, execute (new "a = 42".toList) = .ok (false, p))
    ∧ ∃ p, execute (new "d = 10  +  1".toList) = .ok (false, p) :=
  ⟨execute_rejects_adjacent_digits "a = 42".toList ['a'] [] [] '4' '2' rfl (by decide)
      (by decide) (by decide),
    execute_rejects_adjacent_digits "d = 10  +  1".toList ['d'] [] "+1".toList '1' '0' rfl
      (by decide) (by decide) (by decide)⟩

/-- C23. A line whose right-hand side, after white-space removal, has a `-` as its first
character, directly after a `(` or directly after another operator is rejected by
`Parser::execute`. -/
theorem execute_rejects_unary_minus (s lhs rhs : Str)
    (hs : removeWhiteSpacesFromString s = lhs ++ '=' :: rhs) (hl : '=' ∉ lhs)
    (h : (∃ post, rhs = '-' :: post)
      ∨ (∃ pre post, rhs = pre ++ '(' :: '-' :: post)
      ∨ ∃ pre post o, isOperator o = true ∧ rhs = pre ++ o :: '-' :: post) :
    ∃ p, execute (new s) = .ok (false, p) := by
  apply execute_false_of_rhs s lhs rhs hs hl
  intro p hp
  apply validateRHS_false_of_loop
  rw [hp]
  have hm : isOperator '-' = true := by decide
  rcases h with ⟨post, e⟩ | ⟨pre, post, e⟩ | ⟨pre, post, o, ho, e⟩
  · rw [e]
    exact validateLoop_operator_misplaced '(' '-' post [] 0 0 hm (Or.inr rfl)
  · rw [e]
    exact validateLoop_reject_at pre post '(' '-' _ 0 0
      fun init l r => validateLoop_operator_misplaced '(' '-' post init l r hm (Or.inr rfl)
  · rw [e]
    exact validateLoop_reject_at pre post o '-' _ 0 0
      fun init l r => validateLoop_operator_misplaced o '-' post init l r hm (Or.inl ho)

/-- C23 on the lines `a = -1`, `c = 2+(-3*2)` and `e = -(2*3)` of the unit test, and on
`b = 2*-3`. -/
theorem execute_rejects_unary_minus_witness :
    (∃ p, execute (new "a = -1".toList) = .ok (false, p))
    ∧ (∃ p, execute (new "c = 2+(-3*2)".toList) = .ok (false, p))
    ∧ (∃ p, execute (new "e = -(2*3)".toList) = .ok (false, p))
    ∧ ∃ p, execute (new "b = 2*-3".toList) = .ok (false, p) :=
  ⟨execute_rejects_unary_minus "a = -1".toList ['a'] "-1".toList rfl (by decide)
      (Or.inl ⟨['1'], rfl⟩),
    execute_rejects_unary_minus "c = 2+(-3*2)".toList ['c'] "2+(-3*2)".toList rfl (by decide)
      (Or.inr (Or.inl ⟨"2+".toList, "3*2)".toList, rfl⟩)),
    execute_rejects_unary_minus "e = -(2*3)".toList ['e'] "-(2*3)".toList rfl (by decide)
      (Or.inl ⟨"(2*3)".toList, rfl⟩),
    execute_rejects_unary_minus "b = 2*-3".toList ['b'] "2*-3".toList rfl (by decide)
      (Or.inr (Or.inr ⟨['2'], ['3'], '*', by decide, rfl⟩))⟩

/-- C24. A line whose right-hand side holds a different number of `(` and `)` is rejected by
`Parser::execute`. The two counters of the code are 32 bits wide: on a right-hand side
shorter than `2^32` characters they hold the two numbers themselves, which differ. -/
theorem execute_rejects_unbalanced (s lhs rhs : Str)
    (hs : removeWhiteSpacesFromString s = lhs ++ '=' :: rhs) (hl : '=' ∉ lhs)
    (hlen : rhs.length < 2 ^ 32) (h : rhs.count '(' ≠ rhs.count ')') :
    rhs.count '(' % 2 ^ 32 ≠ rhs.count ')' % 2 ^ 32
    ∧ ∃ p, execute (new s) = .ok (false, p) := by
  have hmod : rhs.count '(' % 2 ^ 32 ≠ rhs.count ')' % 2 ^ 32 := by
    have h1 : rhs.count '(' ≤ rhs.length := List.count_le_length _ _
    have h2 : rhs.count ')' ≤ rhs.length := List.count_le_length _ _
    rw [Nat.mod_eq_of_lt (by omega), Nat.mod_eq_of_lt (by omega)]
    exact h
  refine ⟨hmod, ?_⟩
  apply execute_false_of_rhs s lhs rhs hs hl
  intro p hp
  apply validateRHS_false_of_counts
  rw [hp]
  exact h

/-- C24 on the lines `a = (1+2))` and `b = (3*  3` of the unit test. -/
theorem execute_rejects_unbalanced_witness :
    (∃ p, execute (new "a = (1+2))".toList) = .ok (false, p))
    ∧ ∃ p, execute (new "b = (3*  3".toList) = .ok (false, p) :=
  ⟨(execute_rejects_unbalanced "a = (1+2))".toList ['a'] "(1+2))".toList rfl (by decide)
      (by decide) (by decide)).2,
    (execute_rejects_unbalanced "b = (3*  3".toList ['b'] "(3*3".toList rfl (by decide)
      (by decide) (by decide)).2⟩

/-- C27. A line whose right-hand side, after white-space removal, starts with a binary
operator, has a binary operator directly after another operator or after a `(`, or ends with
a binary operator is rejected by `Parser::execute`. -/
theorem execute_rejects_misplaced_operator (s lhs rhs : Str)
    (hs : removeWhiteSpacesFromString s = lhs ++ '=' :: rhs) (hl : '=' ∉ lhs)
    (h : (∃ o post, isOperator o = true ∧ rhs = o :: post)
      ∨ (∃ pre post c o, isOperator o = true ∧ (isOperator c = true ∨ c = '(')
          ∧ rhs = pre ++ c :: o :: post)
      ∨ ∃ pre o, isOperator o = true ∧ rhs = pre ++ [o]) :
    ∃ p, execute (new s) = .ok (false, p) := by
  apply execute_false_of_rhs s lhs rhs hs hl
  intro p hp
  rcases h with ⟨o, post, ho, e⟩ | ⟨pre, post, c, o, ho, hc, e⟩ | ⟨pre, o, ho, e⟩
  · apply validateRHS_false_of_loop
    rw [hp, e]
    exact validateLoop_operator_misplaced '(' o post [] 0 0 ho (Or.inr rfl)
  · apply validateRHS_false_of_loop
    rw [hp, e]
    exact validateLoop_reject_at pre post c o _ 0 0
      fun init l r => validateLoop_operator_misplaced c o post init l r ho hc
  · exact validateRHS_false_of_last p pre o (hp.trans e) ho

/-- C27 on the lines ` a = (4 +* 5 - (7 - 3)) - 2`, `c = *(4+5)-3` and `e = 1-3+3/7+` of the
unit test. -/
theorem execute_rejects_misplaced_operator_witness :
    (∃ p, execute (new " a = (4 +* 5 - (7 - 3)) - 2".toList) = .ok (false, p))
    ∧ (∃ p, execute (new "c = *(4+5)-3".toList) = .ok (false, p))
    ∧ ∃ p, execute (new "e = 1-3+3/7+".toList) = .ok (false, p) :=
  ⟨execute_rejects_misplaced_operator " a = (4 +* 5 - (7 - 3)) - 2".toList ['a']
      "(4+*5-(7-3))-2".toList rfl (by decide)
      (Or.inr (Or.inl ⟨"(4".toList, "5-(7-3))-2".toList, '+', '*', by decide,
        Or.inl (by decide), rfl⟩)),
    execute_rejects_misplaced_operator "c = *(4+5)-3".toList ['c'] "*(4+5)-3".toList rfl
      (by decide) (Or.inl ⟨'*', "(4+5)-3".toList, by decide, rfl⟩),
    execute_rejects_misplaced_operator "e = 1-3+3/7+".toList ['e'] "1-3+3/7+".toList rfl
      (by decide) (Or.inr (Or.inr ⟨"1-3+3/7".toList, '+', by decide, rfl⟩))⟩

end Parser

/-! ## Well-formed expressions -/

namespace AST.Node

theorem isExpression_ne_nil (t : Node) (h : t.isExpression = true) : t ≠ nil := by
  intro e
  subst e
  simp [isExpression] at h

theorem isExpression_leaf (c : Char) (h : isOperand c = true) :
    (Node.leaf c).isExpression = true := by
  simpa [Node.leaf, isExpression, isOperand] using h

theorem isExpression_node (o : Char) (l r : Node) (ho : Parser.isOperator o = true)
    (hl : l.isExpression = true) (hr : r.isExpression = true) :
    (node o l r).isExpression = true := by
  cases l with
  | nil => simp [isExpression] at hl
  | node c a b => simp [isExpression, ho, hl, hr]

theorem leafChars_leaf (c : Char) : (Node.leaf c).leafChars = [c] := rfl

theorem internalCount_leaf (c : Char) : (Node.leaf c).internalCount = 0 := rfl

theorem leafChars_node (o : Char) (l r : Node) (hl : l ≠ nil) :
    (node o l r).leafChars = l.leafChars ++ r.leafChars := by
  cases l with
  | nil => exact absurd rfl hl
  | node c a b => simp [leafChars]

theorem internalCount_node (o : Char) (l r : Node) (hl : l ≠ nil) :
    (node o l r).internalCount = 1 + l.internalCount + r.internalCount := by
  cases l with
  | nil => exact absurd rfl hl
  | node c a b => simp [internalCount]

theorem leafCount_eq (t : Node) : t.leafCount = t.leafChars.length := by
  induction t with
  | nil => rfl
  | node c l r ihl ihr =>
    cases l with
    | nil =>
      cases r with
      | nil => rfl
      | node d a b =>
        simp only [leafCount, leafChars, List.length_append] at ihl ihr ⊢
        omega
    | node d a b =>
      simp only [leafCount, leafChars, List.length_append] at ihl ihr ⊢
      omega

end AST.Node

namespace Parser

open Utils.Constants Utils.Methods

theorem operator_not_operand (c : Char) (hc : isOperator c = true) : isOperand c = false := by
  rcases isOperator_cases c hc with h | h | h | h <;> subst h <;> decide

theorem scanInfix_append (s1 s2 : Str) :
    ∀ (a : Bool) (d : Nat),
      scanInfix (s1 ++ s2) a d = (scanInfix s1 a d).bind fun t => scanInfix s2 t.1 t.2 := by
  induction s1 with
  | nil => intro a d; simp [scanInfix]
  | cons c cs ih =>
    intro a d
    simp only [List.cons_append, scanInfix]
    split_ifs <;> first
      | rfl
      | exact ih _ _
      | (cases d with
          | zero => rfl
          | succ n => exact ih _ _)

/-- A well-formed expression is read through, from before an operand to after one, at the
depth it started from. -/
theorem scanInfix_wellFormed (E : Str) (h : WellFormed E) :
    ∀ d, scanInfix E false d = some (true, d) := by
  induction h with
  | operand c hc => intro d; simp [scanInfix, hc]
  | binary e1 e2 op _ hop _ ih1 ih2 =>
    intro d
    have ho := operator_not_operand op hop
    rw [scanInfix_append, ih1 d]
    simp [scanInfix, ho, hop, ih2 d]
  | paren e _ ih =>
    intro d
    have e1 : isOperand '(' = false := by decide
    have e2 : isOperator '(' = false := by decide
    have e3 : isOperand ')' = false := by decide
    have e4 : isOperator ')' = false := by decide
    simp only [scanInfix, e1, e2, Bool.false_eq_true, if_false, if_true]
    change scanInfix (e ++ [')']) false (d + 1) = some (true, d)
    rw [scanInfix_append, ih (d + 1)]
    simp [scanInfix, e3, e4]

theorem wellFormed_chars (E : Str) (h : WellFormed E) :
    E ≠ [] ∧ ∀ c ∈ E, c ≠ '=' := by
  induction h with
  | operand c hc =>
    refine ⟨by simp, ?_⟩
    intro x hx
    simp only [List.mem_singleton] at hx
    subst hx
    exact operand_ne x '=' hc (by decide)
  | binary e1 e2 op _ hop _ ih1 ih2 =>
    refine ⟨by simp, ?_⟩
    intro x hx
    rcases List.mem_append.mp hx with h1 | h1
    · exact ih1.2 x h1
    · rcases List.mem_cons.mp h1 with h2 | h2
      · subst h2
        rcases isOperator_cases x hop with h | h | h | h <;> subst h <;> decide
      · exact ih2.2 x h2
  | paren e _ ih =>
    refine ⟨by simp, ?_⟩
    intro x hx
    rcases List.mem_cons.mp hx with h1 | h1
    · subst h1; decide
    · rcases List.mem_append.mp h1 with h2 | h2
      · exact ih.2 x h2
      · simp only [List.mem_singleton] at h2
        subst h2; decide

end Parser

namespace Parser

open Utils.Constants Utils.Methods

/-- A reduction loop that stops at a left parenthesis, run on stacks that hold one tree more
than arithmetic operators: it pops arithmetic operators only, finds two trees for each and
keeps the leaves in order. -/
theorem generateWhile_inv (cond : Char → Bool) (hcond : cond '(' = false) (X : List Char) :
    ∀ (values : List Node),
      (∀ c ∈ X, c = '(' ∨ isOperator c = true) →
      values.length = (X.filter isOperator).length + 1 →
      (∀ t ∈ values, t.isExpression = true) →
      ∃ P X1 values1, X = P ++ X1 ∧ (∀ c ∈ P, isOperator c = true)
        ∧ generateWhile cond (X ++ ['(']) values = .ok (X1 ++ ['('], values1)
        ∧ values1.length = (X1.filter isOperator).length + 1
        ∧ (∀ t ∈ values1, t.isExpression = true)
        ∧ stackLeaves values1 = stackLeaves values
        ∧ stackInternal values1 = stackInternal values + P.length
        ∧ ∀ c X2, X1 = c :: X2 → cond c = false := by
  induction X with
  | nil =>
    intro values _ hlen hexp
    refine ⟨[], [], values, rfl, by simp, ?_, hlen, hexp, rfl, by simp, by simp⟩
    simp [generateWhile, hcond]
  | cons o X1 ih =>
    intro values hX hlen hexp
    cases hc : cond o with
    | false =>
      refine ⟨[], o :: X1, values, rfl, by simp, ?_, hlen, hexp, rfl, by simp, ?_⟩
      · simp [generateWhile, hc]
      · intro c X2 e
        injection e with e1 _
        rw [← e1]
        exact hc
    | true =>
      have ho : isOperator o = true := by
        rcases hX o (List.mem_cons_self _ _) with e | e
        · subst e
          rw [hcond] at hc
          exact Bool.noConfusion hc
        · exact e
      have hlen1 : values.length = (X1.filter isOperator).length + 2 := by
        simp only [List.filter_cons, ho, if_true, List.length_cons] at hlen
        omega
      obtain ⟨r, l, vs, hvs⟩ : ∃ r l vs, values = r :: l :: vs := by
        match values, hlen1 with
        | r :: l :: vs, _ => exact ⟨r, l, vs, rfl⟩
        | [_], h => simp at h
        | [], h => simp at h
      subst hvs
      have hr := hexp r (by simp)
      have hl := hexp l (by simp)
      have hnode := Node.isExpression_node o l r ho hl hr
      obtain ⟨P, X2, values1, e, hP, hg, hlen2, hexp2, hleaves, hint, hstop⟩ :=
        ih (Node.node o l r :: vs) (fun c hc => hX c (List.mem_cons_of_mem _ hc))
          (by simp only [List.length_cons] at hlen1 ⊢; omega)
          (by
            intro t ht
            rcases List.mem_cons.mp ht with e | e
            · subst e; exact hnode
            · exact hexp t (by simp [e]))
      refine ⟨o :: P, X2, values1, by simp [e], ?_, ?_, hlen2, hexp2, ?_, ?_, hstop⟩
      · intro c hc
        rcases List.mem_cons.mp hc with e1 | e1
        · subst e1; exact ho
        · exact hP c e1
      · simp only [List.cons_append]
        rw [generateWhile_reduce _ _ _ _ _ _ hc]
        exact hg
      · rw [hleaves]
        simp [stackLeaves, Node.leafChars_node o l r (Node.isExpression_ne_nil l hl),
          List.append_assoc]
      · rw [hint]
        simp only [stackInternal, Node.internalCount_node o l r (Node.isExpression_ne_nil l hl),
          List.length_cons]
        omega

end Parser

namespace Parser

open Utils.Constants Utils.Methods

theorem operators_count (P : List Char) (hP : ∀ c ∈ P, isOperator c = true) :
    P.count '(' = 0 ∧ P.filter isOperator = P := by
  constructor
  · apply List.count_eq_zero.mpr
    intro h
    exact absurd (hP _ h) (by decide)
  · exact List.filter_eq_self.mpr hP

/-- The construction loop over a stretch of an infix expression that is read through: it
returns, keeps the stacks in the shape `StackInv`, adds the operands read to the leaves of
the node stack, in order, and one internal node or stacked operator for each operator read. -/
theorem createLoop_scan (E : Str) :
    ∀ (a : Bool) (d : Nat) (a1 : Bool) (d1 : Nat) (X : List Char) (values : List Node)
      (rest : Str),
      scanInfix E a d = some (a1, d1) → StackInv a d X values →
      ∃ X1 values1,
        createLoop (E ++ rest) (X ++ ['(']) values = createLoop rest (X1 ++ ['(']) values1
        ∧ StackInv a1 d1 X1 values1
        ∧ stackLeaves values1 = stackLeaves values ++ E.filter isOperand
        ∧ stackInternal values1 + (X1.filter isOperator).length
          = stackInternal values + (X.filter isOperator).length
            + (E.filter isOperator).length := by
  induction E with
  | nil =>
    intro a d a1 d1 X values rest hscan hinv
    simp only [scanInfix, Option.some.injEq, Prod.mk.injEq] at hscan
    obtain ⟨e1, e2⟩ := hscan
    subst e1; subst e2
    exact ⟨X, values, rfl, hinv, by simp, by simp⟩
  | cons c E ih =>
    intro a d a1 d1 X values rest hscan hinv
    obtain ⟨hcount, hchars, hlen, hexp⟩ := hinv
    simp only [scanInfix] at hscan
    cases hopd : isOperand c with
    | true =>
      simp only [hopd, if_true] at hscan
      cases a with
      | true => simp at hscan
      | false =>
        simp only [Bool.false_eq_true, if_false] at hscan
        have hnotop := operand_not_operator c hopd
        obtain ⟨X1, values1, hc, hinv1, hl, hi⟩ :=
          ih true d a1 d1 X (Node.leaf c :: values) rest hscan
            ⟨hcount, hchars, by simpa using hlen, by
              intro t ht
              rcases List.mem_cons.mp ht with e | e
              · subst e; exact Node.isExpression_leaf c hopd
              · exact hexp t e⟩
        refine ⟨X1, values1, ?_, hinv1, ?_, ?_⟩
        · rw [List.cons_append, createLoop_operand c _ _ _ hopd]
          exact hc
        · rw [hl]
          simp [stackLeaves, Node.leafChars_leaf, List.filter_cons, hopd]
        · rw [hi]
          simp [stackInternal, Node.internalCount_leaf, List.filter_cons, hnotop]
    | false =>
      simp only [hopd, Bool.false_eq_true, if_false] at hscan
      cases hop : isOperator c with
      | true =>
        simp only [hop, if_true] at hscan
        cases a with
        | false => simp at hscan
        | true =>
          simp only [if_true] at hscan
          have hcond : (fun top => decide (operatorPrecedence c ≤ operatorPrecedence top)) '('
              = false := by
            rcases isOperator_cases c hop with h | h | h | h <;> subst h <;> decide
          obtain ⟨P, X1, values1, e, hP, hg, hlen1, hexp1, hleaves, hint, _⟩ :=
            generateWhile_inv
              (fun top => decide (operatorPrecedence c ≤ operatorPrecedence top)) hcond X values
              hchars (by simpa using hlen) hexp
          obtain ⟨hP0, hPf⟩ := operators_count P hP
          have hcne : c ≠ '(' := by
            intro e
            subst e
            exact absurd hop (by decide)
          have hX1count : X1.count '(' = d := by
            rw [e, List.count_append, hP0] at hcount
            omega
          obtain ⟨X2, values2, hc, hinv2, hl, hi⟩ :=
            ih false d a1 d1 (c :: X1) values1 rest hscan
              ⟨by simpa [List.count_cons, hcne] using hX1count,
                by
                  intro x hx
                  rcases List.mem_cons.mp hx with e1 | e1
                  · subst e1; exact Or.inr hop
                  · exact hchars x (by rw [e]; exact List.mem_append_right _ e1),
                by simpa [List.filter_cons, hop] using hlen1,
                hexp1⟩
          refine ⟨X2, values2, ?_, hinv2, ?_, ?_⟩
          · rw [List.cons_append, createLoop_operator c _ _ _ hop, hg]
            exact hc
          · rw [hl, hleaves]
            simp [List.filter_cons, hopd]
          · rw [hi, hint]
            have : (X.filter isOperator).length = P.length + (X1.filter isOperator).length := by
              rw [e, List.filter_append, hPf, List.length_append]
            simp only [List.filter_cons, hop, if_true, List.length_cons]
            omega
      | false =>
        simp only [hop, Bool.false_eq_true, if_false] at hscan
        by_cases hleft : c = '('
        · subst hleft
          simp only [if_true] at hscan
          cases a with
          | true => simp at hscan
          | false =>
            simp only [Bool.false_eq_true, if_false] at hscan
            obtain ⟨X2, values2, hc, hinv2, hl, hi⟩ :=
              ih false (d + 1) a1 d1 ('(' :: X) values rest hscan
                ⟨by simp [hcount],
                  by
                    intro x hx
                    rcases List.mem_cons.mp hx with e1 | e1
                    · exact Or.inl e1
                    · exact hchars x e1,
                  by simpa [List.filter_cons, hop] using hlen,
                  hexp⟩
            refine ⟨X2, values2, ?_, hinv2, ?_, ?_⟩
            · rw [List.cons_append, createLoop_left]
              exact hc
            · rw [hl]
              simp [List.filter_cons, hopd]
            · rw [hi]
              simp [List.filter_cons, hop]
        · simp only [hleft, if_false] at hscan
          by_cases hright : c = ')'
          · subst hright
            simp only [if_true] at hscan
            cases a with
            | false => simp at hscan
            | true =>
              simp only [if_true] at hscan
              cases d with
              | zero => simp at hscan
              | succ d0 =>
                simp only at hscan
                have hcond : (fun top => decide (top ≠ cLeftParenthesis)) '(' = false := by
                  decide
                obtain ⟨P, X1, values1, e, hP, hg, hlen1, hexp1, hleaves, hint, hstop⟩ :=
                  generateWhile_inv (fun top => decide (top ≠ cLeftParenthesis)) hcond X values
                    hchars (by simpa using hlen) hexp
                obtain ⟨hP0, hPf⟩ := operators_count P hP
                have hX1count : X1.count '(' = d0 + 1 := by
                  rw [e, List.count_append, hP0] at hcount
                  omega
                obtain ⟨x, X2, hX1⟩ : ∃ x X2, X1 = x :: X2 := by
                  cases X1 with
                  | nil => simp at hX1count
                  | cons x X2 => exact ⟨x, X2, rfl⟩
                have hx : x = '(' := by
                  have := hstop x X2 hX1
                  simpa [cLeftParenthesis] using this
                subst hx
                subst hX1
                obtain ⟨X3, values3, hc, hinv3, hl, hi⟩ :=
                  ih true d0 a1 d1 X2 values1 rest hscan
                    ⟨by simpa using hX1count,
                      fun y hy => hchars y (by
                        rw [e]
                        exact List.mem_append_right _ (List.mem_cons_of_mem _ hy)),
                      by simpa [List.filter_cons] using hlen1,
                      hexp1⟩
                refine ⟨X3, values3, ?_, hinv3, ?_, ?_⟩
                · rw [List.cons_append, createLoop_right, hg]
                  exact hc
                · rw [hl, hleaves]
                  simp [List.filter_cons, hopd]
                · rw [hi, hint]
                  have hpar : isOperator '(' = false := by decide
                  have : (X.filter isOperator).length
                      = P.length + (X2.filter isOperator).length := by
                    rw [e, List.filter_append, hPf, List.length_append, List.filter_cons, hpar]
                    rfl
                  simp only [List.filter_cons, hop, Bool.false_eq_true, if_false]
                  omega
          · simp [hright] at hscan

end Parser

namespace Parser

open Utils.Constants Utils.Methods

/-- The validation loop over a stretch of an infix expression that is read through: no
character is rejected, and the two counters move as the depth does. -/
theorem validateLoop_scan (E : Str) :
    ∀ (a : Bool) (d : Nat) (a1 : Bool) (d1 : Nat) (init : Str) (prev : Char) (l r : Nat)
      (rest : Str),
      scanInfix E a d = some (a1, d1) → PrevOK a prev →
      ∃ init1 prev1 l1 r1,
        validateLoop (E ++ rest) (init ++ [prev]) l r
          = validateLoop rest (init1 ++ [prev1]) l1 r1
        ∧ PrevOK a1 prev1 ∧ init1 ++ [prev1] = init ++ [prev] ++ E
        ∧ l1 + r + d = l + r1 + d1 := by
  induction E with
  | nil =>
    intro a d a1 d1 init prev l r rest hscan hprev
    simp only [scanInfix, Option.some.injEq, Prod.mk.injEq] at hscan
    obtain ⟨e1, e2⟩ := hscan
    subst e1; subst e2
    exact ⟨init, prev, l, r, rfl, hprev, by simp, by omega⟩
  | cons c E ih =>
    intro a d a1 d1 init prev l r rest hscan hprev
    simp only [scanInfix] at hscan
    cases hopd : isOperand c with
    | true =>
      simp only [hopd, if_true] at hscan
      cases a with
      | true => simp at hscan
      | false =>
        simp only [Bool.false_eq_true, if_false] at hscan
        have hp : isdigit prev = false ∧ prev ≠ ')' := by
          simp only [PrevOK, Bool.false_eq_true, if_false] at hprev
          rcases hprev with h | h
          · exact ⟨operator_not_digit prev h, by intro e; subst e; exact absurd h (by decide)⟩
          · subst h; exact ⟨by decide, by decide⟩
        obtain ⟨init1, prev1, l1, r1, hv, hp1, hi, hc⟩ :=
          ih true d a1 d1 (init ++ [prev]) c l r rest hscan
            (by simp [PrevOK, hopd])
        refine ⟨init1, prev1, l1, r1, ?_, hp1, by rw [hi]; simp, hc⟩
        rw [List.cons_append, validateLoop_operand c prev _ init l r hopd hp.1 hp.2]
        exact hv
    | false =>
      simp only [hopd, Bool.false_eq_true, if_false] at hscan
      cases hop : isOperator c with
      | true =>
        simp only [hop, if_true] at hscan
        cases a with
        | false => simp at hscan
        | true =>
          simp only [if_true] at hscan
          have hp : isOperator prev = false ∧ prev ≠ '(' ∧ isspace prev = false := by
            simp only [PrevOK, if_true] at hprev
            rcases hprev with h | h
            · obtain ⟨_, h2, h3, h4⟩ := operand_facts prev h
              exact ⟨h2, h3, h4⟩
            · subst h; exact ⟨by decide, by decide, by decide⟩
          obtain ⟨init1, prev1, l1, r1, hv, hp1, hi, hc⟩ :=
            ih false d a1 d1 (init ++ [prev]) c l r rest hscan
              (by simp [PrevOK, hop])
          refine ⟨init1, prev1, l1, r1, ?_, hp1, by rw [hi]; simp, hc⟩
          rw [List.cons_append, validateLoop_operator c prev _ init l r hop hp.1 hp.2.1 hp.2.2]
          exact hv
      | false =>
        simp only [hop, Bool.false_eq_true, if_false] at hscan
        by_cases hleft : c = '('
        · subst hleft
          simp only [if_true] at hscan
          cases a with
          | true => simp at hscan
          | false =>
            simp only [Bool.false_eq_true, if_false] at hscan
            have hp : isdigit prev = false := by
              simp only [PrevOK, Bool.false_eq_true, if_false] at hprev
              rcases hprev with h | h
              · exact operator_not_digit prev h
              · subst h; decide
            obtain ⟨init1, prev1, l1, r1, hv, hp1, hi, hc⟩ :=
              ih false (d + 1) a1 d1 (init ++ [prev]) '(' (l + 1) r rest hscan
                (by simp [PrevOK])
            refine ⟨init1, prev1, l1, r1, ?_, hp1, by rw [hi]; simp, by omega⟩
            rw [List.cons_append, validateLoop_left prev _ init l r hp]
            exact hv
        · simp only [hleft, if_false] at hscan
          by_cases hright : c = ')'
          · subst hright
            simp only [if_true] at hscan
            cases a with
            | false => simp at hscan
            | true =>
              simp only [if_true] at hscan
              cases d with
              | zero => simp at hscan
              | succ d0 =>
                simp only at hscan
                obtain ⟨init1, prev1, l1, r1, hv, hp1, hi, hc⟩ :=
                  ih true d0 a1 d1 (init ++ [prev]) ')' l (r + 1) rest hscan
                    (by simp [PrevOK])
                refine ⟨init1, prev1, l1, r1, ?_, hp1, by rw [hi]; simp, by omega⟩
                rw [List.cons_append, validateLoop_right prev _ init l r]
                exact hv
          · simp [hright] at hscan

/-- C29. For every well-formed infix expression `E` and every letter `v`, `Parser::execute`
on the line `v=E` returns true with the left-hand side `v` and leaves exactly one tree on the
node stack: an expression tree (a leaf holds an operand and has no child, an internal node
holds an operator and has two children) with as many leaves as `E` has operand characters, as
many internal nodes as `E` has operator characters, and the operand characters of `E`, from
left to right, as its leaves from left to right. -/
theorem execute_wellFormed (s E : Str) (v : Char) (hv : isalpha v = true) (hE : WellFormed E)
    (hs : removeWhiteSpacesFromString s = v :: '=' :: E) :
    ∃ p t, execute (new s) = .ok (true, p) ∧ p.getOperandOfLHS = [v] ∧ p.getASTOfRHS = [t]
      ∧ t.isExpression = true
      ∧ t.leafCount = (E.filter isOperand).length
      ∧ t.internalCount = (E.filter isOperator).length
      ∧ t.leafChars = E.filter isOperand := by
  have hscan := scanInfix_wellFormed E hE 0
  obtain ⟨hne, hchars⟩ := wellFormed_chars E hE
  have hveq : v ≠ '=' := operand_ne v '=' (by simp [isOperand, hv]) (by decide)
  have hr : '=' ∉ E := fun h => hchars '=' h rfl
  -- the validation
  obtain ⟨init1, prev1, l1, r1, hval, hp1, hi, hc⟩ :=
    validateLoop_scan E false 0 true 0 [] '(' 0 0 [] hscan
      (by simp [PrevOK])
  have hlr : l1 = r1 := by omega
  subst hlr
  simp only [List.append_nil, validateLoop_nil] at hval
  have hlast : isOperator ((init1 ++ [prev1]).getLast?.getD '(') = false := by
    rw [List.getLast?_concat]
    simp only [PrevOK, if_true] at hp1
    rcases hp1 with h | h
    · exact operand_not_operator prev1 h
    · subst h; decide
  -- the construction
  obtain ⟨X1, values1, hcreate, hinv1, hleaves, hint⟩ :=
    createLoop_scan E false 0 true 0 [] [] [')'] hscan
      ⟨rfl, by simp, by simp, by simp⟩
  obtain ⟨hcount1, hchars1, hlen1, hexp1⟩ := hinv1
  have hcond : (fun top => decide (top ≠ cLeftParenthesis)) '(' = false := by decide
  obtain ⟨P, X2, values2, e, hP, hg, hlen2, hexp2, hleaves2, hint2, hstop⟩ :=
    generateWhile_inv (fun top => decide (top ≠ cLeftParenthesis)) hcond X1 values1 hchars1
      (by simpa using hlen1) hexp1
  obtain ⟨hP0, hPf⟩ := operators_count P hP
  have hX2 : X2 = [] := by
    cases X2 with
    | nil => rfl
    | cons x X3 =>
      exfalso
      have hx : x = '(' := by
        have := hstop x X3 rfl
        simpa [cLeftParenthesis] using this
      subst hx
      rw [e, List.count_append, hP0] at hcount1
      simp at hcount1
  subst hX2
  obtain ⟨t, ht⟩ : ∃ t, values2 = [t] := by
    match values2, hlen2 with
    | [t], _ => exact ⟨t, rfl⟩
    | [], h => simp at h
    | _ :: _ :: _, h => simp at h
  subst ht
  have hfull : createLoop ((init1 ++ [prev1]) ++ [')']) [] [] = .ok ([], [t]) := by
    rw [hi]
    simp only [List.nil_append, List.singleton_append, List.cons_append]
    rw [createLoop_left]
    have h0 : createLoop (E ++ [')']) ([] ++ ['(']) [] = createLoop [')'] (X1 ++ ['(']) values1 :=
      hcreate
    simp only [List.nil_append] at h0
    rw [h0, createLoop_right, hg]
    simp [Res.bind, createLoop]
  have hexec := execute_ok s E (init1 ++ [prev1]) v l1 [t] hs hveq hr hne hval hlast hfull
  refine ⟨_, t, hexec, rfl, rfl, hexp2 t (by simp), ?_, ?_, ?_⟩
  · rw [Node.leafCount_eq]
    have : t.leafChars = E.filter isOperand := by
      have h1 : stackLeaves [t] = stackLeaves values1 := hleaves2
      rw [hleaves] at h1
      simpa [stackLeaves] using h1
    rw [this]
  · have h1 : stackInternal [t] = stackInternal values1 + P.length := hint2
    have h2 : (X1.filter isOperator).length = P.length := by
      rw [e, List.append_nil, hPf]
    simp only [stackInternal, List.filter_nil, List.length_nil] at h1 hint
    omega
  · have h1 : stackLeaves [t] = stackLeaves values1 := hleaves2
    rw [hleaves] at h1
    simpa [stackLeaves] using h1

/-- C29 on the line `a = (4 + 5 * (7 - 3)) - 2` of the unit test, whose right-hand side
is derived in the grammar. -/
theorem execute_wellFormed_witness :
    ∃ p t, execute (new "a = (4 + 5 * (7 - 3)) - 2".toList) = .ok (true, p)
      ∧ p.getOperandOfLHS = ['a'] ∧ p.getASTOfRHS = [t]
      ∧ t.isExpression = true
      ∧ t.leafCount = ("(4+5*(7-3))-2".toList.filter isOperand).length
      ∧ t.internalCount = ("(4+5*(7-3))-2".toList.filter isOperator).length
      ∧ t.leafChars = "(4+5*(7-3))-2".toList.filter isOperand :=
  execute_wellFormed "a = (4 + 5 * (7 - 3)) - 2".toList "(4+5*(7-3))-2".toList 'a' (by decide)
    (WellFormed.binary "(4+5*(7-3))".toList ['2'] '-'
      (WellFormed.paren "4+5*(7-3)".toList
        (WellFormed.binary ['4'] "5*(7-3)".toList '+'
          (WellFormed.operand '4' (by decide)) (by decide)
          (WellFormed.binary ['5'] "(7-3)".toList '*'
            (WellFormed.operand '5' (by decide)) (by decide)
            (WellFormed.paren "7-3".toList
              (WellFormed.binary ['7'] ['3'] '-'
                (WellFormed.operand '7' (by decide)) (by decide)
                (WellFormed.operand '3' (by decide)))))))
      (by decide) (WellFormed.operand '2' (by decide)))
    rfl

end Parser

/-! ## Order and end of the cascade -/

namespace Calculator

open State

/-- C31 fails as stated: the lines `b=e-2`, `c=b+1`, `d=e/3` record under `e` the dependants
`b` then `d` and under `b` the dependant `c`; when they are recorded in a container that
holds more than twenty entries, `equal_range` enumerates `d` before `b`, and the line `e=2*4`
prints `e = 8`, `d = 2`, `b = 6`, `c = 7`. In a small container a third and a fourth
dependant are enumerated before the second: after `b=e+1`, `d=e+2`, `h=e+3`, `k=e+4` the line
`e=1` prints `b`, `k`, `h`, `d`. -/
theorem cascade_order_is_not_recording_order :
    ((Runner.processAll 3 {} crowdedInstructions).bind fun r =>
        .ok ((r.2.mState.mOperandDependenciesMap.filter fun entry =>
              decide (entry.1 = ['e']) || decide (entry.1 = ['b'])),
          r.2.mState.equalRange ['e'], r.2.mState.equalRange ['b'],
          r.2.mState.equalRange ['c'], r.2.mState.equalRange ['d']))
      = .ok ([(['e'], ['b']), (['b'], ['c']), (['e'], ['d'])],
          [['d'], ['b']], [['c']], [], [])
    ∧ ((Runner.processAll 3 {} (crowdedInstructions ++ ["e=2*4".toList])).bind
        fun r => .ok r.1)
      = .ok [[], [], [], [], [], [],
          ["e = 8".toList, "d = 2".toList, "b = 6".toList, "c = 7".toList]]
    ∧ ((Runner.processAll 2 {} ["b=e+1".toList, "d=e+2".toList, "h=e+3".toList,
          "k=e+4".toList, "e=1".toList]).bind fun r => .ok r.1)
      = .ok [[], [], [], [],
          ["e = 1".toList, "b = 2".toList, "k = 5".toList, "h = 4".toList,
            "d = 3".toList]] := by
  refine ⟨rfl, by decide, by decide⟩

/-- C31, amended. Let `equal_range` enumerate under `x` the dependants `b` then `d`, under
`b` the one dependant `c`, and none under `c` and `d`, and let the three pending expressions
become fully known: that of `b` once `x` has its value, that of `c` once `b` has, that of `d`
at its turn. Then `storeExpressionValue(x, n)` returns `x`, `b`, `c`, `d` in this order, each
with the value of its expression at that point, and stores the four values. -/
theorem cascade_depth_first (st : State) (x b c d : Str) (n vb vc vd : Int) (tb tc td : Node)
    (rb rc rd : List Node) (fuel : Nat)
    (hx : equalRange st x = [b, d]) (hb : equalRange st b = [c])
    (hc : equalRange st c = []) (hd : equalRange st d = [])
    (hpb : st.mExpressionsWithDependenciesMap b = some (tb :: rb))
    (hpc : st.mExpressionsWithDependenciesMap c = some (tc :: rc))
    (hpd : st.mExpressionsWithDependenciesMap d = some (td :: rd))
    (heb : Evaluator.execute tb (insertOrAssign st.mOperandValuesMap x n) = .ok (.integer vb))
    (hec : Evaluator.execute tc
        (insertOrAssign (insertOrAssign st.mOperandValuesMap x n) b vb) = .ok (.integer vc))
    (hed : Evaluator.execute td
        (insertOrAssign (insertOrAssign (insertOrAssign st.mOperandValuesMap x n) b vb) c vc)
      = .ok (.integer vd)) :
    st.storeExpressionValue (fuel + 3) x n
      = .ok ({ st with
          mOperandValuesMap :=
            insertOrAssign
              (insertOrAssign (insertOrAssign (insertOrAssign st.mOperandValuesMap x n) b vb)
                c vc)
              d vd },
        [(x, n), (b, vb), (c, vc), (d, vd)]) := by
  simp only [equalRange] at hx hb hc hd
  simp only [storeExpressionValue, storeValueAndCheckDependencies, equalRange, hx, hb, hc, hd,
    cascadeLoop, cascadeStep, hpb, hpc, hpd, heb, hec, hed, Res.bind, List.nil_append,
    List.cons_append]

/-- C31, amended, on the lines `b=e-2`, `c=b+1`, `d=e/3` in a fresh calculator, where
`equal_range` enumerates `b` then `d` under `e`: the store of `e = 8` returns `e`, `b`, `c`,
`d` in this order, as the line `e=2*4` shows; and on the lines of the integration test, where
`e=a+c` returns `e = 8`, `b = 6`, `d = 2`. -/
theorem cascade_depth_first_witness :
    depthFirstState.storeExpressionValue (0 + 3) ['e'] 8
      = .ok ({ depthFirstState with
          mOperandValuesMap :=
            insertOrAssign
              (insertOrAssign
                (insertOrAssign (insertOrAssign depthFirstState.mOperandValuesMap ['e'] 8)
                  ['b'] 6)
                ['c'] 7)
              ['d'] 2 },
        [(['e'], 8), (['b'], 6), (['c'], 7), (['d'], 2)])
    ∧ ((Runner.processAll 3 {} ["b=e-2".toList, "c=b+1".toList, "d=e/3".toList,
          "e=2*4".toList]).bind fun r => .ok r.1)
      = .ok [[], [], [], ["e = 8".toList, "b = 6".toList, "c = 7".toList, "d = 2".toList]]
    ∧ ((Runner.processAll 2 {} ["a=2+3".toList, "b=e-2".toList, "c=1+2".toList,
          "d=e/3".toList, "e=a+c".toList]).bind fun r => .ok r.1)
      = .ok [["a = 5".toList], [], ["c = 3".toList], [],
          ["e = 8".toList, "b = 6".toList, "d = 2".toList]] :=
  ⟨cascade_depth_first depthFirstState ['e'] ['b'] ['c'] ['d'] 8 6 7 2
      (Node.node '-' (Node.leaf 'e') (Node.leaf '2'))
      (Node.node '+' (Node.leaf 'b') (Node.leaf '1'))
      (Node.node '/' (Node.leaf 'e') (Node.leaf '3')) [] [] [] 0
      rfl rfl rfl rfl rfl rfl rfl (by decide) (by decide) (by decide),
    rfl, rfl⟩

theorem chainState_diverges (fuel : Nat) (k : Str) (v : Int)
    (hk : k = ['a'] ∨ k = ['b'] ∨ k = ['c']) :
    chainState.storeExpressionValue fuel k v = .outOfFuel := by
  apply State.store_diverges_of_cycle chainState cyclicNext
    (fun k => k = ['a'] ∨ k = ['b'] ∨ k = ['c']) ?_ fuel chainState [] k v
    (State.sameBookkeeping_refl _) hk
  intro k hk
  rcases hk with h | h | h <;> subst h
  · exact ⟨by decide, by decide, .node '+' (.leaf 'a') (.leaf '1'), [], by decide,
      by decide, by decide⟩
  · exact ⟨by decide, by decide, .node '+' (.leaf 'b') (.leaf '1'), [], by decide,
      by decide, by decide⟩
  · exact ⟨by decide, by decide, .node '+' (.leaf 'c') (.leaf '1'), [], by decide,
      by decide, by decide⟩

/-- Each run of `processAll` that returns leads from a reachable runner to a reachable
runner. -/
theorem reachable_processAll (fuel : Nat) (inputs : List Str) :
    ∀ (runner : Runner) (outs : List (List Str)) (runner1 : Runner),
      Runner.Reachable runner → Runner.processAll fuel runner inputs = .ok (outs, runner1) →
      Runner.Reachable runner1 := by
  induction inputs with
  | nil =>
    intro runner outs runner1 hr h
    simp only [Runner.processAll] at h
    injection h with h
    rw [← (Prod.mk.inj h).2]
    exact hr
  | cons input rest ih =>
    intro runner outs runner1 hr h
    simp only [Runner.processAll] at h
    obtain ⟨r, h1, h2⟩ := bind_eq_ok _ _ _ h
    obtain ⟨rs, h3, h4⟩ := bind_eq_ok _ _ _ h2
    injection h4 with h4
    rw [← (Prod.mk.inj h4).2]
    exact ih r.2 rs.1 rs.2 (Runner.Reachable.step fuel runner input r.1 r.2 hr h1) h3

/-- C32 at its failing input: the lines `b=a+1`, `c=b+1`, `a=c+1` are accepted and lead to a
reachable state in which the line `a=1`, and every call `storeExpressionValue("a", v)`, uses
up every recursion budget: the recursion goes round `a`, `b`, `c` without end. -/
theorem cascade_never_ends_on_chain :
    Runner.processAll 0 {} chainInstructions = .ok ([[], [], []], ⟨chainState⟩)
    ∧ Runner.Reachable ⟨chainState⟩
    ∧ (∀ fuel v, chainState.storeExpressionValue fuel ['a'] v = .outOfFuel)
    ∧ ∀ fuel, Runner.processInstruction fuel ⟨chainState⟩ "a=1".toList = .outOfFuel := by
  refine ⟨chainState_reached,
    reachable_processAll 0 chainInstructions {} _ _ Runner.Reachable.fresh chainState_reached,
    fun fuel v => chainState_diverges fuel ['a'] v (Or.inl rfl), ?_⟩
  intro fuel
  have hp : Parser.execute (Parser.new "a=1".toList)
      = .ok (true,
        { mLHSString := ['a'], mRHSString := "(1)".toList, mInputString := "a=1".toList,
          mRHSValueStack := [Node.leaf '1'] }) := rfl
  rw [processInstruction_of_parsed fuel ⟨chainState⟩ "a=1".toList _ (Node.leaf '1') [] hp rfl]
  have he : Evaluator.execute (Node.leaf '1') (State.getOperandValueMap chainState)
      = .ok (.integer 1) := rfl
  simp only [he, Res.bind, Parser.getOperandOfLHS]
  rw [chainState_diverges fuel ['a'] 1 (Or.inl rfl)]

end Calculator

namespace Evaluator

/-- C35 at its failing inputs: the lines `a=1/0` and `b=1/(2-2)` are accepted by the parser;
the value of their trees is the float `+inf`, the result of a division by zero, which has no
integer part to convert (the conversion to `int32_t` is undefined in C++; the model answers
the value an x86 conversion gives, and the runner prints `-2147483648`). The line `d=0/0`
gives a NaN, and the product of eleven nines a finite float that does not fit in 32 bits. -/
theorem execute_divides_by_zero :
    ((Parser.execute (Parser.new "a=1/0".toList)).bind fun parsed =>
        .ok (parsed.1, parsed.2.getASTOfRHS))
      = .ok (true, [.node '/' (.leaf '1') (.leaf '0')])
    ∧ floatValue (fun _ => none) (.node '/' (.leaf '1') (.leaf '0')) = F32.inf false
    ∧ F32.fitsInt32 (floatValue (fun _ => none) (.node '/' (.leaf '1') (.leaf '0'))) = false
    ∧ execute (.node '/' (.leaf '1') (.leaf '0')) (fun _ => none)
      = .ok (.integer F32.int32Indefinite)
    ∧ ((Parser.execute (Parser.new "b=1/(2-2)".toList)).bind fun parsed =>
        .ok (parsed.1, parsed.2.getASTOfRHS))
      = .ok (true, [.node '/' (.leaf '1') (.node '-' (.leaf '2') (.leaf '2'))])
    ∧ floatValue (fun _ => none) (.node '/' (.leaf '1') (.node '-' (.leaf '2') (.leaf '2')))
      = F32.inf false
    ∧ floatValue (fun _ => none) (.node '/' (.leaf '0') (.leaf '0')) = F32.nan
    ∧ ((Calculator.Runner.processAll 1 {} ["a=1/0".toList, "b=1/(2-2)".toList,
          "c=9*9*9*9*9*9*9*9*9*9*9".toList, "d=0/0".toList]).bind fun r => .ok r.1)
      = .ok [["a = -2147483648".toList], ["b = -2147483648".toList],
          ["c = -2147483648".toList], ["d = -2147483648".toList]] := by
  refine ⟨rfl, by decide, by decide, by decide, rfl, by decide, by decide, ?_⟩
  decide

end Evaluator

namespace Parser

/-- C36 at its failing input: `validateRHS` accepts the right-hand side `))((` (two
parentheses of each kind), `createASTforRHS` then reaches its last loop with a `(` on the
operator stack and an empty node stack, where `generateNewNode` changes nothing and the loop
never ends. -/
theorem execute_never_returns :
    (validateRHS { mRHSString := "))((".toList, mInputString := [] }).1 = true
    ∧ createLoop "())(()".toList [] [] = .ok (['('], [])
    ∧ generateNewNode ['('] [] = .ok (['('], [])
    ∧ createASTforRHS (validateRHS { mRHSString := "))((".toList, mInputString := [] }).2
      = .diverges
    ∧ execute (new "a=))((".toList) = .diverges := by
  refine ⟨rfl, rfl, rfl, rfl, rfl⟩

end Parser

/-! ## What the history records -/

namespace Calculator

open State

theorem recorded_undo (st : State) (n : Int) (h : Recorded st) :
    Recorded (st.undoLastRegisteredOperations n).1 := by
  by_cases hg : n ≤ 0 ∨ (st.mOperandOrderStack.length : Int) < n
  · simpa [undoLastRegisteredOperations, hg] using h
  · have hlen : n.toNat ≤ st.mOperandOrderStack.length := by omega
    obtain ⟨_, r2, r3, r4, _⟩ := undoLoop_spec n.toNat st [] hlen
    simp only [undoLastRegisteredOperations, hg, if_false]
    intro k hk
    rw [r2]
    have hnot : k ∉ st.mOperandOrderStack.take n.toNat := by
      intro hmem
      rw [r3 k, r4 k] at hk
      simp [hmem] at hk
    have hold : k ∈ st.mOperandOrderStack := by
      apply h k
      rw [r3 k, r4 k] at hk
      simpa [hnot] using hk
    rw [← List.take_append_drop n.toNat st.mOperandOrderStack] at hold
    rcases List.mem_append.mp hold with h1 | h1
    · exact absurd h1 hnot
    · exact h1

theorem recorded_store (fuel : Nat) (st : State) (x : Str) (v : Int) (st1 : State)
    (r : List (Str × Int)) (hs : st.storeExpressionValue fuel x v = .ok (st1, r))
    (h : Recorded st) : Recorded (st1.updateOperationOrder x) := by
  obtain ⟨f, l, _, hv, hp⟩ := store_post fuel st [] x v st1 r hs
  intro k hk
  simp only [updateOperationOrder, f.1, List.mem_cons]
  by_cases hkx : k = x
  · exact Or.inl hkx
  · right
    by_cases hkey : ∃ p ∈ l, p.1 = k
    · obtain ⟨p, hpl, e⟩ := hkey
      exact h k (Or.inr (by rw [← e]; exact hp p hpl))
    · apply h k
      rcases hk with hk | hk
      · left
        have hval : st1.mOperandValuesMap k = st.mOperandValuesMap k := by
          rw [hv, applyStores_cons, applyStores_of_not_key _ _ _
            (fun p hpl e => hkey ⟨p, hpl, e⟩)]
          simp [insertOrAssign, hkx]
        simp only [updateOperationOrder] at hk
        rwa [hval] at hk
      · right
        simp only [updateOperationOrder, f.2.2] at hk
        exact hk

theorem recorded_dependencies (st : State) (operand : Str) (expressionAST : List Node)
    (dependencies : Evaluator.Dependencies) (h : Recorded st) :
    Recorded ((st.storeExpressionDependencies operand expressionAST dependencies).2.updateOperationOrder
      operand) := by
  intro k hk
  unfold storeExpressionDependencies at hk ⊢
  split at hk
  · rename_i hc
    simp only [hc, if_true, updateOperationOrder, List.mem_cons] at hk ⊢
    exact Or.inr (h k hk)
  · rename_i hc
    simp only [hc, if_false, updateOperationOrder, List.mem_cons] at hk ⊢
    by_cases hkx : k = operand
    · exact Or.inl hkx
    · right
      apply h k
      simpa [insertOrAssign, hkx] using hk

/-- A call of `processInstruction` that returns keeps every operand that has a value or a
pending expression in the history. -/
theorem processInstruction_recorded (fuel : Nat) (runner : Runner) (input : Str)
    (out : List Str) (runner1 : Runner)
    (h : Runner.processInstruction fuel runner input = .ok (out, runner1))
    (hinv : Recorded runner.mState) : Recorded runner1.mState := by
  unfold Runner.processInstruction at h
  simp only at h
  split at h
  · split at h
    · injection h with h
      rw [← (Prod.mk.inj h).2]
      exact hinv
    · injection h with h
      rw [← (Prod.mk.inj h).2]
      exact hinv
  · injection h with h
    rw [← (Prod.mk.inj h).2]
    exact recorded_undo _ _ hinv
  · obtain ⟨parsed, _, h1⟩ := bind_eq_ok _ _ _ h
    obtain ⟨b, p⟩ := parsed
    cases b with
    | false =>
      simp only [Bool.not_false, if_true] at h1
      injection h1 with h1
      rw [← (Prod.mk.inj h1).2]
      exact hinv
    | true =>
      simp only [Bool.not_true, Bool.false_eq_true, if_false] at h1
      split at h1
      · exact Res.noConfusion h1
      · obtain ⟨res, _, h2⟩ := bind_eq_ok _ _ _ h1
        cases res with
        | integer value =>
          simp only at h2
          obtain ⟨stored, hs, h3⟩ := bind_eq_ok _ _ _ h2
          injection h3 with h3
          rw [← (Prod.mk.inj h3).2]
          exact recorded_store fuel _ _ _ stored.1 stored.2 hs hinv
        | dependencies deps =>
          simp only at h2
          split at h2
          · split at h2
            · injection h2 with h2
              rw [← (Prod.mk.inj h2).2]
              exact hinv
            · injection h2 with h2
              rw [← (Prod.mk.inj h2).2]
              exact recorded_dependencies _ _ _ _ hinv
          · injection h2 with h2
            rw [← (Prod.mk.inj h2).2]
            exact hinv

theorem reachable_recorded (runner : Runner) (h : Runner.Reachable runner) :
    Recorded runner.mState := by
  induction h with
  | fresh => intro k hk; simp at hk
  | step fuel runner input out runner1 _ hrun ih =>
    exact processInstruction_recorded fuel runner input out runner1 hrun ih

/-- C34. In every state of a runner reachable from the fresh calculator, every operand that
has a value or a pending expression occurs in the history; and
`getLastFulfilledOperation` returns the empty pair exactly when the value map is empty. -/
theorem history_records_every_operand (runner : Runner) (h : Runner.Reachable runner) :
    (∀ k, (runner.mState.mOperandValuesMap k).isSome = true
        ∨ (runner.mState.mExpressionsWithDependenciesMap k).isSome = true →
      k ∈ runner.mState.mOperandOrderStack)
    ∧ (runner.mState.getLastFulfilledOperation = ([], 0)
        ↔ ∀ k, runner.mState.mOperandValuesMap k = none) := by
  have hrec := reachable_recorded runner h
  refine ⟨hrec, ?_, ?_⟩
  · intro he k
    rcases lastFulfilledIn_cases runner.mState.mOperandValuesMap
        runner.mState.mOperandOrderStack with ⟨_, hn⟩ | ⟨pre, v, post, n, e, _, _, hl⟩
    · cases hk : runner.mState.mOperandValuesMap k with
      | none => rfl
      | some w =>
        have hmem := hrec k (Or.inl (by simp [hk]))
        rw [hn k hmem] at hk
        exact Option.noConfusion hk
    · exfalso
      unfold getLastFulfilledOperation at he
      rw [hl] at he
      have hv : v = [] := (Prod.mk.inj he).1
      have hlen := reachable_history runner h v (by rw [e]; simp)
      rw [hv] at hlen
      simp at hlen
  · intro hk
    exact lastFulfilledIn_none _ _ fun u _ => hk u

/-- C34 on the state after the six assignments of the integration test, and on the fresh
calculator, where the value map is empty and no result is available. -/
theorem history_records_every_operand_witness :
    ((∀ k, (assignedState.mOperandValuesMap k).isSome = true
        ∨ (assignedState.mExpressionsWithDependenciesMap k).isSome = true →
      k ∈ assignedState.mOperandOrderStack)
    ∧ (assignedState.getLastFulfilledOperation = ([], 0)
        ↔ ∀ k, assignedState.mOperandValuesMap k = none))
    ∧ (({} : State).getLastFulfilledOperation = ([], 0)
        ↔ ∀ k, ({} : State).mOperandValuesMap k = none) :=
  ⟨history_records_every_operand ⟨assignedState⟩
      (reachable_processAll 2 assignedInstructions {} _ _ Runner.Reachable.fresh
        (rfl : Runner.processAll 2 {} assignedInstructions
          = .ok ([["a = 5".toList], [], ["c = 3".toList], [],
              ["e = 8".toList, "b = 6".toList, "d = 2".toList], ["f = 7".toList]],
            ⟨assignedState⟩))),
    (history_records_every_operand {} Runner.Reachable.fresh).2⟩

end Calculator

/-! ## What removes a pending expression -/

namespace Calculator

open State

theorem storeExpressionDependencies_keeps_pending (st : State) (operand : Str)
    (expressionAST : List Node) (dependencies : Evaluator.Dependencies) (k : Str)
    (hk : (st.mExpressionsWithDependenciesMap k).isSome = true) :
    ((st.storeExpressionDependencies operand expressionAST
      dependencies).2.mExpressionsWithDependenciesMap k).isSome = true := by
  unfold storeExpressionDependencies
  split
  · exact hk
  · simp only [insertOrAssign]
    split
    · rfl
    · exact hk

/-- A call of `processInstruction` that returns and after which a pending expression is gone
was an undo that deleted the operand of that expression. -/
theorem processInstruction_pending (fuel : Nat) (runner : Runner) (input : Str)
    (out : List Str) (runner1 : Runner)
    (h : Runner.processInstruction fuel runner input = .ok (out, runner1)) (k : Str)
    (hk : (runner.mState.mExpressionsWithDependenciesMap k).isSome = true)
    (hgone : (runner1.mState.mExpressionsWithDependenciesMap k).isSome = false) :
    (getOperationRequest input).1 = SupportedOperation.UNDO
      ∧ ("delete ".toList ++ k) ∈ out := by
  have hsame : runner1 = runner → False := by
    intro e
    rw [e, hk] at hgone
    exact Bool.noConfusion hgone
  unfold Runner.processInstruction at h
  simp only at h
  split at h
  · exfalso
    split at h
    · injection h with h
      exact hsame (Prod.mk.inj h).2.symm
    · injection h with h
      exact hsame (Prod.mk.inj h).2.symm
  · rename_i hreq
    refine ⟨hreq, ?_⟩
    injection h with h
    obtain ⟨ho, hr⟩ := Prod.mk.inj h
    rw [← hr] at hgone
    rw [← ho]
    simp only at hgone
    by_cases hg : (getOperationRequest input).2.getD 0 ≤ 0
        ∨ (runner.mState.mOperandOrderStack.length : Int) < (getOperationRequest input).2.getD 0
    · exfalso
      simp only [undoLastRegisteredOperations, hg, if_true] at hgone
      rw [hk] at hgone
      exact Bool.noConfusion hgone
    · have hlen : ((getOperationRequest input).2.getD 0).toNat
          ≤ runner.mState.mOperandOrderStack.length := by omega
      obtain ⟨r1, _, _, r4, _⟩ :=
        undoLoop_spec ((getOperationRequest input).2.getD 0).toNat runner.mState [] hlen
      simp only [undoLastRegisteredOperations, hg, if_false] at hgone ⊢
      rw [r4 k] at hgone
      have hmem : k ∈ runner.mState.mOperandOrderStack.take
          ((getOperationRequest input).2.getD 0).toNat := by
        by_contra hnot
        rw [if_neg hnot, hk] at hgone
        exact Bool.noConfusion hgone
      rw [r1, List.nil_append]
      exact List.mem_map.mpr ⟨k, hmem, rfl⟩
  · exfalso
    obtain ⟨parsed, _, h1⟩ := bind_eq_ok _ _ _ h
    obtain ⟨b, p⟩ := parsed
    cases b with
    | false =>
      simp only [Bool.not_false, if_true] at h1
      injection h1 with h1
      exact hsame (Prod.mk.inj h1).2.symm
    | true =>
      simp only [Bool.not_true, Bool.false_eq_true, if_false] at h1
      split at h1
      · exact Res.noConfusion h1
      · obtain ⟨res, _, h2⟩ := bind_eq_ok _ _ _ h1
        cases res with
        | integer value =>
          simp only at h2
          obtain ⟨stored, hs, h3⟩ := bind_eq_ok _ _ _ h2
          injection h3 with h3
          rw [← (Prod.mk.inj h3).2] at hgone
          have hb := (store_post fuel _ [] _ _ stored.1 stored.2 hs).1.2.2
          simp only [updateOperationOrder, hb, hk] at hgone
          exact Bool.noConfusion hgone
        | dependencies deps =>
          simp only at h2
          split at h2
          · split at h2
            · injection h2 with h2
              exact hsame (Prod.mk.inj h2).2.symm
            · injection h2 with h2
              rw [← (Prod.mk.inj h2).2] at hgone
              simp only [updateOperationOrder] at hgone
              rw [storeExpressionDependencies_keeps_pending _ _ _ _ k hk] at hgone
              exact Bool.noConfusion hgone
          · injection h2 with h2
            exact hsame (Prod.mk.inj h2).2.symm

/-- C9, amended. A call of `storeExpressionValue` that returns leaves the pending-expression
map as it was: every variable resolved by the cascade (every entry of the returned list after
the first) still has its pending entry afterwards. A call of `storeExpressionDependencies`
keeps every entry that was present. And a pending entry is removed only by undo: when a
call of `processInstruction` returns and an entry that was present is gone, the line was an
undo request and the variable of the entry is among the deleted ones. -/
theorem storeExpressionValue_keeps_pending :
    (∀ (fuel : Nat) (st : State) (x : Str) (v : Int) (st1 : State) (r : List (Str × Int)),
      st.storeExpressionValue fuel x v = .ok (st1, r) →
      st1.mExpressionsWithDependenciesMap = st.mExpressionsWithDependenciesMap
        ∧ ∀ p ∈ r.tail, (st1.mExpressionsWithDependenciesMap p.1).isSome = true)
    ∧ (∀ (st : State) (operand : Str) (expressionAST : List Node)
        (dependencies : Evaluator.Dependencies) (k : Str),
      (st.mExpressionsWithDependenciesMap k).isSome = true →
      ((st.storeExpressionDependencies operand expressionAST
        dependencies).2.mExpressionsWithDependenciesMap k).isSome = true)
    ∧ (∀ (fuel : Nat) (runner : Runner) (input : Str) (out : List Str) (runner1 : Runner),
      Runner.processInstruction fuel runner input = .ok (out, runner1) →
      ∀ k, (runner.mState.mExpressionsWithDependenciesMap k).isSome = true →
        (runner1.mState.mExpressionsWithDependenciesMap k).isSome = false →
        (getOperationRequest input).1 = SupportedOperation.UNDO
          ∧ ("delete ".toList ++ k) ∈ out) := by
  refine ⟨?_, storeExpressionDependencies_keeps_pending, processInstruction_pending⟩
  intro fuel st x v st1 r h
  obtain ⟨f, l, e, _, hp⟩ := store_post fuel st [] x v st1 r h
  simp only [List.nil_append] at e
  subst e
  refine ⟨f.2.2, ?_⟩
  intro p hp1
  rw [f.2.2]
  exact hp p (by simpa using hp1)

/-- C9, amended, at the state after `f=g*7`: the call `storeExpressionValue("g", 6)` keeps the
entry of `f`, the line `f=h+1` keeps it (with the new tree), and the line `undo 1`, after
which the entry is gone, returns `delete f`. -/
theorem storeExpressionValue_keeps_pending_witness :
    (forwardStateResolved.mExpressionsWithDependenciesMap
        = forwardState.mExpressionsWithDependenciesMap
      ∧ ∀ p ∈ [(['g'], (6 : Int)), (['f'], 42)].tail,
        (forwardStateResolved.mExpressionsWithDependenciesMap p.1).isSome = true)
    ∧ ((forwardState.storeExpressionDependencies ['f']
        [Node.node '+' (Node.leaf 'h') (Node.leaf '1')]
        [['h']]).2.mExpressionsWithDependenciesMap ['f']).isSome = true
    ∧ ((getOperationRequest "undo 1".toList).1 = SupportedOperation.UNDO
      ∧ ("delete ".toList ++ ['f']) ∈ ["delete f".toList]) :=
  ⟨storeExpressionValue_keeps_pending.1 2 forwardState ['g'] 6 forwardStateResolved
      [(['g'], 6), (['f'], 42)] rfl,
    storeExpressionValue_keeps_pending.2.1 forwardState ['f']
      [Node.node '+' (Node.leaf 'h') (Node.leaf '1')] [['h']] ['f'] (by decide),
    storeExpressionValue_keeps_pending.2.2 2 ⟨forwardState⟩ "undo 1".toList
      ["delete f".toList] ⟨{ forwardState with
        mOperandOrderStack := [],
        mExpressionsWithDependenciesMap :=
          erase forwardState.mExpressionsWithDependenciesMap ['f'],
        mOperandValuesMap := erase forwardState.mOperandValuesMap ['f'] }⟩
      rfl ['f'] (by decide) (by decide)⟩

end Calculator

/-! ## How often a cascade reports an operand -/

namespace Calculator.State

end Calculator.State

namespace Calculator

open State

theorem sumState_reached :
    Runner.processAll 1 {} ["y=a+b".toList, "b=2".toList]
      = .ok ([[], ["b = 2".toList]], ⟨sumState⟩) := by
  rfl

end Calculator
